import Mathlib

/-!
# WaykiChain miner core (`src/miner/miner.cpp`)

A shallow embedding of the block production core: the delegate scheduler
(`ShuffleDelegates`, `GetCurrentDelegate`), the fuel-rate estimator
(`GetElementForBurn`) and the block assembler (`CreateNewBlock`).

Conventions of the embedding.

* A C++ function that can crash (division by zero, a read outside a vector, a
  null pointer) returns `Option`; `none` is the crash.  A loop is a structurally
  recursive function over a fuel argument; running out of fuel is `none` as well,
  so a result `some _` is always a result the C++ code computes.
* Machine integers are `Nat`/`Int`; a conversion or an unsigned operation that can
  wrap carries its explicit `% 2 ^ w`.
* Types, constants and collaborators declared outside `miner.cpp` (the hash
  writer, the transaction classes, the configuration constants, the state caches)
  are parameters of the definitions.
-/

namespace WaykiChain

/-! ## Machine integers -/

/-- Conversion of an integer value to `uint32_t`. -/
def toUInt32 (v : Int) : Nat := (v % 2 ^ 32).toNat

/-- Conversion of an integer value to `int` (32-bit two's complement). -/
def toInt32 (v : Int) : Int := (v + 2 ^ 31) % 2 ^ 32 - 2 ^ 31

/-- Truncating integer division of C++; `none` is the division by zero. -/
def cdiv (a b : Int) : Option Int := if b = 0 then none else some (Int.tdiv a b)

/-- Remainder of the truncating division of C++; `none` is the division by zero. -/
def cmod (a b : Int) : Option Int := if b = 0 then none else some (Int.tmod a b)

/-! ## Delegate scheduler -/

/-- Registration id of an account (`CRegID`): the height and index of the
registering transaction.  The scheduler only moves and compares these values. -/
structure CRegID where
  nHeight : Nat
  nIndex : Nat
deriving DecidableEq, Repr

/-- A 256-bit digest, as its bytes in memory order (`currendSeed.begin() + k`). -/
structure uint256 where
  bytes : List Nat

/-- The hash writer `CHashWriter` used by `ShuffleDelegates`; the class is declared
outside `miner.cpp`, so its four operations are parameters: construction,
`ss << string`, `ss << uint256` and `ss.GetHash()` (which may change the writer). -/
structure CHashWriter where
  State : Type
  init : State
  writeString : State → String → State
  writeHash : State → uint256 → State
  GetHash : State → uint256 × State

/-- The value of `memcpy(&currendTemp, currendSeed.begin() + off, 8)` on a
little-endian machine: bytes `off .. off + 7` as a 64-bit integer. -/
def readLE64 (seed : uint256) (off : Nat) : Nat :=
  (List.range 8).foldl (fun acc k => acc + (seed.bytes.getD (off + k) 0 % 256) * 256 ^ k) 0

/-- The round number computed on line 173, in `uint32_t` arithmetic:
`nCurHeight / TotalDelegateNum + (nCurHeight % TotalDelegateNum > 0 ? 1 : 0)`.
`N` is the `uint32_t TotalDelegateNum`, assumed non-zero here. -/
def roundNo (N : Nat) (nCurHeight : Int) : Nat :=
  let h := toUInt32 nCurHeight
  (h / N + (if h % N > 0 then 1 else 0)) % 2 ^ 32

/-- The seed source: `strprintf("%u", round number)`. -/
def seedSource (N : Nat) (nCurHeight : Int) : String :=
  toString (roundNo N nCurHeight)

/-- The body of the inner loop (lines 181-184): exchange `delegatesList[newIndex]`
and `delegatesList[i]`; a read outside the vector is the crash. -/
def swapDelegates (delegatesList : List CRegID) (newIndex i : Nat) : Option (List CRegID) :=
  match delegatesList[newIndex]?, delegatesList[i]? with
  | some regId, some di => some ((delegatesList.set newIndex di).set i regId)
  | _, _ => none

/-- The inner loop `for (x = 0; x < 4 && i < delCount; i++, x++)` (lines 179-185),
started at `x`, `i`; returns the final `i` and the list. -/
def shuffleInner (delCount : Nat) (currendSeed : uint256) :
    Nat → Nat → Nat → List CRegID → Option (Nat × List CRegID)
  | fuel, x, i, delegatesList =>
    if x < 4 ∧ i < delCount then
      match fuel with
      | 0 => none
      | fuel + 1 =>
        let currendTemp := readLE64 currendSeed (x * 8)
        let newIndex := (currendTemp % delCount) % 2 ^ 32
        match swapDelegates delegatesList newIndex i with
        | none => none
        | some l => shuffleInner delCount currendSeed fuel (x + 1) ((i + 1) % 2 ^ 32) l
    else some (i, delegatesList)

/-- The outer loop `for (i = 0; i < delCount; i++)` (lines 178-188): one group of
inner steps, then `ss << currendSeed; currendSeed = ss.GetHash();`. -/
def shuffleOuter (hw : CHashWriter) (delCount : Nat) :
    Nat → Nat → hw.State → uint256 → List CRegID → Option (List CRegID)
  | fuel, i, ss, currendSeed, delegatesList =>
    if i < delCount then
      match fuel with
      | 0 => none
      | fuel + 1 =>
        match shuffleInner delCount currendSeed 4 0 i delegatesList with
        | none => none
        | some (i1, l) =>
          let ss1 := hw.writeHash ss currendSeed
          let r := hw.GetHash ss1
          shuffleOuter hw delCount fuel ((i1 + 1) % 2 ^ 32) r.2 r.1 l
    else some delegatesList

/-- The function `ShuffleDelegates(nCurHeight, delegatesList)`, lines 171-189; the result is the
list left in place.  `totalDelegateNum` is `IniCfg().GetTotalDelegateNum()`. -/
def ShuffleDelegates (hw : CHashWriter) (totalDelegateNum : Nat) (nCurHeight : Int)
    (delegatesList : List CRegID) : Option (List CRegID) :=
  let TotalDelegateNum := totalDelegateNum % 2 ^ 32
  if TotalDelegateNum = 0 then none
  else
    let ss := hw.writeString hw.init (seedSource TotalDelegateNum nCurHeight)
    let r := hw.GetHash ss
    shuffleOuter hw TotalDelegateNum TotalDelegateNum 0 r.2 r.1 delegatesList

/-- The function `GetCurrentDelegate(currentTime, delegatesList, delegate)`, lines 117-125: the
returned flag and the value stored in `delegate`.  `blockInterval` is
`SysCfg().GetBlockInterval()`, `totalDelegateNum` is `IniCfg().GetTotalDelegateNum()`. -/
def GetCurrentDelegate (blockInterval : Int) (totalDelegateNum : Nat) (currentTime : Int)
    (delegatesList : List CRegID) : Option (Bool × CRegID) :=
  match cdiv currentTime blockInterval with
  | none => none
  | some slot =>
    match cmod slot totalDelegateNum with
    | none => none
    | some m =>
      let miner := toInt32 m
      if miner < 0 then none
      else
        match delegatesList[miner.toNat]? with
        | none => none
        | some delegate => some (true, delegate)

/-- A toy hash writer for evaluating the scheduler on concrete inputs: the state
is a counter, the digest repeats one byte. -/
def toyHashWriter : CHashWriter where
  State := Nat
  init := 0
  writeString := fun s str => s + str.length
  writeHash := fun s h => s + h.bytes.length
  GetHash := fun s => (⟨List.replicate 32 (s % 256)⟩, s + 1)

/-- Delegates `0 .. n-1`. -/
def sampleDelegates (n : Nat) : List CRegID := (List.range n).map (fun k => ⟨k, 1⟩)

/-! ## Fuel-rate estimator -/

/-- An entry of the block index (`CBlockIndex`), with the fields `miner.cpp` reads.
The `pprev` pointer is the list structure: a `CBlockIndex *` is the list of the
entry it points to followed by its ancestors, and `NULL` is the empty list. -/
structure CBlockIndex where
  nHeight : Int
  nTime : Int
  nFuel : Int
  nFuelRate : Int
  hash : Nat
deriving DecidableEq, Repr

/-- The constants and the setting read by `GetElementForBurn`; all are declared
outside `miner.cpp`.  `nBlock` is the value of the `int nBlock` of line 42, that is
`-blocksizeforburn`, `DEFAULT_BURN_BLOCK_SIZE` when it is not set. -/
structure BurnConfig where
  INIT_FUEL_RATES : Int
  MIN_FUEL_RATES : Int
  MAX_BLOCK_RUN_STEP : Nat
  nBlock : Int
deriving DecidableEq, Repr

/-- Conversion of a `double` value to `int`: the fractional part is discarded.  A value
outside the range of `int` is undefined in C++; it converts to `INT_MIN` on x86-64
(`cvttsd2si`), which is what is taken here. -/
def truncToInt (q : ℚ) : Int :=
  let t : Int := if 0 ≤ q then ⌊q⌋ else ⌈q⌉
  if -2 ^ 31 ≤ t ∧ t < 2 ^ 31 then t else -2 ^ 31

/-- The loop of lines 50-53, `count` iterations left: the new `nTotalStep`.  Reading
through a null `pTemp` or dividing by a zero `nFuelRate` is the crash. -/
def burnWindowLoop : Nat → List CBlockIndex → Int → Option Int
  | 0, _, nTotalStep => some nTotalStep
  | _ + 1, [], _ => none
  | count + 1, pTemp :: pprev, nTotalStep =>
    match cdiv pTemp.nFuel pTemp.nFuelRate with
    | none => none
    | some q => burnWindowLoop count pprev (nTotalStep + q * 100)

/-- Lines 47-54: `nAverateStep`, the average the thresholds are compared with. -/
def burnAverageStep (c : BurnConfig) (pIndex : List CBlockIndex) : Option Int :=
  match burnWindowLoop c.nBlock.toNat pIndex 0 with
  | none => none
  | some nTotalStep => cdiv nTotalStep c.nBlock

/-- Lines 55-64: the new rate from the average and the rate of the tip.  The `double`
products and comparisons are taken exactly, over the rationals. -/
def burnNewFuelRate (c : BurnConfig) (nAverateStep : Int) (nFuelRate : Int) : Int :=
  let newFuelRate : Int :=
    if (nAverateStep : ℚ) < (c.MAX_BLOCK_RUN_STEP : ℚ) * (75 / 100) then
      truncToInt ((nFuelRate : ℚ) * (9 / 10))
    else if (nAverateStep : ℚ) > (c.MAX_BLOCK_RUN_STEP : ℚ) * (85 / 100) then
      truncToInt ((nFuelRate : ℚ) * (11 / 10))
    else nFuelRate
  if newFuelRate < c.MIN_FUEL_RATES then c.MIN_FUEL_RATES else newFuelRate

/-- Lines 47-67: what `GetElementForBurn` computes once both early exits are passed. -/
def burnEstimate (c : BurnConfig) (pIndex : List CBlockIndex) : Option Int :=
  match pIndex with
  | [] => none
  | tip :: _ =>
    match burnAverageStep c pIndex with
    | none => none
    | some nAverateStep => some (burnNewFuelRate c nAverateStep tip.nFuelRate)

/-- The function `GetElementForBurn(pIndex)`, lines 38-68.  The product `nBlock * 2` of
line 43 is `int` arithmetic and wraps to 32 bits; the height is an `int` counted from
the genesis block, so `nHeight - 1` stays in range. -/
def GetElementForBurn (c : BurnConfig) (pIndex : List CBlockIndex) : Option Int :=
  match pIndex with
  | [] => some c.INIT_FUEL_RATES
  | tip :: _ =>
    if toInt32 (c.nBlock * 2) ≥ tip.nHeight - 1 then some c.INIT_FUEL_RATES
    else burnEstimate c pIndex

/-- A chain of `n` entries of heights `n - 1, …, 0` (tip first), every entry with the
same fuel and fuel rate. -/
def uniformChain (nFuel nFuelRate : Int) : Nat → List CBlockIndex
  | 0 => []
  | n + 1 => ⟨n, 10 * n, nFuel, nFuelRate, n⟩ :: uniformChain nFuel nFuelRate n

def sampleBurnConfig : BurnConfig := ⟨100, 1, 12000000, 2⟩


/-- Conversion of an integer value to `int64_t`. -/
def toInt64 (v : Int) : Int := (v + 2 ^ 63) % 2 ^ 64 - 2 ^ 63

/-- Conversion of an integer value to `uint64_t`. -/
def toUInt64 (v : Int) : Nat := (v % 2 ^ 64).toNat

/-- The transaction types `miner.cpp` distinguishes. -/
inductive TxType where
  | BLOCK_REWARD_TX
  | UCOIN_BLOCK_REWARD_TX
  | BLOCK_PRICE_MEDIAN_TX
  | OTHER_TX (n : Nat)
deriving DecidableEq, Repr

/-- The fee coin types of `GetPriorityTx`. -/
inductive CoinType where
  | WICC
  | WGRT
  | WUSD
  | OTHER (n : Nat)
deriving DecidableEq, Repr

/-- A transaction object (`CBaseTx` and its subclasses), with the fields and the
values of the accessors `miner.cpp` uses: `hash` is `GetHash()`, `nSerializeSize` is
`GetSerializeSize(SER_NETWORK, PROTOCOL_VERSION)`; `nRunStep` and `nFuelRate` are the
in-memory fields written during assembly. -/
structure CBaseTx where
  nTxType : TxType := TxType.OTHER_TX 0
  hash : Nat := 0
  nVersion : Int := 1
  txUid : CRegID := ⟨0, 0⟩
  nValidHeight : Int := 0
  nSerializeSize : Nat := 0
  nRunStep : Nat := 0
  nFuelRate : Int := 0
  rewardValue : Int := 0
  profits : Nat := 0
  medianPricePoints : List (Nat × Nat) := []
deriving DecidableEq, Repr

/-- The object `std::make_shared<CBlockRewardTx>()`. -/
def newBlockRewardTx : CBaseTx := { nTxType := TxType.BLOCK_REWARD_TX }

/-- The object `std::make_shared<CMultiCoinBlockRewardTx>()`. -/
def newMultiCoinBlockRewardTx : CBaseTx := { nTxType := TxType.UCOIN_BLOCK_REWARD_TX }

/-- The object `std::make_shared<CBlockPriceMedianTx>()`. -/
def newBlockPriceMedianTx : CBaseTx := { nTxType := TxType.BLOCK_PRICE_MEDIAN_TX }

/-- A block: the transaction list and the header fields. -/
structure CBlock where
  vptx : List CBaseTx := []
  hashPrevBlock : Nat := 0
  hashMerkleRoot : Nat := 0
  nTime : Int := 0
  nNonce : Nat := 0
  nHeight : Nat := 0
  nFuel : Int := 0
  nFuelRate : Int := 0
  vSignature : List Nat := []
deriving DecidableEq, Repr

/-- An entry of the memory pool (`CTxMemPoolEntry`): `GetTransaction()`,
`GetTxSize()`, `GetFees()` and `GetPriority()`. -/
structure CTxMemPoolEntry where
  tx : CBaseTx
  nTxSize : Nat
  feeCoin : CoinType
  nFees : Nat
  dPriority : ℚ
deriving DecidableEq, Repr

/-- A candidate `TxPriority = tuple<double, double, shared_ptr<CBaseTx>>`: priority,
fee per kilobyte, transaction.  A `double` is taken as the rational it stands for. -/
structure TxPriority where
  dPriority : ℚ
  dFeePerKb : ℚ
  tx : CBaseTx
deriving DecidableEq, Repr

/-- What `ExecuteTx` leaves: the returned flag, the cache it ran on, and the
`nRunStep` it stored in the transaction. -/
structure ExecResult (CW : Type) where
  ok : Bool
  cw : CW
  nRunStep : Nat

/-- The collaborators of the assembler, all declared outside `miner.cpp`: the state
cache `CCacheWrapper` (`CW`) with its copy constructor and `Flush()`, transaction
execution, `GetFuel`, `IsCoinBase`, the global transaction cache, the serialized size of
the block holding only its placeholder transactions, the median price oracles and the
adjusted time. -/
structure MinerEnv where
  CW : Type
  newCacheWrapper : CW → CW
  Flush : CW → CW → CW
  ExecuteTx : CBaseTx → Nat → Nat → CW → ExecResult CW
  GetFuel : CBaseTx → Int → Nat
  IsCoinBase : CBaseTx → Bool
  HaveTx : Nat → Bool
  blockSerializeSize : List CBaseTx → Nat
  bcoinMedianPrice : Nat
  fcoinMedianPrice : Nat
  kPercentBoost : Nat
  GetBlockMedianPricePoints : Nat → List (Nat × Nat)
  adjustedTime : Int

/-- The settings and constants read by `CreateNewBlock`: `blockmaxsize` is the value of
`SysCfg().GetArg("-blockmaxsize", DEFAULT_BLOCK_MAX_SIZE)`, `preStableCoin` is
`GetFeatureForkVersion(currHeight) == MAJOR_VER_R1`. -/
structure MinerConfig where
  burn : BurnConfig
  blockmaxsize : Int
  MAX_BLOCK_SIZE : Nat
  preStableCoin : Bool

/-! ## Priority selector -/

/-- The lambda `GetCoinMedianPrice` of lines 82-89. -/
def GetCoinMedianPrice (env : MinerEnv) : CoinType → Nat
  | CoinType.WICC => env.bcoinMedianPrice
  | CoinType.WGRT => env.fcoinMedianPrice
  | CoinType.WUSD => 1
  | CoinType.OTHER _ => 0

/-- The function `GetPriorityTx(vecPriority, nFuelRate)`, lines 71-103, over the memory pool in
iteration order.  `nFees - GetFuel(nFuelRate)` is a `uint64_t` difference; the `double`
arithmetic of lines 97-98 is taken exactly: the rounding of `double` is not modelled,
so two values that round to the same `double` stay distinct here. -/
def GetPriorityTx (env : MinerEnv) (mempool : List CTxMemPoolEntry)
    (vecPriority : List TxPriority) (nFuelRate : Int) : List TxPriority :=
  mempool.foldl (fun vec mi =>
    let pBaseTx := mi.tx
    if !env.IsCoinBase pBaseTx && !env.HaveTx pBaseTx.hash then
      let nTxSize : Nat := mi.nTxSize % 2 ^ 32
      let coinType := mi.feeCoin
      let nFees : Nat := mi.nFees % 2 ^ 64
      let diff : Nat := toUInt64 ((nFees : Int) - (env.GetFuel pBaseTx nFuelRate : Int))
      let dFeePerKb : ℚ := 1 * (GetCoinMedianPrice env coinType : ℚ) / (env.kPercentBoost : ℚ) *
        (diff : ℚ) / (nTxSize : ℚ) / 1000
      let dPriority := mi.dPriority
      vec ++ [⟨dPriority, dFeePerKb, mi.tx⟩]
    else vec) vecPriority

/-- Modelled from the spec: the comparison `TxPriorityCompare` of `miner.h`, not part
of `miner.cpp`.  §4.3: size-first mode (`byFee = false`) compares by `priority` first
with `fee_per_kb` as tiebreak, fee-first mode compares by `fee_per_kb` first with
`priority` as tiebreak.  `TxPriorityCompare byFee a b` is "`a` ranks below `b`". -/
def TxPriorityCompare (byFee : Bool) (a b : TxPriority) : Bool :=
  if byFee then
    if a.dFeePerKb = b.dFeePerKb then decide (a.dPriority < b.dPriority)
    else decide (a.dFeePerKb < b.dFeePerKb)
  else
    if a.dPriority = b.dPriority then decide (a.dFeePerKb < b.dFeePerKb)
    else decide (a.dPriority < b.dPriority)

/-! ### `std::make_heap`

The bottom-up construction of the GNU C++ library (`std::__make_heap`,
`std::__adjust_heap`, `std::__push_heap`), over a list for the vector. -/

/-- The library function `std::__push_heap(first, holeIndex, topIndex, value, comp)`. -/
def pushHeap {α : Type} (comp : α → α → Bool) (topIndex : Nat) (value : α) :
    Nat → List α → Nat → Option (List α)
  | fuel, first, holeIndex =>
    let parent := (holeIndex - 1) / 2
    if holeIndex > topIndex ∧ comp (first.getD parent value) value = true then
      match fuel with
      | 0 => none
      | fuel + 1 =>
        pushHeap comp topIndex value fuel (first.set holeIndex (first.getD parent value)) parent
    else some (first.set holeIndex value)

/-- The `while (secondChild < (len - 1) / 2)` loop of `std::__adjust_heap`; returns the
vector, `holeIndex` and `secondChild`. -/
def adjustHeapLoop {α : Type} (comp : α → α → Bool) (len : Nat) (value : α) :
    Nat → List α → Nat → Nat → Option (List α × Nat × Nat)
  | fuel, first, holeIndex, secondChild =>
    if secondChild < (len - 1) / 2 then
      match fuel with
      | 0 => none
      | fuel + 1 =>
        let sc := 2 * (secondChild + 1)
        let sc := if comp (first.getD sc value) (first.getD (sc - 1) value) = true then sc - 1 else sc
        adjustHeapLoop comp len value fuel (first.set holeIndex (first.getD sc value)) sc sc
    else some (first, holeIndex, secondChild)

/-- The library function `std::__adjust_heap(first, holeIndex, len, value, comp)`. -/
def adjustHeap {α : Type} (comp : α → α → Bool) (first : List α) (holeIndex len : Nat)
    (value : α) : Option (List α) :=
  match adjustHeapLoop comp len value len first holeIndex holeIndex with
  | none => none
  | some (first1, holeIndex1, secondChild) =>
    if len % 2 = 0 ∧ secondChild = (len - 2) / 2 then
      let sc := 2 * (secondChild + 1)
      pushHeap comp holeIndex value len
        (first1.set holeIndex1 (first1.getD (sc - 1) value)) (sc - 1)
    else pushHeap comp holeIndex value len first1 holeIndex1

/-- The loop of `std::__make_heap`: `parent` runs from `(len - 2) / 2` down to `0`. -/
def makeHeapLoop {α : Type} (comp : α → α → Bool) (len : Nat) :
    Nat → List α → Option (List α)
  | 0, first =>
    match first[0]? with
    | none => none
    | some value => adjustHeap comp first 0 len value
  | parent + 1, first =>
    match first[parent + 1]? with
    | none => none
    | some value =>
      match adjustHeap comp first (parent + 1) len value with
      | none => none
      | some first1 => makeHeapLoop comp len parent first1

/-- The library function `std::make_heap(first, last, comp)`. -/
def make_heap {α : Type} (comp : α → α → Bool) (first : List α) : Option (List α) :=
  if first.length < 2 then some first
  else makeHeapLoop comp first.length ((first.length - 2) / 2) first

/-! ## Block assembler -/

/-- The local variables of `CreateNewBlock` that the selection loop updates, with the
parent cache `cwIn` and the transaction list of the block. -/
structure AssemblyState (CW : Type) where
  cwIn : CW
  vptx : List CBaseTx
  nBlockSize : Nat
  nBlockTx : Nat
  nTotalRunStep : Nat
  nTotalFuel : Int

/-- One iteration of the selection loop, lines 343-403, for the candidate `item`.
The three `continue` statements leave the state as it is.  (The optional record of a
failed execution in the log cache is not part of the state.) -/
def assembleStep (env : MinerEnv) (MAX_BLOCK_RUN_STEP : Nat) (nHeight : Nat) (nFuelRate : Int)
    (nBlockMaxSize : Nat) (st : AssemblyState env.CW) (item : TxPriority) :
    AssemblyState env.CW :=
  let stx := item.tx
  let nTxSize := stx.nSerializeSize % 2 ^ 32
  if (st.nBlockSize + nTxSize) % 2 ^ 64 ≥ nBlockMaxSize then st
  else
    let spCW := env.newCacheWrapper st.cwIn
    let tx1 : CBaseTx := { stx with nFuelRate := nFuelRate }
    let r := env.ExecuteTx tx1 nHeight (st.nBlockTx + 1) spCW
    if r.ok = false then st
    else
      let tx2 : CBaseTx := { tx1 with nRunStep := r.nRunStep }
      if (st.nTotalRunStep + tx2.nRunStep) % 2 ^ 64 ≥ MAX_BLOCK_RUN_STEP then st
      else
        { cwIn := env.Flush r.cw st.cwIn
          vptx := st.vptx ++ [tx2]
          nBlockSize := (st.nBlockSize + tx2.nSerializeSize % 2 ^ 32) % 2 ^ 64
          nBlockTx := (st.nBlockTx + 1) % 2 ^ 64
          nTotalRunStep := (st.nTotalRunStep + tx2.nRunStep) % 2 ^ 64
          nTotalFuel := toInt64 (st.nTotalFuel + (env.GetFuel tx2 nFuelRate : Int)) }

/-- The size limit of lines 308-310:
`max(1000u, min((unsigned int)(MAX_BLOCK_SIZE - 1000), nBlockMaxSize))`. -/
def blockMaxSize (cfg : MinerConfig) : Nat :=
  max 1000 (min (toUInt32 ((cfg.MAX_BLOCK_SIZE : Int) - 1000)) (toUInt32 cfg.blockmaxsize))

/-- The placeholder transactions pushed on lines 298-305. -/
def placeholderTxs (cfg : MinerConfig) : List CBaseTx :=
  [newBlockRewardTx] ++
    (if cfg.preStableCoin then [newBlockRewardTx]
     else [newMultiCoinBlockRewardTx, newBlockPriceMedianTx])

/-- Modelled from the spec: `UpdateTime(*pBlock, pIndexPrev)` is defined outside
`miner.cpp`; §4.4 step 7 gives `time = max(tip.time + 1, adjusted_now)`. -/
def UpdateTime (adjustedNow : Int) (pIndexPrev : CBlockIndex) : Int :=
  max (pIndexPrev.nTime + 1) adjustedNow

/-- What `CreateNewBlock` leaves: the block, the parent cache, and the globals
`nLastBlockTx`, `nLastBlockSize` and `miningBlockInfo.{nTxCount, nBlockSize, nTotalFees}`. -/
structure NewBlockResult (CW : Type) where
  pBlock : CBlock
  cwIn : CW
  nLastBlockTx : Nat
  nLastBlockSize : Nat
  miningTxCount : Nat
  miningBlockSize : Nat
  miningTotalFees : Int

/-- Lines 405-427 of `CreateNewBlock`, after the selection loop: the globals, the
reward value `nTotalFees - nTotalFuel` (`nTotalFees` is never added to and stays `0`),
the median price points and the header.  Lines 416-419 are read as storing the median
price points of `nHeight` in `vptx[1]`. -/
def finishNewBlock (env : MinerEnv) (pIndexPrev : CBlockIndex) (nHeight : Nat) (nFuelRate : Int)
    (st : AssemblyState env.CW) : NewBlockResult env.CW :=
  let nTotalFees : Int := 0
  let vptx1 := st.vptx.modify
    (fun tx => { tx with rewardValue := toInt64 (nTotalFees - st.nTotalFuel) }) 0
  let vptx2 := vptx1.modify
    (fun tx => { tx with medianPricePoints := env.GetBlockMedianPricePoints nHeight }) 1
  { pBlock :=
      { vptx := vptx2
        hashPrevBlock := pIndexPrev.hash
        nNonce := 0
        nHeight := nHeight
        nFuel := st.nTotalFuel
        nFuelRate := nFuelRate
        nTime := UpdateTime env.adjustedTime pIndexPrev }
    cwIn := st.cwIn
    nLastBlockTx := st.nBlockTx
    nLastBlockSize := st.nBlockSize
    miningTxCount := st.nBlockTx
    miningBlockSize := st.nBlockSize
    miningTotalFees := nTotalFees }

/-- The function `CreateNewBlock(cwIn)`, lines 292-433.  `chainActive` is the active chain from its
tip backward (a null tip is the crash of line 327), `mempool` the memory pool in
iteration order. -/
def CreateNewBlock (env : MinerEnv) (cfg : MinerConfig) (chainActive : List CBlockIndex)
    (mempool : List CTxMemPoolEntry) (cwIn : env.CW) : Option (NewBlockResult env.CW) :=
  let vptx0 := placeholderTxs cfg
  let nBlockMaxSize := blockMaxSize cfg
  match chainActive with
  | [] => none
  | pIndexPrev :: _ =>
    let nHeight := toUInt32 (pIndexPrev.nHeight + 1)
    match GetElementForBurn cfg.burn chainActive with
    | none => none
    | some nFuelRate =>
      let nBlockSize := env.blockSerializeSize vptx0 % 2 ^ 64
      let txPriorities := GetPriorityTx env mempool [] nFuelRate
      match make_heap (TxPriorityCompare false) txPriorities with
      | none => none
      | some heap =>
        let st := heap.foldl
          (assembleStep env cfg.burn.MAX_BLOCK_RUN_STEP nHeight nFuelRate nBlockMaxSize)
          { cwIn := cwIn, vptx := vptx0, nBlockSize := nBlockSize, nBlockTx := 0,
            nTotalRunStep := 0, nTotalFuel := 0 }
        some (finishNewBlock env pIndexPrev nHeight nFuelRate st)

/-! ## Sample inputs -/

/-- A sample environment: the cache is the list of hashes of the transactions
executed on it, every execution succeeds and reports the run steps `run tx`, `GetFuel`
is `nRunStep * rate / 100`. -/
def sampleEnvWith (run : CBaseTx → Nat) : MinerEnv where
  CW := List Nat
  newCacheWrapper := fun cw => cw
  Flush := fun child _ => child
  ExecuteTx := fun tx _ _ cw => ⟨true, cw ++ [tx.hash], run tx⟩
  GetFuel := fun tx rate => (tx.nRunStep * rate.toNat / 100) % 2 ^ 64
  IsCoinBase := fun tx => decide (tx.nTxType = TxType.BLOCK_REWARD_TX)
  HaveTx := fun _ => false
  blockSerializeSize := fun vptx => 100 + 50 * vptx.length
  bcoinMedianPrice := 10000
  fcoinMedianPrice := 10000
  kPercentBoost := 10000
  GetBlockMedianPricePoints := fun _ => []
  adjustedTime := 1000

/-- The sample environment in which an execution reports the run steps the transaction
carries (at most `2 ^ 32 - 1`). -/
def sampleEnv : MinerEnv := sampleEnvWith (fun tx => tx.nRunStep % 2 ^ 32)

/-- The sample environment with every execution reporting the same `nRunStep`. -/
def constStepEnv (nRunStep : Nat) : MinerEnv := sampleEnvWith (fun _ => nRunStep)

def sampleMinerConfig : MinerConfig :=
  { burn := sampleBurnConfig, blockmaxsize := 4000000, MAX_BLOCK_SIZE := 4000000,
    preStableCoin := true }

/-- A memory pool entry with the given hash, priority and run steps. -/
def sampleEntry (hash : Nat) (dPriority : ℚ) (nRunStep : Nat) : CTxMemPoolEntry :=
  { tx := { hash := hash, nSerializeSize := 200, nRunStep := nRunStep }
    nTxSize := 200, feeCoin := CoinType.WICC, nFees := 100000, dPriority := dPriority }

/-- Three candidates in memory pool order, of priorities `1`, `3`, `2`. -/
def samplePool : List CTxMemPoolEntry :=
  [sampleEntry 1 1 10, sampleEntry 2 3 10, sampleEntry 3 2 10]

/-- Ten candidates of priorities `1 … 10`. -/
def tenCandidates : List CTxMemPoolEntry :=
  [sampleEntry 1 1 0, sampleEntry 2 2 0, sampleEntry 3 3 0, sampleEntry 4 4 0, sampleEntry 5 5 0,
   sampleEntry 6 6 0, sampleEntry 7 7 0, sampleEntry 8 8 0, sampleEntry 9 9 0, sampleEntry 10 10 0]

/-! ## Swaps of the shuffle -/

/-- The inner loop of lines 179-185 with the vector left out: the final `i` and the
pairs `(newIndex, i)` of the exchanges of line 182-184, in the order they are made. -/
def shuffleInnerSwaps (delCount : Nat) (currendSeed : uint256) :
    Nat → Nat → Nat → Option (Nat × List (Nat × Nat))
  | fuel, x, i =>
    if x < 4 ∧ i < delCount then
      match fuel with
      | 0 => none
      | fuel + 1 =>
        let currendTemp := readLE64 currendSeed (x * 8)
        let newIndex := (currendTemp % delCount) % 2 ^ 32
        match shuffleInnerSwaps delCount currendSeed fuel (x + 1) ((i + 1) % 2 ^ 32) with
        | none => none
        | some (i1, swaps) => some (i1, (newIndex, i) :: swaps)
    else some (i, [])

/-- The outer loop of lines 178-188 with the vector left out: the pairs
`(newIndex, i)` of all exchanges, in order. -/
def shuffleOuterSwaps (hw : CHashWriter) (delCount : Nat) :
    Nat → Nat → hw.State → uint256 → Option (List (Nat × Nat))
  | fuel, i, ss, currendSeed =>
    if i < delCount then
      match fuel with
      | 0 => none
      | fuel + 1 =>
        match shuffleInnerSwaps delCount currendSeed 4 0 i with
        | none => none
        | some (i1, swaps) =>
          let ss1 := hw.writeHash ss currendSeed
          let r := hw.GetHash ss1
          match shuffleOuterSwaps hw delCount fuel ((i1 + 1) % 2 ^ 32) r.2 r.1 with
          | none => none
          | some more => some (swaps ++ more)
    else some []

/-- The exchanges `ShuffleDelegates(nCurHeight, _)` makes, as pairs `(newIndex, i)`. -/
def ShuffleDelegatesSwaps (hw : CHashWriter) (totalDelegateNum : Nat) (nCurHeight : Int) :
    Option (List (Nat × Nat)) :=
  let TotalDelegateNum := totalDelegateNum % 2 ^ 32
  if TotalDelegateNum = 0 then none
  else
    let ss := hw.writeString hw.init (seedSource TotalDelegateNum nCurHeight)
    let r := hw.GetHash ss
    shuffleOuterSwaps hw TotalDelegateNum TotalDelegateNum 0 r.2 r.1

/-- The exchanges of a list of pairs made one after the other on a vector. -/
def applySwaps : List CRegID → List (Nat × Nat) → Option (List CRegID)
  | delegatesList, [] => some delegatesList
  | delegatesList, (newIndex, i) :: rest =>
    match swapDelegates delegatesList newIndex i with
    | none => none
    | some l => applySwaps l rest

/-! ## Mined block records -/

/-- A record of a mined block (`MinedBlockInfo`). -/
structure MinedBlockInfo where
  nTime : Int := 0
  nNonce : Nat := 0
  nHeight : Nat := 0
  nTotalFuels : Int := 0
  nFuelRate : Int := 0
  nTotalFees : Int := 0
  nTxCount : Nat := 0
  nBlockSize : Nat := 0
  hash : Nat := 0
  hashPrevBlock : Nat := 0
deriving DecidableEq, Repr

/-- The operation `push_front` of `boost::circular_buffer` with capacity `kMaxMinedBlocks`
(the constant is declared outside `miner.cpp`), the buffer being the list of its
elements from the front: a full buffer loses its last element, a buffer of capacity `0`
takes nothing. -/
def push_front (kMaxMinedBlocks : Nat) (minedBlocks : List MinedBlockInfo)
    (item : MinedBlockInfo) : List MinedBlockInfo :=
  if kMaxMinedBlocks = 0 then minedBlocks
  else if minedBlocks.length ≥ kMaxMinedBlocks then
    item :: minedBlocks.take (kMaxMinedBlocks - 1)
  else item :: minedBlocks

/-- The loop of lines 698-700, `remaining` iterations left, at index `i`; a read
outside the buffer is the crash. -/
def getMinedBlocksLoop (minedBlocks : List MinedBlockInfo) :
    Nat → Nat → List MinedBlockInfo → Option (List MinedBlockInfo)
  | 0, _, ret => some ret
  | remaining + 1, i, ret =>
    match minedBlocks[i]? with
    | none => none
    | some item => getMinedBlocksLoop minedBlocks remaining (i + 1) (ret ++ [item])

/-- The function `GetMinedBlocks(count)`, lines 694-703, on the ring `minedBlocks`. -/
def GetMinedBlocks (minedBlocks : List MinedBlockInfo) (count : Nat) :
    Option (List MinedBlockInfo) :=
  let count1 := min (minedBlocks.length % 2 ^ 32) (count % 2 ^ 32)
  getMinedBlocksLoop minedBlocks count1 0 []

/-- A record of the given height. -/
def sampleRecord (nHeight : Nat) : MinedBlockInfo := { nHeight := nHeight }

/-! ## Fee per kilobyte of the specification -/

/-- The fee per kilobyte of the specification (§4.3), in exact arithmetic:
`median_price(fee_coin) · (fee − tx.fuel(rate)) / size / 1000 / PERCENT_BOOST`. -/
def specFeePerKb (env : MinerEnv) (mi : CTxMemPoolEntry) (nFuelRate : Int) : ℚ :=
  (GetCoinMedianPrice env mi.feeCoin : ℚ) *
    ((mi.nFees : ℚ) - (env.GetFuel mi.tx nFuelRate : ℚ)) / (mi.nTxSize : ℚ) / 1000 /
    (env.kPercentBoost : ℚ)

/-- A memory pool entry paying 10 WUSD for a transaction of 20 run steps. -/
def underpaidEntry : CTxMemPoolEntry :=
  { tx := { hash := 7, nSerializeSize := 200, nRunStep := 20 }
    nTxSize := 200, feeCoin := CoinType.WUSD, nFees := 10, dPriority := 1 }

/-! ## Signing and verification -/

/-- An account (`CAccount`) with the fields `miner.cpp` reads: `minerPubKeyIsValid` is
`minerPubKey.IsValid()`. -/
structure CAccount where
  regId : CRegID
  keyId : Nat
  pubKey : Nat
  minerPubKey : Nat
  minerPubKeyIsValid : Bool
deriving DecidableEq, Repr

/-- The collaborators and constants of `CreateBlockRewardTx` and `VerifyPosTx`, all
declared outside `miner.cpp`: those of the assembler (`miner`), the hash writer, the
configuration (`GetBlockInterval`, `GetTotalDelegateNum`, `GetBlockMaxNonce`,
`GetGenesisBlockHash`), the constants, the delegate, account and transaction caches of a
cache wrapper, `txUndo.Clear()`, the block index map (`none` is a null pointer) and the
block store, the merkle tree and signature hash of a block, the signature check, the
wallet's `Sign` (`none` is failure), the value `GetRand` draws, and the inflation
interest of an account. -/
structure PosEnv where
  miner : MinerEnv
  hw : CHashWriter
  blockInterval : Int
  totalDelegateNum : Nat
  blockMaxNonce : Nat
  genesisBlockHash : Nat
  MAX_BLOCK_SIGNATURE_SIZE : Nat
  nTxVersion1 : Int
  MAX_BLOCK_RUN_STEP : Nat
  GetTopDelegates : miner.CW → Option (List CRegID)
  GetAccount : miner.CW → CRegID → Option CAccount
  txCacheHaveTx : miner.CW → Nat → Bool
  txUndoClear : miner.CW → miner.CW
  mapBlockIndex : Nat → Option Nat
  ReadBlockFromDisk : Nat → Option CBlock
  BuildMerkleTree : List CBaseTx → Nat
  ComputeSignatureHash : CBlock → Nat
  VerifySignature : Nat → List Nat → Nat → Bool
  Sign : Nat → Nat → Bool → Option (List Nat)
  GetRand : Nat → Nat
  ComputeBlockInflateInterest : CAccount → Nat → Nat

/-- The slot test shared by `CreateBlockRewardTx` (lines 130-144) and `VerifyPosTx`
(lines 214-229): `blockTime` is the signing time resp. the time of the block, `regId`
the RegId of the signing resp. the scheduled delegate.  `some true` lets the caller go
on, `some false` is `return false`, `none` is the crash (a null block index, a previous
block without transactions). -/
def slotCheck (env : PosEnv) (pBlock : CBlock) (accountCache : env.miner.CW) (blockTime : Int)
    (regId : CRegID) : Option Bool :=
  if pBlock.nHeight ≠ 1 ∨ pBlock.hashPrevBlock ≠ env.genesisBlockHash then
    match env.mapBlockIndex pBlock.hashPrevBlock with
    | none => none
    | some pBlockIndex =>
      match env.ReadBlockFromDisk pBlockIndex with
      | none => some false
      | some previousBlock =>
        match previousBlock.vptx with
        | [] => none
        | tx0 :: _ =>
          match env.GetAccount accountCache tx0.txUid with
          | none => some false
          | some previousDelegate =>
            if blockTime - previousBlock.nTime < env.blockInterval then
              if previousDelegate.regId = regId then some false else some true
            else some true
  else some true

/-- Lines 146-156 of `CreateBlockRewardTx`: the reward transaction `vptx[0]` with its
fields populated. -/
def populateRewardTx (env : PosEnv) (delegate : CAccount) (nHeight : Nat) (tx0 : CBaseTx) :
    CBaseTx :=
  if tx0.nTxType = TxType.BLOCK_REWARD_TX then
    { tx0 with txUid := delegate.regId, nValidHeight := (nHeight : Int) }
  else if tx0.nTxType = TxType.UCOIN_BLOCK_REWARD_TX then
    { tx0 with txUid := delegate.regId, nValidHeight := (nHeight : Int),
               profits := env.ComputeBlockInflateInterest delegate nHeight }
  else tx0

/-- The function `CreateBlockRewardTx(currentTime, delegate, accountCache, pBlock)`, lines
127-169: the returned flag and the block it leaves. -/
def CreateBlockRewardTx (env : PosEnv) (currentTime : Int) (delegate : CAccount)
    (accountCache : env.miner.CW) (pBlock : CBlock) : Option (Bool × CBlock) :=
  match slotCheck env pBlock accountCache currentTime delegate.regId with
  | none => none
  | some false => some (false, pBlock)
  | some true =>
    match pBlock.vptx with
    | [] => none
    | tx0 :: rest =>
      let b1 : CBlock := { pBlock with vptx := populateRewardTx env delegate pBlock.nHeight tx0 :: rest }
      let b2 : CBlock := { b1 with nNonce := env.GetRand env.blockMaxNonce % 2 ^ 32 }
      let b3 : CBlock := { b2 with hashMerkleRoot := env.BuildMerkleTree b2.vptx }
      let b4 : CBlock := { b3 with nTime := currentTime }
      match env.Sign delegate.keyId (env.ComputeSignatureHash b4) delegate.minerPubKeyIsValid with
      | some signature => some (true, { b4 with vSignature := signature })
      | none => some (false, b4)

/-- Lines 231-253 of `VerifyPosTx`: the account of `vptx[0].txUid`, the signature and
the version of the reward transaction.  The result is read as for `slotCheck`. -/
def verifySigner (env : PosEnv) (pBlock : CBlock) (spCW : env.miner.CW)
    (curDelegate : CAccount) : Option Bool :=
  match pBlock.vptx with
  | [] => none
  | tx0 :: _ =>
    match env.GetAccount spCW tx0.txUid with
    | none => some false
    | some account =>
      if curDelegate.regId ≠ account.regId then some false
      else
        let blockHash := env.ComputeSignatureHash pBlock
        let blockSignature := pBlock.vSignature
        if blockSignature.length = 0 ∨ blockSignature.length > env.MAX_BLOCK_SIGNATURE_SIZE then
          some false
        else if env.VerifySignature blockHash blockSignature account.pubKey = false ∧
            env.VerifySignature blockHash blockSignature account.minerPubKey = false then
          some false
        else if tx0.nVersion ≠ env.nTxVersion1 then some false
        else some true

/-- The totals of the execution loop of `VerifyPosTx` and whether the loop ran to its
end (`ok = false` is a `return false` inside the loop). -/
structure RunTotals where
  ok : Bool
  nTotalFuel : Nat
  nTotalRunStep : Nat
deriving DecidableEq, Repr

/-- The loop of lines 258-282 over the transactions from index `i` on; the totals are
`uint64_t`. -/
def verifyRunLoop (env : PosEnv) (nHeight : Nat) (nFuelRate : Int) :
    List CBaseTx → Nat → env.miner.CW → Nat → Nat → RunTotals
  | [], _, _, nTotalFuel, nTotalRunStep => ⟨true, nTotalFuel, nTotalRunStep⟩
  | pBaseTx :: rest, i, spCW, nTotalFuel, nTotalRunStep =>
    if env.txCacheHaveTx spCW pBaseTx.hash = true then ⟨false, nTotalFuel, nTotalRunStep⟩
    else
      let r := env.miner.ExecuteTx pBaseTx nHeight i (env.txUndoClear spCW)
      if r.ok = false then ⟨false, nTotalFuel, nTotalRunStep⟩
      else
        let tx1 : CBaseTx := { pBaseTx with nRunStep := r.nRunStep }
        let nTotalRunStep1 := (nTotalRunStep + tx1.nRunStep) % 2 ^ 64
        if nTotalRunStep1 > env.MAX_BLOCK_RUN_STEP then ⟨false, nTotalFuel, nTotalRunStep1⟩
        else
          verifyRunLoop env nHeight nFuelRate rest (i + 1) r.cw
            ((nTotalFuel + env.miner.GetFuel tx1 nFuelRate) % 2 ^ 64) nTotalRunStep1

/-- Lines 255-287 of `VerifyPosTx`: the execution check, `true` when it does not
reject. -/
def verifyRunTx (env : PosEnv) (pBlock : CBlock) (spCW : env.miner.CW) : Bool :=
  let t := verifyRunLoop env pBlock.nHeight pBlock.nFuelRate (pBlock.vptx.drop 1) 1 spCW 0 0
  if t.ok = false then false
  else if t.nTotalFuel ≠ toUInt64 pBlock.nFuel then false
  else true

/-- The function `VerifyPosTx(pBlock, cwIn, bNeedRunTx)`, lines 191-290; `none` is a crash. -/
def VerifyPosTx (env : PosEnv) (pBlock : CBlock) (cwIn : env.miner.CW) (bNeedRunTx : Bool) :
    Option Bool :=
  match env.GetTopDelegates cwIn with
  | none => some false
  | some topDelegates =>
    match ShuffleDelegates env.hw env.totalDelegateNum (toInt32 pBlock.nHeight) topDelegates with
    | none => none
    | some delegatesList =>
      match GetCurrentDelegate env.blockInterval env.totalDelegateNum pBlock.nTime
          delegatesList with
      | none => none
      | some (false, _) => some false
      | some (true, regId) =>
        match env.GetAccount cwIn regId with
        | none => some false
        | some curDelegate =>
          if pBlock.nNonce > env.blockMaxNonce then some false
          else if pBlock.hashMerkleRoot ≠ env.BuildMerkleTree pBlock.vptx then some false
          else
            let spCW := env.miner.newCacheWrapper cwIn
            match slotCheck env pBlock spCW pBlock.nTime curDelegate.regId with
            | none => none
            | some false => some false
            | some true =>
              match verifySigner env pBlock spCW curDelegate with
              | none => none
              | some false => some false
              | some true =>
                if bNeedRunTx = true then some (verifyRunTx env pBlock spCW) else some true

/-- What the execution check of `VerifyPosTx` sees of one transaction: its index, whether
the recent-tx cache has it, whether it executes, its run steps and its fuel. -/
structure RunStepInfo where
  nIndex : Nat
  inCache : Bool
  ok : Bool
  nRunStep : Nat
  fuel : Nat
deriving DecidableEq, Repr

/-- The transactions from index `i` on, each looked up in and executed against the
speculative cache the transactions before it have left (the cache and the execution of
lines 258-282, without the early returns). -/
def verifyRunTrace (env : PosEnv) (nHeight : Nat) (nFuelRate : Int) :
    List CBaseTx → Nat → env.miner.CW → List RunStepInfo
  | [], _, _ => []
  | pBaseTx :: rest, i, spCW =>
    let r := env.miner.ExecuteTx pBaseTx nHeight i (env.txUndoClear spCW)
    ⟨i, env.txCacheHaveTx spCW pBaseTx.hash, r.ok, r.nRunStep,
      env.miner.GetFuel { pBaseTx with nRunStep := r.nRunStep } nFuelRate⟩
      :: verifyRunTrace env nHeight nFuelRate rest (i + 1) r.cw

/-- The trace of the execution check of `VerifyPosTx(pBlock, cwIn, true)`: the
transactions after `vptx[0]`, from index 1, on the speculative copy of `cwIn`. -/
def blockRunTrace (env : PosEnv) (pBlock : CBlock) (cwIn : env.miner.CW) : List RunStepInfo :=
  verifyRunTrace env pBlock.nHeight pBlock.nFuelRate (pBlock.vptx.drop 1) 1
    (env.miner.newCacheWrapper cwIn)

/-- The scheduled producer as `MineBlock` resolves it (lines 505-528): top delegates,
shuffle for the height of the block, delegate of the slot of `currentTime`, its
account. -/
def scheduledDelegate (env : PosEnv) (cw : env.miner.CW) (nHeight : Nat) (currentTime : Int) :
    Option CAccount :=
  match env.GetTopDelegates cw with
  | none => none
  | some topDelegates =>
    match ShuffleDelegates env.hw env.totalDelegateNum (toInt32 nHeight) topDelegates with
    | none => none
    | some delegatesList =>
      match GetCurrentDelegate env.blockInterval env.totalDelegateNum currentTime
          delegatesList with
      | none => none
      | some (_, regId) => env.GetAccount cw regId

/-- The round trip of the specification (§8): assemble a block on the parent state
`cwIn`, sign it for the delegate scheduled at `currentTime`, and verify the signed block
against the same parent state.  The result is that of `VerifyPosTx`; `none` also when
the block is not produced or not signed. -/
def assembleSignVerify (env : PosEnv) (cfg : MinerConfig) (chainActive : List CBlockIndex)
    (mempool : List CTxMemPoolEntry) (cwIn : env.miner.CW) (currentTime : Int)
    (bNeedRunTx : Bool) : Option Bool :=
  match CreateNewBlock env.miner cfg chainActive mempool cwIn with
  | none => none
  | some res =>
    match scheduledDelegate env res.cwIn res.pBlock.nHeight currentTime with
    | none => none
    | some delegate =>
      match CreateBlockRewardTx env currentTime delegate res.cwIn res.pBlock with
      | some (true, signed) => VerifyPosTx env signed cwIn bNeedRunTx
      | _ => none

/-- A sample assembler environment over the cache "list of hashes of the executed
transactions", with the given `ExecuteTx`. -/
def listEnv (exec : CBaseTx → Nat → Nat → List Nat → ExecResult (List Nat)) : MinerEnv where
  CW := List Nat
  newCacheWrapper := fun cw => cw
  Flush := fun child _ => child
  ExecuteTx := exec
  GetFuel := fun tx rate => (tx.nRunStep * rate.toNat / 100) % 2 ^ 64
  IsCoinBase := fun tx => decide (tx.nTxType = TxType.BLOCK_REWARD_TX)
  HaveTx := fun _ => false
  blockSerializeSize := fun vptx => 100 + 50 * vptx.length
  bcoinMedianPrice := 10000
  fcoinMedianPrice := 10000
  kPercentBoost := 10000
  GetBlockMedianPricePoints := fun _ => []
  adjustedTime := 1000

/-- An execution that succeeds for every transaction, at every index. -/
def lenientExec : CBaseTx → Nat → Nat → List Nat → ExecResult (List Nat) :=
  fun tx _ _ cw => ⟨true, cw ++ [tx.hash], tx.nRunStep % 2 ^ 32⟩

/-- An execution that rejects a block reward transaction at an index other than `0`
and succeeds otherwise. -/
def strictExec : CBaseTx → Nat → Nat → List Nat → ExecResult (List Nat) :=
  fun tx _ nIndex cw =>
    if tx.nTxType = TxType.BLOCK_REWARD_TX ∧ nIndex ≠ 0 then ⟨false, cw, 0⟩
    else ⟨true, cw ++ [tx.hash], tx.nRunStep % 2 ^ 32⟩

/-- The account of a RegId in the sample environment. -/
def sampleAccount (regId : CRegID) : CAccount :=
  ⟨regId, regId.nHeight, regId.nHeight, regId.nHeight + 50, false⟩

/-- The block the sample environment stores as previous block: produced by
`prevProducer` at time 100. -/
def samplePreviousBlock (prevProducer : CRegID) : CBlock :=
  { vptx := [{ nTxType := TxType.BLOCK_REWARD_TX, txUid := prevProducer }]
    nTime := 100, nHeight := 2 }

/-- A sample environment for signing and verification: 3 delegates, slots of 10
seconds, a toy signature (`[key, hash]`), toy hashes. -/
def samplePosEnv (exec : CBaseTx → Nat → Nat → List Nat → ExecResult (List Nat))
    (prevProducer : CRegID) : PosEnv where
  miner := listEnv exec
  hw := toyHashWriter
  blockInterval := 10
  totalDelegateNum := 3
  blockMaxNonce := 1000
  genesisBlockHash := 0
  MAX_BLOCK_SIGNATURE_SIZE := 100
  nTxVersion1 := 1
  MAX_BLOCK_RUN_STEP := 12000000
  GetTopDelegates := fun _ => some (sampleDelegates 3)
  GetAccount := fun _ regId => some (sampleAccount regId)
  txCacheHaveTx := fun (cw : List Nat) hash => decide (hash ∈ cw)
  txUndoClear := fun cw => cw
  mapBlockIndex := fun hash => some hash
  ReadBlockFromDisk := fun _ => some (samplePreviousBlock prevProducer)
  BuildMerkleTree := fun vptx =>
    (vptx.map (fun tx => tx.hash + 7 * tx.txUid.nHeight + 13 * tx.nValidHeight.toNat + 1)).sum
  ComputeSignatureHash := fun b =>
    b.hashMerkleRoot + 3 * b.nNonce + 5 * b.nTime.toNat + 11 * b.nHeight + b.hashPrevBlock
  VerifySignature := fun hash signature pubKey => decide (signature = [pubKey, hash])
  Sign := fun keyId hash _ => some [keyId, hash]
  GetRand := fun nMax => nMax / 2
  ComputeBlockInflateInterest := fun _ _ => 0

/-- A block of height 3 on the previous block of hash 2, with one reward placeholder. -/
def sampleUnsignedBlock : CBlock :=
  { vptx := [newBlockRewardTx], hashPrevBlock := 2, nHeight := 3 }

/-- A signed block of height 3 at time 120: the reward transaction of the delegate
`⟨2, 1⟩` scheduled for that time, a second placeholder, and the toy signature of that
delegate. -/
def sampleSignedBlock : CBlock :=
  { vptx := [{ newBlockRewardTx with txUid := ⟨2, 1⟩, nValidHeight := 3 }, newBlockRewardTx]
    hashPrevBlock := 2, hashMerkleRoot := 55, nTime := 120, nNonce := 500, nHeight := 3
    nFuel := 0, nFuelRate := 100, vSignature := [2, 2190] }

/-- What `CreateNewBlock` returns on a tip of height 2 with an empty memory pool, before
the fork, in the sample environments: two reward placeholders and no other
transaction. -/
def sampleAssembled : NewBlockResult (List Nat) :=
  { pBlock :=
      { vptx := [newBlockRewardTx, newBlockRewardTx], hashPrevBlock := 2, nTime := 1000
        nHeight := 3, nFuelRate := 100 }
    cwIn := []
    nLastBlockTx := 0
    nLastBlockSize := 200
    miningTxCount := 0
    miningBlockSize := 200
    miningTotalFees := 0 }

/-! ## Well-formed block index -/

/-- Whether the iteration of the selection loop for `item` in the state `st` leaves
through one of its three `continue` statements: the size limit (line 352), a rejected
execution (line 369) or the run-step limit (line 381). -/
def skipsCandidate (env : MinerEnv) (MAX_BLOCK_RUN_STEP : Nat) (nHeight : Nat) (nFuelRate : Int)
    (nBlockMaxSize : Nat) (st : AssemblyState env.CW) (item : TxPriority) : Bool :=
  let nTxSize := item.tx.nSerializeSize % 2 ^ 32
  if (st.nBlockSize + nTxSize) % 2 ^ 64 ≥ nBlockMaxSize then true
  else
    let r := env.ExecuteTx { item.tx with nFuelRate := nFuelRate } nHeight (st.nBlockTx + 1)
      (env.newCacheWrapper st.cwIn)
    if r.ok = false then true
    else if (st.nTotalRunStep + r.nRunStep) % 2 ^ 64 ≥ MAX_BLOCK_RUN_STEP then true
    else false

/-- The candidates the selection loop does not skip, in the order it meets them, each
judged in the state the loop has reached. -/
def includedCandidates (env : MinerEnv) (MAX_BLOCK_RUN_STEP : Nat) (nHeight : Nat)
    (nFuelRate : Int) (nBlockMaxSize : Nat) :
    List TxPriority → AssemblyState env.CW → List TxPriority
  | [], _ => []
  | item :: rest, st =>
    if skipsCandidate env MAX_BLOCK_RUN_STEP nHeight nFuelRate nBlockMaxSize st item = true then
      includedCandidates env MAX_BLOCK_RUN_STEP nHeight nFuelRate nBlockMaxSize rest st
    else
      item :: includedCandidates env MAX_BLOCK_RUN_STEP nHeight nFuelRate nBlockMaxSize rest
        (assembleStep env MAX_BLOCK_RUN_STEP nHeight nFuelRate nBlockMaxSize st item)

/-- A state of the selection loop after two included transactions of 4000000 run steps
each. -/
def sampleAssemblyState : AssemblyState (List Nat) :=
  { cwIn := [1, 2], vptx := [], nBlockSize := 600, nBlockTx := 2, nTotalRunStep := 8000000
    nTotalFuel := 80000 }

/-- A candidate of the given hash, type, size and run steps. -/
def sampleCandidate (hash : Nat) (nTxType : TxType) (nSerializeSize nRunStep : Nat) :
    TxPriority :=
  { dPriority := 1, dFeePerKb := 0
    tx := { hash := hash, nTxType := nTxType, nSerializeSize := nSerializeSize
            nRunStep := nRunStep } }

/-! ## Submission of the signed block -/

/-- The collaborators of `MineBlock` and `CheckWork` beyond those of signing and
verification: whether the network is the regtest network, the capacity of the ring of
mined blocks, the hash of a block, and the wallet lookup
`GetKey(keyId.ToAddress(), key, isMiner)`. -/
structure MineEnv where
  pos : PosEnv
  isRegtest : Bool
  kMaxMinedBlocks : Nat
  GetHash : CBlock → Nat
  GetKey : Nat → Bool → Bool

/-- What one iteration of the loop of `MineBlock` observes of the node: whether
`vNodes` is empty, the chain tip at line 494, the clock, the chain tip under the lock
of line 535, the chain tip and the outcome of `ProcessBlock` inside `CheckWork`, and the
memory pool counter and the clock at line 572. -/
structure MineTick where
  vNodesEmpty : Bool
  tip : CBlockIndex
  now : Int
  tipAtSign : CBlockIndex
  tipAtCheck : CBlockIndex
  ProcessBlock : CBlock → Bool
  nTransactionsUpdated : Nat
  timeAtEnd : Int

/-- The function `CheckWork(pBlock, wallet)`, lines 463-480, with the chain tip and
`ProcessBlock` as the iteration observes them. -/
def CheckWork (tip : CBlockIndex) (ProcessBlock : CBlock → Bool) (pBlock : CBlock) : Bool :=
  if pBlock.hashPrevBlock ≠ tip.hash then false
  else if ProcessBlock pBlock = false then false
  else true

/-- What `MineBlock` leaves: the returned flag, the ring of mined blocks, the block and
`miningBlockInfo`. -/
structure MineOutcome where
  ret : Bool
  minedBlocks : List MinedBlockInfo
  pBlock : CBlock
  miningBlockInfo : MinedBlockInfo
deriving DecidableEq, Repr

/-- Lines 556-562: the fields of `miningBlockInfo` filled in from the signed block. -/
def fillMinedBlockInfo (env : MineEnv) (miningBlockInfo : MinedBlockInfo) (pBlock : CBlock) :
    MinedBlockInfo :=
  { miningBlockInfo with
    nTime := pBlock.nTime
    nNonce := pBlock.nNonce
    nHeight := pBlock.nHeight
    nTotalFuels := pBlock.nFuel
    nFuelRate := pBlock.nFuelRate
    hash := env.GetHash pBlock
    hashPrevBlock := env.GetHash pBlock }

/-- The function `MineBlock(pBlock, pWallet, pIndexPrev, nTransactionsUpdated, cw)`, lines
482-577, one element of the list per iteration of its loop (`none` when the list ends
before the loop does, and on a crash).  `nStart` is the clock at entry; the wait of
lines 497-502 lets the clock reach `pIndexPrev.time + BlockInterval` before
`currentTime` is read; the thread is not interrupted.  The value `CheckWork` returns
is not used by the source. -/
def MineBlock (env : MineEnv) (pIndexPrev : CBlockIndex) (nTransactionsUpdated : Nat)
    (nStart : Int) (cw : env.pos.miner.CW) :
    List MineTick → CBlock → MinedBlockInfo → List MinedBlockInfo → Option MineOutcome
  | [], _, _, _ => none
  | tick :: later, pBlock, miningBlockInfo, minedBlocks =>
    if tick.vNodesEmpty = true ∧ env.isRegtest = false then
      some ⟨false, minedBlocks, pBlock, miningBlockInfo⟩
    else if pIndexPrev ≠ tick.tip then some ⟨false, minedBlocks, pBlock, miningBlockInfo⟩
    else
      match env.pos.GetTopDelegates cw with
      | none => some ⟨false, minedBlocks, pBlock, miningBlockInfo⟩
      | some topDelegates =>
        match ShuffleDelegates env.pos.hw env.pos.totalDelegateNum (toInt32 pBlock.nHeight)
            topDelegates with
        | none => none
        | some delegatesList =>
          let currentTime := max tick.now (pIndexPrev.nTime + env.pos.blockInterval)
          match GetCurrentDelegate env.pos.blockInterval env.pos.totalDelegateNum currentTime
              delegatesList with
          | none => none
          | some (_, regId) =>
            match env.pos.GetAccount cw regId with
            | none => some ⟨false, minedBlocks, pBlock, miningBlockInfo⟩
            | some minerAcct =>
              if toUInt32 (tick.tipAtSign.nHeight + 1) ≠ pBlock.nHeight then
                some ⟨false, minedBlocks, pBlock, miningBlockInfo⟩
              else
                let signing : Option (Bool × CBlock) :=
                  if (env.GetKey minerAcct.keyId true || env.GetKey minerAcct.keyId false)
                      = true then
                    CreateBlockRewardTx env.pos currentTime minerAcct cw pBlock
                  else some (false, pBlock)
                match signing with
                | none => none
                | some (true, signed) =>
                  let _unused := CheckWork tick.tipAtCheck tick.ProcessBlock signed
                  let info := fillMinedBlockInfo env miningBlockInfo signed
                  some ⟨true, push_front env.kMaxMinedBlocks minedBlocks info, signed, info⟩
                | some (false, pBlock1) =>
                  if tick.nTransactionsUpdated ≠ nTransactionsUpdated
                      ∨ tick.timeAtEnd - nStart > 60 then
                    some ⟨false, minedBlocks, pBlock1, miningBlockInfo⟩
                  else
                    MineBlock env pIndexPrev nTransactionsUpdated nStart cw later pBlock1
                      miningBlockInfo minedBlocks

/-- The sample environment of `MineBlock`: the regtest network, a ring of 3 records, a
toy block hash, a wallet holding every key. -/
def sampleMineEnv : MineEnv where
  pos := samplePosEnv lenientExec ⟨0, 1⟩
  isRegtest := true
  kMaxMinedBlocks := 3
  GetHash := fun b => b.hashMerkleRoot + 1000 * b.nHeight
  GetKey := fun _ _ => true

/-- An iteration at clock 120 on the tip of height 2 and hash 2, in which the chain
has moved on to a tip of hash 9 by the time `CheckWork` runs and `ProcessBlock` would
reject every block. -/
def staleTick : MineTick :=
  { vNodesEmpty := false, tip := ⟨2, 100, 0, 100, 2⟩, now := 120
    tipAtSign := ⟨2, 100, 0, 100, 2⟩, tipAtCheck := ⟨3, 110, 0, 100, 9⟩
    ProcessBlock := fun _ => false, nTransactionsUpdated := 0, timeAtEnd := 120 }

/-! # Lemmas and theorems -/

/-! ## Delegate scheduler -/

theorem indicator_le_count (l : List CRegID) (a : CRegID) (i : Nat) (hi : i < l.length) :
    (if l[i] == a then 1 else 0) ≤ List.count a l := by
  by_cases h : l[i] = a
  · subst h
    have := List.count_pos_iff.mpr (List.getElem_mem hi)
    simp
  · simp [h]

/-- One exchange inside the vector returns and leaves a permutation. -/
theorem swapDelegates_some (l : List CRegID) (j i : Nat) (hj : j < l.length) (hi : i < l.length) :
    ∃ l1, swapDelegates l j i = some l1 ∧ l1.Perm l ∧ l1.length = l.length := by
  refine ⟨(l.set j l[i]).set i l[j], ?_, ?_, by simp⟩
  · simp [swapDelegates, List.getElem?_eq_getElem hj, List.getElem?_eq_getElem hi]
  · rw [List.perm_iff_count]
    intro a
    rw [List.count_set _ _ _ _ (by simpa using hi), List.count_set _ _ _ _ hj]
    have hp := indicator_le_count l a j hj
    by_cases hij : i = j
    · subst hij
      simp only [List.getElem_set_self]
      omega
    · rw [List.getElem_set_ne (by omega)]
      generalize (if l[j] == a then 1 else 0) = p at hp ⊢
      generalize (if l[i] == a then 1 else 0) = q
      omega

/-- The inner loop returns with fuel `4`, permutes the list and stops at
`min (i + (4 - x)) N`. -/
theorem shuffleInner_some (N : Nat) (seed : uint256) (hN : 0 < N) (hN32 : N < 2 ^ 32) :
    ∀ (fuel x i : Nat) (l : List CRegID), 4 ≤ fuel + x → i ≤ N → l.length = N →
      ∃ l1, shuffleInner N seed fuel x i l = some (min (i + (4 - x)) N, l1) ∧ l1.Perm l := by
  intro fuel
  induction fuel with
  | zero =>
    intro x i l hf hi hl
    refine ⟨l, ?_, List.Perm.refl _⟩
    unfold shuffleInner
    rw [if_neg (by omega)]
    congr 2
    omega
  | succ f ih =>
    intro x i l hf hi hl
    unfold shuffleInner
    by_cases hc : x < 4 ∧ i < N
    · rw [if_pos hc]
      have hidx : (readLE64 seed (x * 8) % N) % 2 ^ 32 < l.length := by
        have := Nat.mod_lt (readLE64 seed (x * 8)) hN
        rw [Nat.mod_eq_of_lt (by omega)]
        omega
      obtain ⟨l1, h1, hperm, hlen⟩ := swapDelegates_some l _ i hidx (by omega)
      simp only [h1]
      have hi1 : (i + 1) % 2 ^ 32 = i + 1 := Nat.mod_eq_of_lt (by omega)
      rw [hi1]
      obtain ⟨l2, h2, hperm2⟩ := ih (x + 1) (i + 1) l1 (by omega) (by omega) (by omega)
      refine ⟨l2, ?_, hperm2.trans hperm⟩
      rw [h2]
      congr 2
      omega
    · rw [if_neg hc]
      refine ⟨l, ?_, List.Perm.refl _⟩
      congr 2
      omega

/-- The outer loop returns once the fuel covers the remaining positions.  Each group
starts at a multiple of 5, so the increment of `i` cannot wrap even for
`N = 2 ^ 32 - 1`. -/
theorem shuffleOuter_some (hw : CHashWriter) (N : Nat) (hN : 0 < N) (hN32 : N < 2 ^ 32) :
    ∀ (fuel i : Nat) (ss : hw.State) (seed : uint256) (l : List CRegID),
      N ≤ fuel + i → i % 5 = 0 ∨ N ≤ i → l.length = N →
      ∃ l1, shuffleOuter hw N fuel i ss seed l = some l1 ∧ l1.Perm l := by
  intro fuel
  induction fuel with
  | zero =>
    intro i ss seed l hf hi hl
    unfold shuffleOuter
    rw [if_neg (by omega)]
    exact ⟨l, rfl, List.Perm.refl _⟩
  | succ f ih =>
    intro i ss seed l hf hi hl
    unfold shuffleOuter
    by_cases hc : i < N
    · rw [if_pos hc]
      obtain ⟨l1, h1, hperm⟩ :=
        shuffleInner_some N seed hN hN32 4 0 i l (by omega) (by omega) hl
      simp only [h1]
      have hnowrap : (min (i + (4 - 0)) N + 1) % 2 ^ 32 = min (i + (4 - 0)) N + 1 :=
        Nat.mod_eq_of_lt (by omega)
      rw [hnowrap]
      obtain ⟨l2, h2, hperm2⟩ := ih (min (i + (4 - 0)) N + 1)
        (hw.GetHash (hw.writeHash ss seed)).2
        (hw.GetHash (hw.writeHash ss seed)).1 l1 (by omega) (by omega)
        (by rw [hperm.length_eq]; exact hl)
      exact ⟨l2, h2, hperm2.trans hperm⟩
    · rw [if_neg hc]
      exact ⟨l, rfl, List.Perm.refl _⟩

/-- The call `ShuffleDelegates` returns on a list of `TotalDelegateNum` delegates. -/
theorem ShuffleDelegates_some (hw : CHashWriter) (N : Nat) (h : Int) (D : List CRegID)
    (hN : 1 ≤ N) (hN32 : N < 2 ^ 32) (hlen : D.length = N) :
    ∃ D1, ShuffleDelegates hw N h D = some D1 ∧ D1.Perm D := by
  have hmod : N % 2 ^ 32 = N := Nat.mod_eq_of_lt hN32
  unfold ShuffleDelegates
  simp only [hmod]
  rw [if_neg (by omega)]
  exact shuffleOuter_some hw N hN hN32 N 0 _ _ D (by omega) (by omega) hlen

theorem toUInt32_of_nonneg (h : Int) (h0 : 0 ≤ h) (h1 : h < 2 ^ 31) : toUInt32 h = h.toNat := by
  unfold toUInt32
  rw [Int.emod_eq_of_lt h0 (by omega)]

/-- For an `int` height `h ≥ 0` the `uint32_t` expression of line 173 is `⌈h / N⌉`. -/
theorem roundNo_eq_ceil (N : Nat) (h : Nat) (hN : 0 < N) (h1 : h < 2 ^ 31) :
    roundNo N (h : Int) = ⌈(h : ℚ) / (N : ℚ)⌉₊ := by
  have e : (roundNo N (h : Int) : Int) = ⌈(h : ℚ) / (N : ℚ)⌉ := by
    unfold roundNo
    simp only [toUInt32_of_nonneg (h : Int) (by omega) (by exact_mod_cast h1), Int.toNat_ofNat]
    have hq : h / N ≤ h := Nat.div_le_self h N
    have hsmall : (h / N + (if h % N > 0 then 1 else 0)) % 2 ^ 32
        = h / N + (if h % N > 0 then 1 else 0) :=
      Nat.mod_eq_of_lt (by split <;> omega)
    rw [hsmall]
    symm
    rw [Int.ceil_eq_iff]
    have hNq : (0 : ℚ) < (N : ℚ) := by exact_mod_cast hN
    have hdm : (h : ℚ) = (N : ℚ) * ((h / N : ℕ) : ℚ) + ((h % N : ℕ) : ℚ) := by
      exact_mod_cast (Nat.div_add_mod h N).symm
    have hr : ((h % N : ℕ) : ℚ) < (N : ℚ) := by exact_mod_cast Nat.mod_lt h hN
    have hr0 : (0 : ℚ) ≤ ((h % N : ℕ) : ℚ) := by positivity
    simp only [Int.cast_natCast]
    by_cases hz : h % N > 0
    · rw [if_pos hz]
      have hr1 : (1 : ℚ) ≤ ((h % N : ℕ) : ℚ) := by exact_mod_cast hz
      push_cast
      constructor
      · rw [lt_div_iff₀ hNq]; nlinarith
      · rw [div_le_iff₀ hNq]; nlinarith
    · rw [if_neg hz]
      have hr1 : ((h % N : ℕ) : ℚ) = 0 := by
        have : h % N = 0 := by omega
        rw [this]; simp
      push_cast
      constructor
      · rw [lt_div_iff₀ hNq]; nlinarith
      · rw [div_le_iff₀ hNq]; nlinarith
  have e2 := congrArg Int.toNat e
  rw [Int.toNat_ofNat] at e2
  rw [e2]
  exact Int.ceil_toNat _

/-- Claim C1. For every height `h` (in particular every `h ≥ 0`) and every delegate list
`D` of length `N = TotalDelegateNum`, `N ≥ 1` (a `uint32_t`), `ShuffleDelegates(h, D)` returns and the
list it leaves in place is a permutation of `D`: the same length and, for every RegId,
the same number of occurrences. -/
theorem ShuffleDelegates_perm (hw : CHashWriter) (N : Nat) (h : Int) (D : List CRegID)
    (hN : 1 ≤ N) (hN32 : N < 2 ^ 32) (hlen : D.length = N) :
    ∃ D1, ShuffleDelegates hw N h D = some D1 ∧ D1.Perm D ∧ D1.length = D.length ∧
      ∀ r : CRegID, D1.count r = D.count r := by
  obtain ⟨D1, h1, hperm⟩ := ShuffleDelegates_some hw N h D hN hN32 hlen
  exact ⟨D1, h1, hperm, hperm.length_eq, fun r => hperm.count_eq r⟩

theorem ShuffleDelegates_perm_witness :
    ∃ D1, ShuffleDelegates toyHashWriter 11 22 (sampleDelegates 11) = some D1 ∧
      D1.Perm (sampleDelegates 11) ∧ D1.length = (sampleDelegates 11).length ∧
      ∀ r : CRegID, D1.count r = (sampleDelegates 11).count r :=
  ShuffleDelegates_perm toyHashWriter 11 22 (sampleDelegates 11) (by decide) (by decide)
    (by decide)

/-- Claim C2. `ShuffleDelegates` depends on the height only through the round number: for
a delegate list `D` of length `N` and two `int` heights `h1, h2 ≥ 0` with
`⌈h1 / N⌉ = ⌈h2 / N⌉`, both calls return the same order; the seed source is the decimal
string of `⌈height / N⌉`, and `N = 11`, `height = 22` gives round `2` and seed source
`"2"`. -/
theorem ShuffleDelegates_round (hw : CHashWriter) (N : Nat) (h1 h2 : Nat) (D : List CRegID)
    (hN : 1 ≤ N) (hN32 : N < 2 ^ 32) (hlen : D.length = N)
    (hh1 : h1 < 2 ^ 31) (hh2 : h2 < 2 ^ 31)
    (hround : ⌈(h1 : ℚ) / (N : ℚ)⌉₊ = ⌈(h2 : ℚ) / (N : ℚ)⌉₊) :
    (∃ D1, ShuffleDelegates hw N (h1 : Int) D = some D1 ∧
        ShuffleDelegates hw N (h2 : Int) D = some D1) ∧
      seedSource N (h1 : Int) = toString ⌈(h1 : ℚ) / (N : ℚ)⌉₊ ∧
      roundNo 11 22 = 2 ∧ seedSource 11 22 = "2" := by
  have e1 := roundNo_eq_ceil N h1 hN hh1
  have e2 := roundNo_eq_ceil N h2 hN hh2
  have hs : seedSource N (h1 : Int) = seedSource N (h2 : Int) := by
    unfold seedSource
    rw [e1, e2, hround]
  have hmod : N % 2 ^ 32 = N := Nat.mod_eq_of_lt (by omega)
  refine ⟨?_, by unfold seedSource; rw [e1], by decide, by decide⟩
  obtain ⟨D1, hD1, _⟩ := ShuffleDelegates_some hw N (h1 : Int) D hN hN32 hlen
  refine ⟨D1, hD1, ?_⟩
  rw [← hD1]
  unfold ShuffleDelegates
  simp only [hmod, hs]

theorem ShuffleDelegates_round_witness :
    (∃ D1, ShuffleDelegates toyHashWriter 11 ((12 : Nat) : Int) (sampleDelegates 11) = some D1 ∧
        ShuffleDelegates toyHashWriter 11 ((22 : Nat) : Int) (sampleDelegates 11) = some D1) ∧
      seedSource 11 ((12 : Nat) : Int) = toString ⌈((12 : Nat) : ℚ) / ((11 : Nat) : ℚ)⌉₊ ∧
      roundNo 11 22 = 2 ∧ seedSource 11 22 = "2" :=
  ShuffleDelegates_round toyHashWriter 11 12 22 (sampleDelegates 11) (by decide) (by decide)
    (by decide) (by decide) (by decide)
    (by rw [← roundNo_eq_ceil 11 12 (by decide) (by decide),
      ← roundNo_eq_ceil 11 22 (by decide) (by decide)]; decide)



theorem toInt32_of_small (m : Int) (h0 : 0 ≤ m) (h1 : m < 2 ^ 31) : toInt32 m = m := by
  unfold toInt32
  rw [Int.emod_eq_of_lt (by omega) (by omega)]
  omega

/-- Claim C3. For every time `t ≥ 0` and every delegate list `L` of length
`N = TotalDelegateNum`, `GetCurrentDelegate(t, L)` returns `true` and sets the producer
to `L[(t / BlockInterval) mod N]`, an index within the bounds of `L`; hence two times
of the same `BlockInterval`-second slot resolve to the same producer. -/
theorem GetCurrentDelegate_slot (BlockInterval N t : Nat) (L : List CRegID)
    (hBI : 0 < BlockInterval) (hN : 1 ≤ N) (hN31 : N < 2 ^ 31) (hlen : L.length = N) :
    (∃ hlt : (t / BlockInterval) % N < L.length,
      GetCurrentDelegate (BlockInterval : Int) N (t : Int) L
        = some (true, L.get ⟨(t / BlockInterval) % N, hlt⟩)) ∧
    ∀ t2 : Nat, t2 / BlockInterval = t / BlockInterval →
      GetCurrentDelegate (BlockInterval : Int) N (t2 : Int) L
        = GetCurrentDelegate (BlockInterval : Int) N (t : Int) L := by
  have key : ∀ s : Nat, ∃ hlt : (s / BlockInterval) % N < L.length,
      GetCurrentDelegate (BlockInterval : Int) N (s : Int) L
        = some (true, L.get ⟨(s / BlockInterval) % N, hlt⟩) := by
    intro s
    have hlt : (s / BlockInterval) % N < L.length := by
      rw [hlen]; exact Nat.mod_lt _ (by omega)
    refine ⟨hlt, ?_⟩
    have hd : Int.tdiv (s : Int) (BlockInterval : Int) = ((s / BlockInterval : Nat) : Int) := by
      rw [Int.tdiv_eq_ediv (Int.ofNat_nonneg _) (Int.ofNat_nonneg _)]
      norm_cast
    have hm : Int.tmod ((s / BlockInterval : Nat) : Int) (N : Int)
        = (((s / BlockInterval) % N : Nat) : Int) := by
      rw [Int.tmod_eq_emod (Int.ofNat_nonneg _) (Int.ofNat_nonneg _)]
      norm_cast
    have h32 : toInt32 (((s / BlockInterval) % N : Nat) : Int) = (((s / BlockInterval) % N : Nat) : Int) :=
      toInt32_of_small _ (Int.ofNat_nonneg _) (by
        have := Nat.mod_lt (s / BlockInterval) (show 0 < N by omega)
        exact_mod_cast (show (s / BlockInterval) % N < 2 ^ 31 by omega))
    unfold GetCurrentDelegate cdiv cmod
    rw [if_neg (by omega)]
    simp only [hd]
    rw [if_neg (by omega)]
    simp only [hm, h32]
    rw [if_neg (by omega)]
    simp only [Int.toNat_ofNat, List.getElem?_eq_getElem hlt]
    rfl
  refine ⟨key t, ?_⟩
  intro t2 h2
  obtain ⟨_, e1⟩ := key t
  obtain ⟨_, e2⟩ := key t2
  rw [e1, e2]
  simp only [h2]

theorem GetCurrentDelegate_slot_witness :
    (∃ hlt : (125 / 10) % 11 < (sampleDelegates 11).length,
      GetCurrentDelegate ((10 : Nat) : Int) 11 ((125 : Nat) : Int) (sampleDelegates 11)
        = some (true, (sampleDelegates 11).get ⟨(125 / 10) % 11, hlt⟩)) ∧
    ∀ t2 : Nat, t2 / 10 = 125 / 10 →
      GetCurrentDelegate ((10 : Nat) : Int) 11 (t2 : Int) (sampleDelegates 11)
        = GetCurrentDelegate ((10 : Nat) : Int) 11 ((125 : Nat) : Int) (sampleDelegates 11) :=
  GetCurrentDelegate_slot 10 11 125 (sampleDelegates 11) (by decide) (by decide) (by decide)
    (by decide)


/-! ## Fuel-rate estimator -/

theorem truncToInt_of_nonneg (q : ℚ) (h : 0 ≤ q) (hfit : q < 2 ^ 31) : truncToInt q = ⌊q⌋ := by
  have h0 : (0 : Int) ≤ ⌊q⌋ := Int.floor_nonneg.mpr h
  have h1 : ⌊q⌋ < 2 ^ 31 := by
    rw [Int.floor_lt]
    exact_mod_cast hfit
  unfold truncToInt
  simp only [if_pos h]
  rw [if_pos ⟨by omega, h1⟩]

/-- A value above the range of `int` converts to `INT_MIN`. -/
theorem truncToInt_of_large (q : ℚ) (h : (2 : ℚ) ^ 31 ≤ q) : truncToInt q = -2 ^ 31 := by
  have h0 : (0 : ℚ) ≤ q := le_trans (by positivity) h
  have h1 : (2 : Int) ^ 31 ≤ ⌊q⌋ := by
    rw [Int.le_floor]
    exact_mod_cast h
  unfold truncToInt
  simp only [if_pos h0]
  rw [if_neg (by omega)]

/-- The `int` value of an `int` product that does not leave the range. -/
theorem toInt32_of_range (x : Int) (h0 : -2 ^ 31 ≤ x) (h1 : x < 2 ^ 31) : toInt32 x = x := by
  unfold toInt32
  rw [Int.emod_eq_of_lt (by omega) (by omega)]
  omega

/-- Wrapping to `int` does not raise a value that is not below the range. -/
theorem toInt32_le_self (x : Int) (h0 : -2 ^ 31 ≤ x) : toInt32 x ≤ x := by
  by_cases h1 : x < 2 ^ 31
  · rw [toInt32_of_range x h0 h1]
  · unfold toInt32
    have := Int.emod_lt_of_pos (x + 2 ^ 31) (show (0 : Int) < 2 ^ 32 by norm_num)
    omega

/-- The loop adds, for each of the first `n` entries, `nFuel / nFuelRate * 100`. -/
theorem burnWindowLoop_eq : ∀ (n : Nat) (chain : List CBlockIndex) (total : Int),
    n ≤ chain.length → (∀ b ∈ chain.take n, b.nFuelRate ≠ 0) →
    burnWindowLoop n chain total
      = some (total + ((chain.take n).map (fun b => Int.tdiv b.nFuel b.nFuelRate * 100)).sum) := by
  intro n
  induction n with
  | zero => intro chain total _ _; simp [burnWindowLoop]
  | succ k ih =>
    intro chain total hlen hrate
    cases chain with
    | nil => simp at hlen
    | cons b rest =>
      have hb : b.nFuelRate ≠ 0 := hrate b (by simp)
      have hrest : ∀ x ∈ rest.take k, x.nFuelRate ≠ 0 := fun x hx => hrate x (by simp [hx])
      simp only [burnWindowLoop, cdiv, if_neg hb]
      rw [ih rest _ (by simpa using hlen) hrest]
      simp [add_assoc]

/-- The average returns on a window of existing entries with non-zero fuel rates. -/
theorem burnAverageStep_eq (c : BurnConfig) (chain : List CBlockIndex) (hW : c.nBlock ≠ 0)
    (hlen : c.nBlock.toNat ≤ chain.length)
    (hrate : ∀ b ∈ chain.take c.nBlock.toNat, b.nFuelRate ≠ 0) :
    burnAverageStep c chain =
      some (Int.tdiv ((chain.take c.nBlock.toNat).map
        (fun b => Int.tdiv b.nFuel b.nFuelRate * 100)).sum c.nBlock) := by
  unfold burnAverageStep
  rw [burnWindowLoop_eq _ _ _ hlen hrate]
  simp [cdiv, hW]

theorem ite_lt_eq_max (x m : Int) : (if x < m then m else x) = max x m := by
  by_cases h : x < m
  · rw [if_pos h, max_eq_right (le_of_lt h)]
  · rw [if_neg h, max_eq_left (not_lt.mp h)]

theorem burnNewFuelRate_eq (c : BurnConfig) (avg rate : Int) (hpos : 0 ≤ rate)
    (hfit : 11 * rate < 10 * 2 ^ 31) :
    burnNewFuelRate c avg rate =
      max (if (avg : ℚ) < (75 / 100 : ℚ) * (c.MAX_BLOCK_RUN_STEP : ℚ) then
          ⌊(9 / 10 : ℚ) * (rate : ℚ)⌋
        else if (avg : ℚ) > (85 / 100 : ℚ) * (c.MAX_BLOCK_RUN_STEP : ℚ) then
          ⌊(11 / 10 : ℚ) * (rate : ℚ)⌋
        else rate) c.MIN_FUEL_RATES := by
  have hq : (0 : ℚ) ≤ (rate : ℚ) := by exact_mod_cast hpos
  have hfq : (11 : ℚ) * (rate : ℚ) < 10 * 2 ^ 31 := by exact_mod_cast hfit
  unfold burnNewFuelRate
  rw [truncToInt_of_nonneg _ (by positivity) (by linarith),
    truncToInt_of_nonneg _ (by positivity) (by linarith)]
  simp only [mul_comm (c.MAX_BLOCK_RUN_STEP : ℚ), mul_comm (rate : ℚ)]
  exact ite_lt_eq_max _ _

/-- Beyond the range of `int`: when the window is saturated and `1.1 · rate` does not
fit an `int`, the conversion of line 59 gives `INT_MIN` and the function falls back to
`MIN_FUEL_RATES`. -/
theorem burnNewFuelRate_of_large (c : BurnConfig) (avg rate : Int)
    (havg : (avg : ℚ) > (c.MAX_BLOCK_RUN_STEP : ℚ) * (85 / 100))
    (hlarge : 10 * 2 ^ 31 ≤ 11 * rate) (hmin : -2 ^ 31 ≤ c.MIN_FUEL_RATES) :
    burnNewFuelRate c avg rate = c.MIN_FUEL_RATES := by
  have hm : (0 : ℚ) ≤ (c.MAX_BLOCK_RUN_STEP : ℚ) := by positivity
  have hlq : (10 : ℚ) * 2 ^ 31 ≤ 11 * (rate : ℚ) := by exact_mod_cast hlarge
  have h1 : ¬ ((avg : ℚ) < (c.MAX_BLOCK_RUN_STEP : ℚ) * (75 / 100)) := by linarith
  have h2 : truncToInt ((rate : ℚ) * (11 / 10)) = -2 ^ 31 :=
    truncToInt_of_large _ (by linarith)
  unfold burnNewFuelRate
  simp only [if_neg h1, if_pos havg, h2]
  by_cases h : -2 ^ 31 < c.MIN_FUEL_RATES
  · rw [if_pos h]
  · rw [if_neg h]
    omega

/-- The estimator at the edges of the `int` range.  A tip of fuel rate `INT_MAX` over a
saturated window: `1.1 · rate` does not fit an `int` and the function returns
`MIN_FUEL_RATES`.  A window of `2^30` blocks: the product `nBlock * 2` wraps to `INT_MIN`,
the guard of line 43 does not hold and the function goes on to the window. -/
theorem GetElementForBurn_int_edges :
    GetElementForBurn sampleBurnConfig
        (uniformChain (2147483647 * 110000) 2147483647 7)
      = some sampleBurnConfig.MIN_FUEL_RATES ∧
    GetElementForBurn { sampleBurnConfig with nBlock := 2 ^ 30 } (uniformChain 0 100 7)
      = burnEstimate { sampleBurnConfig with nBlock := 2 ^ 30 } (uniformChain 0 100 7) := by
  constructor
  · have havg : burnAverageStep sampleBurnConfig
        (uniformChain (2147483647 * 110000) 2147483647 7) = some 11000000 := by decide
    show GetElementForBurn sampleBurnConfig
      (⟨6, 60, 2147483647 * 110000, 2147483647, 6⟩
        :: uniformChain (2147483647 * 110000) 2147483647 6) = _
    unfold GetElementForBurn
    simp only
    rw [if_neg (by decide)]
    unfold burnEstimate
    simp only
    rw [show (⟨6, 60, 2147483647 * 110000, 2147483647, 6⟩
        :: uniformChain (2147483647 * 110000) 2147483647 6 : List CBlockIndex)
      = uniformChain (2147483647 * 110000) 2147483647 7 from rfl, havg]
    simp only
    rw [burnNewFuelRate_of_large sampleBurnConfig 11000000 2147483647
      (by simp only [sampleBurnConfig]; norm_num) (by decide) (by decide)]
  · show GetElementForBurn { sampleBurnConfig with nBlock := 2 ^ 30 }
      (⟨6, 60, 0, 100, 6⟩ :: uniformChain 0 100 6) = _
    unfold GetElementForBurn
    simp only
    rw [if_neg (by decide)]
    rfl

/-- Claim C4. For every tip with sufficient history (`2W < tip.height - 1`, the product
an `int`) whose window can be read, with `rate = tip.fuel_rate ≥ 0` small enough for
`1.1 · rate` to fit an `int`, and `avg_step` the window average used by the estimator,
`GetElementForBurn` returns `max(r, MIN_FUEL_RATES)` where
`r = ⌊0.9 · rate⌋` if `avg_step < 0.75 · MAX_BLOCK_RUN_STEP`, `r = ⌊1.1 · rate⌋` if
`avg_step > 0.85 · MAX_BLOCK_RUN_STEP` and `r = rate` otherwise, the arithmetic taken
exactly.  A window of blocks with `fuel = 0` under `fuel_rate = 100` gives
`max(90, MIN_FUEL_RATES)`; `avg_step = 0.9 · MAX_BLOCK_RUN_STEP` under `fuel_rate = 100`
gives `110` (for `MIN_FUEL_RATES ≤ 110`). -/
theorem GetElementForBurn_rule (c : BurnConfig) (tip : CBlockIndex) (rest : List CBlockIndex)
    (hguard : c.nBlock * 2 < tip.nHeight - 1) (hW : c.nBlock ≠ 0)
    (hint : -2 ^ 30 ≤ c.nBlock)
    (hlen : c.nBlock.toNat ≤ (tip :: rest).length)
    (hrate : ∀ b ∈ (tip :: rest).take c.nBlock.toNat, b.nFuelRate ≠ 0)
    (hpos : 0 ≤ tip.nFuelRate) (hfit : 11 * tip.nFuelRate < 10 * 2 ^ 31) :
    ∃ avg : Int, burnAverageStep c (tip :: rest) = some avg ∧
      GetElementForBurn c (tip :: rest) = some (max
        (if (avg : ℚ) < (75 / 100 : ℚ) * (c.MAX_BLOCK_RUN_STEP : ℚ) then
          ⌊(9 / 10 : ℚ) * (tip.nFuelRate : ℚ)⌋
        else if (avg : ℚ) > (85 / 100 : ℚ) * (c.MAX_BLOCK_RUN_STEP : ℚ) then
          ⌊(11 / 10 : ℚ) * (tip.nFuelRate : ℚ)⌋
        else tip.nFuelRate) c.MIN_FUEL_RATES) ∧
      (0 < c.MAX_BLOCK_RUN_STEP → tip.nFuelRate = 100 →
        (∀ b ∈ (tip :: rest).take c.nBlock.toNat, b.nFuel = 0) →
        GetElementForBurn c (tip :: rest) = some (max 90 c.MIN_FUEL_RATES)) ∧
      (0 < c.MAX_BLOCK_RUN_STEP → tip.nFuelRate = 100 →
        10 * avg = 9 * (c.MAX_BLOCK_RUN_STEP : Int) → c.MIN_FUEL_RATES ≤ 110 →
        GetElementForBurn c (tip :: rest) = some 110) := by
  have havg := burnAverageStep_eq c (tip :: rest) hW hlen hrate
  have hwrap := toInt32_le_self (c.nBlock * 2) (by omega)
  have hres : ∀ avg, burnAverageStep c (tip :: rest) = some avg →
      GetElementForBurn c (tip :: rest) = some (burnNewFuelRate c avg tip.nFuelRate) := by
    intro avg h
    unfold GetElementForBurn
    simp only [ge_iff_le]
    rw [if_neg (by omega)]
    simp only [burnEstimate, h]
  refine ⟨_, havg, ?_, ?_, ?_⟩
  · rw [hres _ havg, burnNewFuelRate_eq c _ _ hpos hfit]
  · intro hmax h100 hzero
    have hsum : ((List.take c.nBlock.toNat (tip :: rest)).map
        (fun b => Int.tdiv b.nFuel b.nFuelRate * 100)).sum = 0 := by
      apply List.sum_eq_zero
      intro x hx
      obtain ⟨b, hb, rfl⟩ := List.mem_map.mp hx
      simp [hzero b hb]
    rw [hres _ havg, burnNewFuelRate_eq c _ _ hpos hfit, hsum, h100]
    have hm : (0 : ℚ) < (c.MAX_BLOCK_RUN_STEP : ℚ) := by exact_mod_cast hmax
    have : (((Int.tdiv 0 c.nBlock : Int)) : ℚ) < (75 / 100 : ℚ) * (c.MAX_BLOCK_RUN_STEP : ℚ) := by
      simp only [Int.zero_tdiv, Int.cast_zero]
      positivity
    rw [if_pos this]
    have : ⌊(9 / 10 : ℚ) * ((100 : Int) : ℚ)⌋ = 90 := by norm_num
    rw [this]
  · intro hmax h100 h09 hmin
    have hm : (0 : ℚ) < (c.MAX_BLOCK_RUN_STEP : ℚ) := by exact_mod_cast hmax
    have h09q : (10 : ℚ) * ((Int.tdiv ((List.take c.nBlock.toNat (tip :: rest)).map
        (fun b => Int.tdiv b.nFuel b.nFuelRate * 100)).sum c.nBlock : Int) : ℚ)
        = 9 * (c.MAX_BLOCK_RUN_STEP : ℚ) := by exact_mod_cast h09
    rw [hres _ havg, burnNewFuelRate_eq c _ _ hpos hfit, h100]
    rw [if_neg (by linarith), if_pos (by linarith)]
    have : ⌊(11 / 10 : ℚ) * ((100 : Int) : ℚ)⌋ = 110 := by norm_num
    rw [this, max_eq_left hmin]

theorem GetElementForBurn_rule_witness :
    GetElementForBurn sampleBurnConfig (uniformChain 0 100 7)
        = some (max 90 sampleBurnConfig.MIN_FUEL_RATES) ∧
      GetElementForBurn sampleBurnConfig (uniformChain 10800000 100 7) = some 110 := by
  constructor
  · obtain ⟨_, _, _, h3, _⟩ := GetElementForBurn_rule sampleBurnConfig ⟨6, 60, 0, 100, 6⟩
      (uniformChain 0 100 6) (by decide) (by decide) (by decide) (by decide) (by decide)
      (by decide) (by decide)
    exact h3 (by decide) rfl (by decide)
  · obtain ⟨avg, havg, _, _, h4⟩ := GetElementForBurn_rule sampleBurnConfig
      ⟨6, 60, 10800000, 100, 6⟩ (uniformChain 10800000 100 6)
      (by decide) (by decide) (by decide) (by decide) (by decide) (by decide) (by decide)
    have e : burnAverageStep sampleBurnConfig
        (⟨6, 60, 10800000, 100, 6⟩ :: uniformChain 10800000 100 6) = some 10800000 := by
      decide
    rw [e] at havg
    have havg2 : (10800000 : Int) = avg := Option.some.inj havg
    subst havg2
    exact h4 (by decide) rfl (by decide) (by decide)

/-- Claim C5. With a window `W` whose double is an `int` (`-2^30 <= W < 2^30`):
`GetElementForBurn` returns `INIT_FUEL_RATES` for the null tip and for every tip with
`2W ≥ tip.height - 1`, whatever fuel and fuel-rate values the chain stores; for every
other tip it passes both early exits and returns the estimate of lines 47-67. -/
theorem GetElementForBurn_early_exit (c : BurnConfig) (tip : CBlockIndex)
    (rest : List CBlockIndex) (hlo : -2 ^ 30 ≤ c.nBlock) (hhi : c.nBlock < 2 ^ 30) :
    GetElementForBurn c [] = some c.INIT_FUEL_RATES ∧
      (c.nBlock * 2 ≥ tip.nHeight - 1 →
        ∀ (nFuel nFuelRate : Int) (others : List CBlockIndex),
          GetElementForBurn c
            ({ tip with nFuel := nFuel, nFuelRate := nFuelRate } :: others)
            = some c.INIT_FUEL_RATES) ∧
      (c.nBlock * 2 < tip.nHeight - 1 →
        GetElementForBurn c (tip :: rest) = burnEstimate c (tip :: rest)) := by
  have hwrap : toInt32 (c.nBlock * 2) = c.nBlock * 2 :=
    toInt32_of_range _ (by omega) (by omega)
  refine ⟨rfl, ?_, ?_⟩
  · intro h nFuel nFuelRate others
    unfold GetElementForBurn
    simp only
    rw [hwrap, if_pos h]
  · intro h
    unfold GetElementForBurn
    simp only [ge_iff_le]
    rw [hwrap, if_neg (by omega)]

theorem GetElementForBurn_early_exit_witness :
    (∀ (nFuel nFuelRate : Int) (others : List CBlockIndex),
        GetElementForBurn sampleBurnConfig (⟨5, 50, nFuel, nFuelRate, 5⟩ :: others)
          = some sampleBurnConfig.INIT_FUEL_RATES) ∧
      GetElementForBurn sampleBurnConfig (uniformChain 0 100 7)
        = burnEstimate sampleBurnConfig (uniformChain 0 100 7) :=
  ⟨(GetElementForBurn_early_exit sampleBurnConfig ⟨5, 50, 0, 100, 5⟩ [] (by decide)
      (by decide)).2.1 (by decide),
    (GetElementForBurn_early_exit sampleBurnConfig ⟨6, 60, 0, 100, 6⟩ (uniformChain 0 100 6)
      (by decide) (by decide)).2.2 (by decide)⟩

theorem pushHeap_some {α : Type} (comp : α → α → Bool) (topIndex : Nat) (value : α) :
    ∀ (fuel : Nat) (first : List α) (holeIndex : Nat), holeIndex ≤ fuel →
      ∃ l, pushHeap comp topIndex value fuel first holeIndex = some l ∧ l.length = first.length := by
  intro fuel
  induction fuel with
  | zero =>
    intro first holeIndex h
    unfold pushHeap
    simp only
    rw [if_neg (by omega)]
    exact ⟨_, rfl, by simp⟩
  | succ f ih =>
    intro first holeIndex h
    unfold pushHeap
    simp only
    split
    · obtain ⟨l, h1, h2⟩ := ih (first.set holeIndex (first.getD ((holeIndex - 1) / 2) value))
        ((holeIndex - 1) / 2) (by omega)
      exact ⟨l, h1, by simpa using h2⟩
    · exact ⟨_, rfl, by simp⟩

theorem adjustHeapLoop_some {α : Type} (comp : α → α → Bool) (len : Nat) (value : α) :
    ∀ (fuel : Nat) (first : List α) (holeIndex secondChild : Nat),
      len ≤ fuel + secondChild → holeIndex ≤ len → secondChild ≤ len →
      ∃ l h s, adjustHeapLoop comp len value fuel first holeIndex secondChild = some (l, h, s) ∧
        l.length = first.length ∧ h ≤ len ∧ s ≤ len := by
  intro fuel
  induction fuel with
  | zero =>
    intro first holeIndex secondChild h hh hs
    unfold adjustHeapLoop
    rw [if_neg (by omega)]
    exact ⟨_, _, _, rfl, rfl, hh, hs⟩
  | succ f ih =>
    intro first holeIndex secondChild h hh hs
    unfold adjustHeapLoop
    by_cases hc : secondChild < (len - 1) / 2
    · rw [if_pos hc]
      simp only
      split
      · obtain ⟨l, h1, s, e, hl, h2, h3⟩ := ih
          (first.set holeIndex (first.getD (2 * (secondChild + 1) - 1) value))
          (2 * (secondChild + 1) - 1) (2 * (secondChild + 1) - 1) (by omega) (by omega) (by omega)
        exact ⟨l, h1, s, e, by simpa using hl, h2, h3⟩
      · obtain ⟨l, h1, s, e, hl, h2, h3⟩ := ih
          (first.set holeIndex (first.getD (2 * (secondChild + 1)) value))
          (2 * (secondChild + 1)) (2 * (secondChild + 1)) (by omega) (by omega) (by omega)
        exact ⟨l, h1, s, e, by simpa using hl, h2, h3⟩
    · rw [if_neg hc]
      exact ⟨_, _, _, rfl, rfl, hh, hs⟩

theorem adjustHeap_some {α : Type} (comp : α → α → Bool) (first : List α) (holeIndex len : Nat)
    (value : α) (hh : holeIndex ≤ len) (hlen : 1 ≤ len) :
    ∃ l, adjustHeap comp first holeIndex len value = some l ∧ l.length = first.length := by
  unfold adjustHeap
  obtain ⟨l, h, s, e, hl, h2, h3⟩ :=
    adjustHeapLoop_some comp len value len first holeIndex holeIndex (by omega) hh hh
  simp only [e]
  split
  · rename_i hc
    obtain ⟨l2, e2, hl2⟩ := pushHeap_some comp holeIndex value len
      (l.set h (l.getD (2 * (s + 1) - 1) value)) (2 * (s + 1) - 1) (by omega)
    exact ⟨l2, e2, by simpa [hl] using hl2⟩
  · obtain ⟨l2, e2, hl2⟩ := pushHeap_some comp holeIndex value len l h h2
    exact ⟨l2, e2, by rw [hl2, hl]⟩

theorem makeHeapLoop_some {α : Type} (comp : α → α → Bool) (len : Nat) :
    ∀ (parent : Nat) (first : List α), first.length = len → parent < len →
      ∃ l, makeHeapLoop comp len parent first = some l ∧ l.length = len := by
  intro parent
  induction parent with
  | zero =>
    intro first hl hp
    unfold makeHeapLoop
    rw [List.getElem?_eq_getElem (by omega)]
    obtain ⟨l, e, h⟩ := adjustHeap_some comp first 0 len first[0] (by omega) (by omega)
    exact ⟨l, e, by rw [h, hl]⟩
  | succ p ih =>
    intro first hl hp
    unfold makeHeapLoop
    rw [List.getElem?_eq_getElem (by omega)]
    obtain ⟨l, e, h⟩ := adjustHeap_some comp first (p + 1) len first[p + 1] (by omega) (by omega)
    simp only [e]
    exact ih l (by rw [h, hl]) (by omega)

/-- The call `std::make_heap` returns, with a vector of the same length. -/
theorem make_heap_some {α : Type} (comp : α → α → Bool) (first : List α) :
    ∃ l, make_heap comp first = some l ∧ l.length = first.length := by
  unfold make_heap
  split
  · exact ⟨first, rfl, rfl⟩
  · exact makeHeapLoop_some comp first.length _ first rfl (by omega)

/-! ## Block assembler -/

theorem toInt64_add_left (a b : Int) : toInt64 (toInt64 a + b) = toInt64 (a + b) := by
  unfold toInt64
  omega

theorem toInt64_idem (a : Int) : toInt64 (toInt64 a) = toInt64 a := by
  unfold toInt64
  omega

theorem toInt64_of_small (a : Int) (h0 : 0 ≤ a) (h1 : a < 2 ^ 63) : toInt64 a = a := by
  unfold toInt64
  omega

theorem drop_modify_two {α : Type} (f g : α → α) (l : List α) (k : Nat) (hk : 2 ≤ k) :
    ((l.modify f 0).modify g 1).drop k = l.drop k := by
  obtain ⟨j, rfl⟩ : ∃ j, k = j + 2 := ⟨k - 2, by omega⟩
  match l with
  | [] => simp
  | [a] => simp
  | a :: b :: rest => simp

theorem placeholderTxs_length (cfg : MinerConfig) : 2 ≤ (placeholderTxs cfg).length := by
  unfold placeholderTxs
  cases cfg.preStableCoin <;> simp

theorem blockMaxSize_lt (cfg : MinerConfig) : blockMaxSize cfg < 2 ^ 32 := by
  unfold blockMaxSize toUInt32
  have h1 : ((cfg.blockmaxsize % 2 ^ 32).toNat : Int) < 2 ^ 32 := by
    rw [Int.toNat_of_nonneg (Int.emod_nonneg _ (by norm_num))]
    exact Int.emod_lt_of_pos _ (by norm_num)
  have h2 : (cfg.blockmaxsize % 2 ^ 32).toNat < 2 ^ 32 := by exact_mod_cast h1
  omega

/-- An iteration of the selection loop either leaves the state as it is or appends one
executed transaction that passed the size test and the run-step test. -/
theorem assembleStep_cases (env : MinerEnv) (MAX nHeight : Nat) (nFuelRate : Int)
    (nBlockMaxSize : Nat) (st : AssemblyState env.CW) (item : TxPriority) :
    assembleStep env MAX nHeight nFuelRate nBlockMaxSize st item = st ∨
    ∃ (tx2 : CBaseTx) (cw1 : env.CW),
      (∃ tx0 i c, tx2.nRunStep = (env.ExecuteTx tx0 nHeight i c).nRunStep) ∧
      (st.nBlockSize + tx2.nSerializeSize % 2 ^ 32) % 2 ^ 64 < nBlockMaxSize ∧
      (st.nTotalRunStep + tx2.nRunStep) % 2 ^ 64 < MAX ∧
      assembleStep env MAX nHeight nFuelRate nBlockMaxSize st item =
        { cwIn := cw1
          vptx := st.vptx ++ [tx2]
          nBlockSize := (st.nBlockSize + tx2.nSerializeSize % 2 ^ 32) % 2 ^ 64
          nBlockTx := (st.nBlockTx + 1) % 2 ^ 64
          nTotalRunStep := (st.nTotalRunStep + tx2.nRunStep) % 2 ^ 64
          nTotalFuel := toInt64 (st.nTotalFuel + (env.GetFuel tx2 nFuelRate : Int)) } := by
  unfold assembleStep
  simp only
  split
  · exact Or.inl rfl
  · rename_i hsize
    split
    · exact Or.inl rfl
    · split
      · exact Or.inl rfl
      · rename_i hstep
        right
        exact ⟨_, _, ⟨_, _, _, rfl⟩, by simpa using hsize, by simpa using hstep, rfl⟩

/-- The selection loop appends a list `sel` of transactions to the block; the running
totals are the sums over `sel`. -/
theorem assemble_fold (env : MinerEnv) (MAX nHeight : Nat) (nFuelRate : Int) (nBlockMaxSize : Nat) :
    ∀ (heap : List TxPriority) (st0 : AssemblyState env.CW),
    ∃ sel : List CBaseTx,
      (heap.foldl (assembleStep env MAX nHeight nFuelRate nBlockMaxSize) st0).vptx
          = st0.vptx ++ sel ∧
      (toInt64 st0.nTotalFuel = st0.nTotalFuel →
        (heap.foldl (assembleStep env MAX nHeight nFuelRate nBlockMaxSize) st0).nTotalFuel
          = toInt64 (st0.nTotalFuel +
              ((sel.map (fun tx => env.GetFuel tx nFuelRate)).sum : Nat))) ∧
      (∀ tx ∈ sel, ∃ tx0 i c, tx.nRunStep = (env.ExecuteTx tx0 nHeight i c).nRunStep) ∧
      (nBlockMaxSize < 2 ^ 32 → st0.nBlockSize < nBlockMaxSize →
        (heap.foldl (assembleStep env MAX nHeight nFuelRate nBlockMaxSize) st0).nBlockSize
            = st0.nBlockSize + (sel.map (fun tx => tx.nSerializeSize % 2 ^ 32)).sum ∧
        (heap.foldl (assembleStep env MAX nHeight nFuelRate nBlockMaxSize) st0).nBlockSize
            < nBlockMaxSize) ∧
      ((∀ tx h i c, (env.ExecuteTx tx h i c).nRunStep + MAX ≤ 2 ^ 64) →
        st0.nTotalRunStep ≤ MAX → (0 < MAX → st0.nTotalRunStep < MAX) →
        (heap.foldl (assembleStep env MAX nHeight nFuelRate nBlockMaxSize) st0).nTotalRunStep
            = st0.nTotalRunStep + (sel.map (fun tx => tx.nRunStep)).sum ∧
        (heap.foldl (assembleStep env MAX nHeight nFuelRate nBlockMaxSize) st0).nTotalRunStep ≤ MAX ∧
        (0 < MAX →
          (heap.foldl (assembleStep env MAX nHeight nFuelRate nBlockMaxSize) st0).nTotalRunStep
            < MAX)) := by
  intro heap
  induction heap with
  | nil =>
    intro st0
    refine ⟨[], by simp, ?_, by simp, ?_, ?_⟩
    · intro h
      simpa using h.symm
    · intro _ h; exact ⟨by simp, by simpa using h⟩
    · intro _ h1 h2; exact ⟨by simp, by simpa using h1, by simpa using h2⟩
  | cons item rest ih =>
    intro st0
    rw [List.foldl_cons]
    rcases assembleStep_cases env MAX nHeight nFuelRate nBlockMaxSize st0 item with
      hsame | ⟨tx2, cw1, hexec, hsize, hstep, hnew⟩
    · rw [hsame]
      exact ih st0
    · rw [hnew]
      obtain ⟨sel, hv, hf, hr, hs, ht⟩ := ih
        { cwIn := cw1
          vptx := st0.vptx ++ [tx2]
          nBlockSize := (st0.nBlockSize + tx2.nSerializeSize % 2 ^ 32) % 2 ^ 64
          nBlockTx := (st0.nBlockTx + 1) % 2 ^ 64
          nTotalRunStep := (st0.nTotalRunStep + tx2.nRunStep) % 2 ^ 64
          nTotalFuel := toInt64 (st0.nTotalFuel + (env.GetFuel tx2 nFuelRate : Int)) }
      refine ⟨tx2 :: sel, ?_, ?_, ?_, ?_, ?_⟩
      · rw [hv]; simp
      · intro _
        rw [hf (toInt64_idem _)]
        simp only [List.map_cons, List.sum_cons, Nat.cast_add]
        rw [toInt64_add_left]
        congr 1
        ring
      · intro tx htx
        rcases List.mem_cons.mp htx with rfl | h
        · exact hexec
        · exact hr tx h
      · intro hmax hlt
        have hsz : tx2.nSerializeSize % 2 ^ 32 < 2 ^ 32 := Nat.mod_lt _ (by norm_num)
        have hnowrap : (st0.nBlockSize + tx2.nSerializeSize % 2 ^ 32) % 2 ^ 64
            = st0.nBlockSize + tx2.nSerializeSize % 2 ^ 32 := Nat.mod_eq_of_lt (by omega)
        obtain ⟨h1, h2⟩ := hs hmax hsize
        refine ⟨?_, h2⟩
        rw [h1, hnowrap]
        simp only [List.map_cons, List.sum_cons]
        omega
      · intro hbound hle hlt
        obtain ⟨tx0, i, c, hrun⟩ := hexec
        have hb2 := hbound tx0 nHeight i c
        rw [← hrun] at hb2
        have hnowrap : (st0.nTotalRunStep + tx2.nRunStep) % 2 ^ 64
            = st0.nTotalRunStep + tx2.nRunStep := Nat.mod_eq_of_lt (by omega)
        obtain ⟨h1, h2, h3⟩ := ht hbound (le_of_lt hstep) (fun _ => hstep)
        refine ⟨?_, h2, h3⟩
        rw [h1, hnowrap]
        simp only [List.map_cons, List.sum_cons]
        omega

/-- With a tip and a fuel rate, `CreateNewBlock` returns; its block holds the placeholder
transactions followed by a list `sel` of selected transactions, and the header and
the totals are those of the selection loop. -/
theorem CreateNewBlock_spec (env : MinerEnv) (cfg : MinerConfig) (tip : CBlockIndex)
    (rest : List CBlockIndex) (mempool : List CTxMemPoolEntry) (cwIn : env.CW) (rate : Int)
    (hburn : GetElementForBurn cfg.burn (tip :: rest) = some rate) :
    ∃ (res : NewBlockResult env.CW) (sel : List CBaseTx),
      CreateNewBlock env cfg (tip :: rest) mempool cwIn = some res ∧
      res.pBlock.vptx.drop (placeholderTxs cfg).length = sel ∧
      res.pBlock.vptx.length = (placeholderTxs cfg).length + sel.length ∧
      res.pBlock.nHeight = toUInt32 (tip.nHeight + 1) ∧
      res.pBlock.nFuelRate = rate ∧
      res.pBlock.nFuel = toInt64 (((sel.map (fun tx => env.GetFuel tx rate)).sum : Nat)) ∧
      (∀ tx ∈ sel, ∃ tx0 i c,
        tx.nRunStep = (env.ExecuteTx tx0 (toUInt32 (tip.nHeight + 1)) i c).nRunStep) ∧
      (env.blockSerializeSize (placeholderTxs cfg) < blockMaxSize cfg →
        res.nLastBlockSize = env.blockSerializeSize (placeholderTxs cfg)
            + (sel.map (fun tx => tx.nSerializeSize % 2 ^ 32)).sum ∧
        res.nLastBlockSize < blockMaxSize cfg) ∧
      ((∀ tx h i c, (env.ExecuteTx tx h i c).nRunStep + cfg.burn.MAX_BLOCK_RUN_STEP ≤ 2 ^ 64) →
        (sel.map (fun tx => tx.nRunStep)).sum ≤ cfg.burn.MAX_BLOCK_RUN_STEP ∧
        (0 < cfg.burn.MAX_BLOCK_RUN_STEP →
          (sel.map (fun tx => tx.nRunStep)).sum < cfg.burn.MAX_BLOCK_RUN_STEP)) := by
  obtain ⟨heap, hheap, _⟩ :=
    make_heap_some (TxPriorityCompare false) (GetPriorityTx env mempool [] rate)
  obtain ⟨sel, hv, hf, hr, hs, ht⟩ := assemble_fold env cfg.burn.MAX_BLOCK_RUN_STEP
    (toUInt32 (tip.nHeight + 1)) rate (blockMaxSize cfg) heap
    { cwIn := cwIn, vptx := placeholderTxs cfg,
      nBlockSize := env.blockSerializeSize (placeholderTxs cfg) % 2 ^ 64, nBlockTx := 0,
      nTotalRunStep := 0, nTotalFuel := 0 }
  have hk := placeholderTxs_length cfg
  have hmax := blockMaxSize_lt cfg
  refine ⟨finishNewBlock env tip (toUInt32 (tip.nHeight + 1)) rate
    (heap.foldl (assembleStep env cfg.burn.MAX_BLOCK_RUN_STEP (toUInt32 (tip.nHeight + 1)) rate
      (blockMaxSize cfg))
      { cwIn := cwIn, vptx := placeholderTxs cfg,
        nBlockSize := env.blockSerializeSize (placeholderTxs cfg) % 2 ^ 64, nBlockTx := 0,
        nTotalRunStep := 0, nTotalFuel := 0 }), sel, ?_, ?_, ?_, ?_, ?_, ?_, hr, ?_, ?_⟩
  · unfold CreateNewBlock
    simp only [hburn, hheap]
  · simp only [finishNewBlock]
    rw [drop_modify_two _ _ _ _ hk, hv]
    simp
  · simp only [finishNewBlock, List.length_modify]
    rw [hv]
    simp
  · rfl
  · rfl
  · simp only [finishNewBlock]
    rw [hf (show toInt64 (0 : Int) = 0 by decide)]
    simp
  · intro hinit
    have hmod : env.blockSerializeSize (placeholderTxs cfg) % 2 ^ 64
        = env.blockSerializeSize (placeholderTxs cfg) := Nat.mod_eq_of_lt (by omega)
    obtain ⟨h1, h2⟩ := hs hmax (by simp only; omega)
    refine ⟨h1.trans ?_, h2⟩
    show env.blockSerializeSize (placeholderTxs cfg) % 2 ^ 64 + _ = _
    rw [hmod]
  · intro hbound
    obtain ⟨h1, h2, h3⟩ := ht hbound (Nat.zero_le _) (fun h => h)
    simp only [Nat.zero_add] at h1
    rw [← h1]
    exact ⟨h2, h3⟩

theorem sum_of_thirds (sel : List CBaseTx) (M : Nat) (h : ∀ tx ∈ sel, 3 * tx.nRunStep = M) :
    3 * (sel.map (fun tx => tx.nRunStep)).sum = sel.length * M := by
  induction sel with
  | nil => simp
  | cons a t ih =>
    have ha := h a (by simp)
    have ht := ih (fun tx htx => h tx (by simp [htx]))
    simp only [List.map_cons, List.sum_cons, List.length_cons]
    rw [Nat.mul_add, ht, ha]
    ring

/-- Claim C7 on a failing input. Three executable candidates of priorities `1`, `3`, `2`
(memory pool order): `make_heap` under the size-first comparator leaves the vector
`3, 1, 2`, the loop of line 343 walks that vector without popping, and the block holds
the user transactions in the order `3, 1, 2`; the candidate of priority `1` ranks
strictly below the candidate of priority `2` and is considered and placed before it. -/
theorem CreateNewBlock_heap_array_order :
    (make_heap (TxPriorityCompare false) (GetPriorityTx sampleEnv samplePool [] 100)).map
        (fun heap => heap.map (fun c => (c.dPriority, c.tx.hash)))
      = some [(3, 2), (1, 1), (2, 3)] ∧
    (CreateNewBlock sampleEnv sampleMinerConfig (uniformChain 0 100 3) samplePool []).map
        (fun r => (r.pBlock.vptx.drop 2).map (fun tx => tx.hash))
      = some [2, 1, 3] ∧
    TxPriorityCompare false ⟨1, 0, { hash := 1 }⟩ ⟨2, 0, { hash := 3 }⟩ = true := by
  decide

/-- Claim C8. For every memory pool and parent state, the user transactions included by
`CreateNewBlock` have a sum of `runStep` that is at most `MAX_BLOCK_RUN_STEP` and,
`MAX_BLOCK_RUN_STEP` being positive, strictly below it: an iteration whose candidate
would make the running total reach or exceed `MAX_BLOCK_RUN_STEP` leaves the state as it
is.  When every execution reports `runStep = MAX_BLOCK_RUN_STEP / 3`, a third of the
constant, the block holds at most 2 user transactions.  (Run steps are counted in
`uint64_t`; no execution reports a value that wraps the counter.) -/
theorem CreateNewBlock_run_step_cap (env : MinerEnv) (cfg : MinerConfig) (tip : CBlockIndex)
    (rest : List CBlockIndex) (mempool : List CTxMemPoolEntry) (cwIn : env.CW) (rate : Int)
    (hburn : GetElementForBurn cfg.burn (tip :: rest) = some rate)
    (hstep : ∀ tx h i c,
      (env.ExecuteTx tx h i c).nRunStep + cfg.burn.MAX_BLOCK_RUN_STEP < 2 ^ 64) :
    ∃ res : NewBlockResult env.CW,
      CreateNewBlock env cfg (tip :: rest) mempool cwIn = some res ∧
      ((res.pBlock.vptx.drop (placeholderTxs cfg).length).map (fun tx => tx.nRunStep)).sum
        ≤ cfg.burn.MAX_BLOCK_RUN_STEP ∧
      (0 < cfg.burn.MAX_BLOCK_RUN_STEP →
        ((res.pBlock.vptx.drop (placeholderTxs cfg).length).map (fun tx => tx.nRunStep)).sum
          < cfg.burn.MAX_BLOCK_RUN_STEP) ∧
      (∀ (nHeight : Nat) (nFuelRate : Int) (nBlockMaxSize : Nat) (st : AssemblyState env.CW)
          (item : TxPriority),
        st.nTotalRunStep ≤ cfg.burn.MAX_BLOCK_RUN_STEP →
        st.nTotalRunStep + (env.ExecuteTx { item.tx with nFuelRate := nFuelRate } nHeight
            (st.nBlockTx + 1) (env.newCacheWrapper st.cwIn)).nRunStep
          ≥ cfg.burn.MAX_BLOCK_RUN_STEP →
        assembleStep env cfg.burn.MAX_BLOCK_RUN_STEP nHeight nFuelRate nBlockMaxSize st item
          = st) ∧
      (0 < cfg.burn.MAX_BLOCK_RUN_STEP → cfg.burn.MAX_BLOCK_RUN_STEP % 3 = 0 →
        (∀ tx h i c, (env.ExecuteTx tx h i c).nRunStep = cfg.burn.MAX_BLOCK_RUN_STEP / 3) →
        (res.pBlock.vptx.drop (placeholderTxs cfg).length).length ≤ 2) := by
  obtain ⟨res, sel, hres, hsel, _, _, _, _, hrun, _, hsum⟩ :=
    CreateNewBlock_spec env cfg tip rest mempool cwIn rate hburn
  obtain ⟨hle, hlt⟩ := hsum (fun tx h i c => le_of_lt (hstep tx h i c))
  subst hsel
  refine ⟨res, hres, hle, hlt, ?_, ?_⟩
  · intro nHeight nFuelRate nBlockMaxSize st item hst hge
    have hb := hstep { item.tx with nFuelRate := nFuelRate } nHeight (st.nBlockTx + 1)
      (env.newCacheWrapper st.cwIn)
    unfold assembleStep
    dsimp only at hb hge ⊢
    split
    · rfl
    · split
      · rfl
      · rw [if_pos]
        rw [Nat.mod_eq_of_lt (by omega)]
        exact hge
  · intro hpos hdiv hthird
    have h3 := sum_of_thirds _ cfg.burn.MAX_BLOCK_RUN_STEP (by
      intro tx htx
      obtain ⟨tx0, i, c, e⟩ := hrun tx htx
      rw [e, hthird]
      omega)
    have h4 := hlt hpos
    by_contra hcon
    have h5 : 3 ≤ (res.pBlock.vptx.drop (placeholderTxs cfg).length).length := by omega
    have h6 := Nat.mul_le_mul_right cfg.burn.MAX_BLOCK_RUN_STEP h5
    omega

theorem CreateNewBlock_run_step_cap_witness :
    ∃ res : NewBlockResult (constStepEnv 4000000).CW,
      CreateNewBlock (constStepEnv 4000000) sampleMinerConfig (uniformChain 0 100 3)
        tenCandidates [] = some res ∧
      ((res.pBlock.vptx.drop 2).map (fun tx => tx.nRunStep)).sum < 12000000 ∧
      (res.pBlock.vptx.drop 2).length ≤ 2 := by
  obtain ⟨res, h1, _, h3, _, h5⟩ := CreateNewBlock_run_step_cap (constStepEnv 4000000)
    sampleMinerConfig ⟨2, 20, 0, 100, 2⟩ (uniformChain 0 100 2) tenCandidates [] 100
    (by decide) (by intro _ _ _ _; show (4000000 : Nat) + 12000000 < 2 ^ 64; decide)
  exact ⟨res, h1, h3 (by decide), h5 (by decide) (by decide)
    (by intro _ _ _ _; show (4000000 : Nat) = 12000000 / 3; decide)⟩

/-- Claim C9 as amended. The size limit is
`max(1000, min(MAX_BLOCK_SIZE - 1000, -blockmaxsize))` in `unsigned int`: it lies in
`[1000, MAX_BLOCK_SIZE - 1000]` (bytes) and is the configured value clamped to that
interval when the value is an `unsigned int`.  When the header and the placeholder
transactions alone are below the limit, the size `CreateNewBlock` accounts for the
block (header, placeholders and every included transaction) is below the limit, hence at
most the limit; an iteration whose candidate has `running_size + tx.size ≥ nBlockMaxSize`
leaves the state as it is. -/
theorem CreateNewBlock_size_cap (env : MinerEnv) (cfg : MinerConfig) (tip : CBlockIndex)
    (rest : List CBlockIndex) (mempool : List CTxMemPoolEntry) (cwIn : env.CW) (rate : Int)
    (hburn : GetElementForBurn cfg.burn (tip :: rest) = some rate)
    (hinit : env.blockSerializeSize (placeholderTxs cfg) < blockMaxSize cfg)
    (hMax : 2000 ≤ cfg.MAX_BLOCK_SIZE) (hMax32 : cfg.MAX_BLOCK_SIZE < 2 ^ 32) :
    ∃ res : NewBlockResult env.CW,
      CreateNewBlock env cfg (tip :: rest) mempool cwIn = some res ∧
      res.nLastBlockSize = env.blockSerializeSize (placeholderTxs cfg) +
        ((res.pBlock.vptx.drop (placeholderTxs cfg).length).map
          (fun tx => tx.nSerializeSize % 2 ^ 32)).sum ∧
      res.nLastBlockSize < blockMaxSize cfg ∧
      res.nLastBlockSize ≤ blockMaxSize cfg ∧
      1000 ≤ blockMaxSize cfg ∧ blockMaxSize cfg ≤ cfg.MAX_BLOCK_SIZE - 1000 ∧
      (0 ≤ cfg.blockmaxsize → cfg.blockmaxsize < 2 ^ 32 →
        (blockMaxSize cfg : Int)
          = max 1000 (min ((cfg.MAX_BLOCK_SIZE : Int) - 1000) cfg.blockmaxsize)) ∧
      (∀ (MAX nHeight : Nat) (nFuelRate : Int) (st : AssemblyState env.CW) (item : TxPriority),
        st.nBlockSize < blockMaxSize cfg →
        st.nBlockSize + item.tx.nSerializeSize % 2 ^ 32 ≥ blockMaxSize cfg →
        assembleStep env MAX nHeight nFuelRate (blockMaxSize cfg) st item = st) := by
  obtain ⟨res, sel, hres, hsel, _, _, _, _, _, hsize, _⟩ :=
    CreateNewBlock_spec env cfg tip rest mempool cwIn rate hburn
  obtain ⟨h1, h2⟩ := hsize hinit
  have hlim := blockMaxSize_lt cfg
  subst hsel
  have hu : toUInt32 ((cfg.MAX_BLOCK_SIZE : Int) - 1000) = cfg.MAX_BLOCK_SIZE - 1000 := by
    unfold toUInt32
    rw [Int.emod_eq_of_lt (by omega) (by omega)]
    omega
  refine ⟨res, hres, h1, h2, le_of_lt h2, ?_, ?_, ?_, ?_⟩
  · unfold blockMaxSize
    omega
  · unfold blockMaxSize
    rw [hu]
    omega
  · intro h0 h32
    have hc : toUInt32 cfg.blockmaxsize = cfg.blockmaxsize.toNat := by
      unfold toUInt32
      rw [Int.emod_eq_of_lt h0 (by omega)]
    unfold blockMaxSize
    rw [hu, hc]
    omega
  · intro MAX nHeight nFuelRate st item hst hge
    have hsz : item.tx.nSerializeSize % 2 ^ 32 < 2 ^ 32 := Nat.mod_lt _ (by norm_num)
    unfold assembleStep
    simp only
    rw [if_pos]
    rw [Nat.mod_eq_of_lt (by omega)]
    exact hge

theorem CreateNewBlock_size_cap_witness :
    ∃ res : NewBlockResult sampleEnv.CW,
      CreateNewBlock sampleEnv sampleMinerConfig (uniformChain 0 100 3) samplePool []
        = some res ∧
      res.nLastBlockSize < blockMaxSize sampleMinerConfig ∧
      blockMaxSize sampleMinerConfig ≤ sampleMinerConfig.MAX_BLOCK_SIZE - 1000 := by
  obtain ⟨res, h1, _, h3, _, _, h6, _⟩ := CreateNewBlock_size_cap sampleEnv sampleMinerConfig
    ⟨2, 20, 0, 100, 2⟩ (uniformChain 0 100 2) samplePool [] 100
    (by decide) (by decide) (by decide) (by decide)
  exact ⟨res, h1, h3, h6⟩

/-- Claim C9 as stated fails. With `MAX_BLOCK_SIZE = 4000000`, `-blockmaxsize=1000` gives
the limit `1000`, below 1 KiB (`1024`), and `-blockmaxsize=4000000` gives the limit
`3999000`, above `MAX_BLOCK_SIZE` minus 1 KiB: the interval is `[1000, MAX_BLOCK_SIZE -
1000]`.  A negative setting is not clamped to the lower end: `-blockmaxsize=-1` gives
the upper end. -/
theorem blockMaxSize_not_KiB :
    blockMaxSize { sampleMinerConfig with blockmaxsize := 1000 } = 1000 ∧
      ¬ (1024 ≤ blockMaxSize { sampleMinerConfig with blockmaxsize := 1000 }) ∧
      blockMaxSize sampleMinerConfig = 3999000 ∧
      ¬ (blockMaxSize sampleMinerConfig ≤ sampleMinerConfig.MAX_BLOCK_SIZE - 1024) ∧
      blockMaxSize { sampleMinerConfig with blockmaxsize := -1 } = 3999000 := by
  decide

/-- Claim C10. For the block `CreateNewBlock` returns on tip `T`: the header height is
`T.height + 1`, the header fuel rate is `GetElementForBurn(T)`, and the header fuel is
the sum of `tx.fuel(header fuel rate)` over exactly the user transactions of the block
(those after the placeholder transactions), the sum taken in `int64_t`. -/
theorem CreateNewBlock_header (env : MinerEnv) (cfg : MinerConfig) (tip : CBlockIndex)
    (rest : List CBlockIndex) (mempool : List CTxMemPoolEntry) (cwIn : env.CW) (rate : Int)
    (hburn : GetElementForBurn cfg.burn (tip :: rest) = some rate)
    (hh0 : 0 ≤ tip.nHeight) (hh1 : tip.nHeight < 2 ^ 31) :
    ∃ res : NewBlockResult env.CW,
      CreateNewBlock env cfg (tip :: rest) mempool cwIn = some res ∧
      (res.pBlock.nHeight : Int) = tip.nHeight + 1 ∧
      GetElementForBurn cfg.burn (tip :: rest) = some res.pBlock.nFuelRate ∧
      res.pBlock.nFuel = toInt64 ((((res.pBlock.vptx.drop (placeholderTxs cfg).length).map
        (fun tx => env.GetFuel tx res.pBlock.nFuelRate)).sum : Nat) : Int) ∧
      (((res.pBlock.vptx.drop (placeholderTxs cfg).length).map
          (fun tx => env.GetFuel tx res.pBlock.nFuelRate)).sum < 2 ^ 63 →
        res.pBlock.nFuel = ((((res.pBlock.vptx.drop (placeholderTxs cfg).length).map
          (fun tx => env.GetFuel tx res.pBlock.nFuelRate)).sum : Nat) : Int)) := by
  obtain ⟨res, sel, hres, hsel, _, hheight, hrate, hfuel, _, _, _⟩ :=
    CreateNewBlock_spec env cfg tip rest mempool cwIn rate hburn
  subst hsel
  rw [← hrate] at hfuel hburn
  refine ⟨res, hres, ?_, hburn, hfuel, ?_⟩
  · rw [hheight]
    unfold toUInt32
    rw [Int.emod_eq_of_lt (by omega) (by omega)]
    omega
  · intro hlt
    rw [hfuel]
    exact toInt64_of_small _ (Int.ofNat_nonneg _) (by exact_mod_cast hlt)

theorem CreateNewBlock_header_witness :
    ∃ res : NewBlockResult sampleEnv.CW,
      CreateNewBlock sampleEnv sampleMinerConfig (uniformChain 0 100 3) samplePool []
        = some res ∧
      (res.pBlock.nHeight : Int) = 2 + 1 ∧
      GetElementForBurn sampleMinerConfig.burn (uniformChain 0 100 3)
        = some res.pBlock.nFuelRate ∧
      res.pBlock.nFuel = toInt64 ((((res.pBlock.vptx.drop 2).map
        (fun tx => sampleEnv.GetFuel tx res.pBlock.nFuelRate)).sum : Nat) : Int) := by
  obtain ⟨res, h1, h2, h3, h4, _⟩ := CreateNewBlock_header sampleEnv sampleMinerConfig
    ⟨2, 20, 0, 100, 2⟩ (uniformChain 0 100 2) samplePool [] 100
    (by decide) (by decide) (by decide)
  exact ⟨res, h1, h2, h3, h4⟩

/-! ## Swaps of the shuffle -/

theorem shuffleInner_eq_swaps (N : Nat) (seed : uint256) :
    ∀ (fuel x i : Nat) (l : List CRegID),
      shuffleInner N seed fuel x i l =
        match shuffleInnerSwaps N seed fuel x i with
        | none => none
        | some (i1, swaps) =>
          match applySwaps l swaps with
          | none => none
          | some l1 => some (i1, l1) := by
  intro fuel
  induction fuel with
  | zero =>
    intro x i l
    unfold shuffleInner shuffleInnerSwaps
    by_cases hc : x < 4 ∧ i < N
    · rw [if_pos hc, if_pos hc]
    · rw [if_neg hc, if_neg hc]
      rfl
  | succ f ih =>
    intro x i l
    unfold shuffleInner shuffleInnerSwaps
    by_cases hc : x < 4 ∧ i < N
    · rw [if_pos hc, if_pos hc]
      dsimp only
      generalize readLE64 seed (x * 8) % N % 2 ^ 32 = j
      cases hs : swapDelegates l j i with
      | none =>
        cases hsw : shuffleInnerSwaps N seed f (x + 1) ((i + 1) % 2 ^ 32) with
        | none => rfl
        | some p => simp only [applySwaps, hs]
      | some l1 =>
        dsimp only
        rw [ih]
        cases hsw : shuffleInnerSwaps N seed f (x + 1) ((i + 1) % 2 ^ 32) with
        | none => rfl
        | some p => simp only [applySwaps, hs]
    · rw [if_neg hc, if_neg hc]
      rfl

theorem applySwaps_append (l : List CRegID) (a b : List (Nat × Nat)) :
    applySwaps l (a ++ b) =
      match applySwaps l a with
      | none => none
      | some l1 => applySwaps l1 b := by
  induction a generalizing l with
  | nil => rfl
  | cons p t ih =>
    obtain ⟨j, i⟩ := p
    simp only [List.cons_append, applySwaps]
    cases swapDelegates l j i with
    | none => rfl
    | some l1 => exact ih l1

theorem shuffleOuter_eq_swaps (hw : CHashWriter) (N : Nat) :
    ∀ (fuel i : Nat) (ss : hw.State) (seed : uint256) (l : List CRegID),
      shuffleOuter hw N fuel i ss seed l =
        match shuffleOuterSwaps hw N fuel i ss seed with
        | none => none
        | some swaps => applySwaps l swaps := by
  intro fuel
  induction fuel with
  | zero =>
    intro i ss seed l
    unfold shuffleOuter shuffleOuterSwaps
    by_cases hc : i < N
    · rw [if_pos hc, if_pos hc]
    · rw [if_neg hc, if_neg hc]
      rfl
  | succ f ih =>
    intro i ss seed l
    unfold shuffleOuter shuffleOuterSwaps
    by_cases hc : i < N
    · rw [if_pos hc, if_pos hc]
      dsimp only
      rw [shuffleInner_eq_swaps]
      cases hin : shuffleInnerSwaps N seed 4 0 i with
      | none => rfl
      | some p =>
        obtain ⟨i1, swaps⟩ := p
        dsimp only
        cases hap : applySwaps l swaps with
        | none =>
          cases hout : shuffleOuterSwaps hw N f ((i1 + 1) % 2 ^ 32)
              (hw.GetHash (hw.writeHash ss seed)).2 (hw.GetHash (hw.writeHash ss seed)).1 with
          | none => rfl
          | some more =>
            dsimp only
            rw [applySwaps_append, hap]
        | some l1 =>
          dsimp only
          rw [ih]
          cases hout : shuffleOuterSwaps hw N f ((i1 + 1) % 2 ^ 32)
              (hw.GetHash (hw.writeHash ss seed)).2 (hw.GetHash (hw.writeHash ss seed)).1 with
          | none => rfl
          | some more =>
            dsimp only
            rw [applySwaps_append, hap]
    · rw [if_neg hc, if_neg hc]
      rfl

/-- `ShuffleDelegates` makes the exchanges of `ShuffleDelegatesSwaps`, in that order. -/
theorem ShuffleDelegates_eq_swaps (hw : CHashWriter) (N : Nat) (h : Int) (D : List CRegID) :
    ShuffleDelegates hw N h D =
      match ShuffleDelegatesSwaps hw N h with
      | none => none
      | some swaps => applySwaps D swaps := by
  unfold ShuffleDelegates ShuffleDelegatesSwaps
  dsimp only
  by_cases hz : N % 2 ^ 32 = 0
  · rw [if_pos hz, if_pos hz]
  · rw [if_neg hz, if_neg hz]
    exact shuffleOuter_eq_swaps hw _ _ _ _ _ D

/-- Claim C20 on a failing input. With `TotalDelegateNum = 11`, whatever the hash writer
and the height, `ShuffleDelegates` makes 9 exchanges, at the positions
`i = 0, 1, 2, 3, 5, 6, 7, 8, 10`: after each group of 4 the `i++` of the outer loop
passes over one position, so positions 4 and 9 get no exchange of their own (and with
`TotalDelegateNum = 5` position 4 gets none). -/
theorem ShuffleDelegates_skips_positions (hw : CHashWriter) (h : Int) :
    (ShuffleDelegatesSwaps hw 11 h).map (fun swaps => swaps.map Prod.snd)
        = some [0, 1, 2, 3, 5, 6, 7, 8, 10] ∧
      (ShuffleDelegatesSwaps hw 11 h).map List.length = some 9 ∧
      (ShuffleDelegatesSwaps hw 5 h).map (fun swaps => swaps.map Prod.snd)
        = some [0, 1, 2, 3] ∧
      ∀ D : List CRegID, ShuffleDelegates hw 11 h D =
        (ShuffleDelegatesSwaps hw 11 h).bind (applySwaps D) := by
  refine ⟨rfl, rfl, rfl, ?_⟩
  intro D
  rw [ShuffleDelegates_eq_swaps]
  cases ShuffleDelegatesSwaps hw 11 h <;> rfl

/-! ## Mined block records -/

theorem push_front_eq_take (K : Nat) (ring : List MinedBlockInfo) (x : MinedBlockInfo)
    (h : ring.length ≤ K) : push_front K ring x = (x :: ring).take K := by
  unfold push_front
  by_cases hK : K = 0
  · subst hK
    have : ring = [] := List.length_eq_zero.mp (by omega)
    simp [this]
  · rw [if_neg hK]
    obtain ⟨k, rfl⟩ : ∃ k, K = k + 1 := ⟨K - 1, by omega⟩
    by_cases hfull : ring.length ≥ k + 1
    · rw [if_pos hfull]
      simp
    · rw [if_neg hfull]
      simp only [List.take_succ_cons]
      rw [List.take_of_length_le (by omega)]

/-- After pushing `rs` (oldest first) the ring holds the `K` most recent records, the
most recent at the front. -/
theorem foldl_push_front (K : Nat) (rs : List MinedBlockInfo) :
    rs.foldl (push_front K) [] = rs.reverse.take K := by
  induction rs using List.reverseRecOn with
  | nil => simp
  | append_singleton rs r ih =>
    rw [List.foldl_append, List.foldl_cons, List.foldl_nil, ih]
    rw [push_front_eq_take K _ r (by simp)]
    simp only [List.reverse_append, List.reverse_cons, List.reverse_nil, List.nil_append,
      List.singleton_append]
    obtain _ | k := K
    · simp
    · simp only [List.take_succ_cons]
      rw [List.take_take]
      simp

theorem getMinedBlocksLoop_eq (ring : List MinedBlockInfo) :
    ∀ (n i : Nat) (ret : List MinedBlockInfo), i + n ≤ ring.length →
      getMinedBlocksLoop ring n i ret = some (ret ++ (ring.drop i).take n) := by
  intro n
  induction n with
  | zero => intro i ret _; simp [getMinedBlocksLoop]
  | succ k ih =>
    intro i ret h
    have hi : i < ring.length := by omega
    unfold getMinedBlocksLoop
    rw [List.getElem?_eq_getElem hi]
    dsimp only
    rw [ih (i + 1) _ (by omega)]
    congr 1
    rw [List.append_assoc]
    congr 1
    rw [List.drop_eq_getElem_cons hi, List.take_succ_cons]
    rfl

/-- Claim C17. For every sequence of `n` records pushed to the ring of capacity
`K = kMaxMinedBlocks` and every count `c`, `GetMinedBlocks(c)` returns exactly
`min(c, min(n, K))` records, namely the most recently pushed ones, most recent first;
records older than the `K` most recent are not returned. -/
theorem GetMinedBlocks_recent (K : Nat) (rs : List MinedBlockInfo) (c : Nat)
    (hK : K < 2 ^ 32) (hc : c < 2 ^ 32) :
    GetMinedBlocks (rs.foldl (push_front K) []) c = some ((rs.reverse.take K).take c) ∧
      ((rs.reverse.take K).take c).length = min c (min rs.length K) ∧
      (rs.reverse.take K).take c = rs.reverse.take (min c K) := by
  rw [foldl_push_front]
  refine ⟨?_, ?_, ?_⟩
  · unfold GetMinedBlocks
    have hlen : (rs.reverse.take K).length ≤ K := by simp
    have h1 : (rs.reverse.take K).length % 2 ^ 32 = (rs.reverse.take K).length :=
      Nat.mod_eq_of_lt (by omega)
    have h2 : c % 2 ^ 32 = c := Nat.mod_eq_of_lt hc
    dsimp only
    rw [h1, h2, getMinedBlocksLoop_eq _ _ _ _ (by omega)]
    simp only [List.drop_zero, List.nil_append]
    congr 1
    rw [List.take_eq_take]
    omega
  · simp only [List.length_take, List.length_reverse]
    omega
  · rw [List.take_take]

theorem GetMinedBlocks_recent_witness :
    GetMinedBlocks ([sampleRecord 1, sampleRecord 2, sampleRecord 3, sampleRecord 4,
        sampleRecord 5].foldl (push_front 3) []) 2 = some [sampleRecord 5, sampleRecord 4] ∧
      GetMinedBlocks ([sampleRecord 1, sampleRecord 2, sampleRecord 3, sampleRecord 4,
        sampleRecord 5].foldl (push_front 3) []) 7
        = some [sampleRecord 5, sampleRecord 4, sampleRecord 3] := by
  have h2 := GetMinedBlocks_recent 3 [sampleRecord 1, sampleRecord 2, sampleRecord 3,
    sampleRecord 4, sampleRecord 5] 2 (by decide) (by decide)
  have h7 := GetMinedBlocks_recent 3 [sampleRecord 1, sampleRecord 2, sampleRecord 3,
    sampleRecord 4, sampleRecord 5] 7 (by decide) (by decide)
  exact ⟨h2.1, h7.1⟩

/-! ## Priority selector -/

theorem foldl_push_filter {α β : Type} (p : α → Bool) (g : α → β) :
    ∀ (l : List α) (vec : List β),
      l.foldl (fun v a => if p a = true then v ++ [g a] else v) vec
        = vec ++ (l.filter p).map g := by
  intro l
  induction l with
  | nil => intro vec; simp
  | cons a t ih =>
    intro vec
    rw [List.foldl_cons]
    by_cases hc : p a = true
    · rw [if_pos hc, ih, List.filter_cons_of_pos hc]
      simp
    · rw [if_neg hc, ih, List.filter_cons_of_neg hc]

/-- Claim C18. For every memory pool and recent-transaction cache, `GetPriorityTx`
appends exactly one candidate for each memory pool entry whose transaction is not a
coinbase and whose hash is not in the cache, in memory pool order, and none for any other
entry; each candidate carries the priority supplied by its entry and that entry's
transaction. -/
theorem GetPriorityTx_candidates (env : MinerEnv) (mempool : List CTxMemPoolEntry)
    (vecPriority : List TxPriority) (nFuelRate : Int) :
    ∃ added : List TxPriority,
      GetPriorityTx env mempool vecPriority nFuelRate = vecPriority ++ added ∧
      added.map (fun c => (c.dPriority, c.tx)) =
        (mempool.filter (fun mi => !env.IsCoinBase mi.tx && !env.HaveTx mi.tx.hash)).map
          (fun mi => (mi.dPriority, mi.tx)) ∧
      added.length =
        (mempool.filter (fun mi => !env.IsCoinBase mi.tx && !env.HaveTx mi.tx.hash)).length ∧
      ∀ c ∈ added, ∃ mi ∈ mempool, env.IsCoinBase mi.tx = false ∧
        env.HaveTx mi.tx.hash = false ∧ c.dPriority = mi.dPriority ∧ c.tx = mi.tx := by
  unfold GetPriorityTx
  refine ⟨_, foldl_push_filter _ _ mempool vecPriority, ?_, ?_, ?_⟩
  · rw [List.map_map]
    rfl
  · simp
  · intro c hc
    obtain ⟨mi, hmi, he⟩ := List.mem_map.mp hc
    obtain ⟨hin, hcond⟩ := List.mem_filter.mp hmi
    simp only [Bool.and_eq_true, Bool.not_eq_true'] at hcond
    subst he
    exact ⟨mi, hin, hcond.1, hcond.2, rfl, rfl⟩

/-- Claim C19 on a failing input. A memory pool entry pays 10 WUSD and its transaction
costs 20 of fuel at rate 100: `nFees - GetFuel(nFuelRate)` is a `uint64_t` difference and
wraps to `2^64 - 10`, so the candidate gets the positive fee per kilobyte
`(2^64 - 10) / 10000 / 200 / 1000`, where the formula in exact arithmetic gives the
negative value `(10 - 20) / 200 / 1000 / 10000`. -/
theorem GetPriorityTx_fee_wraps :
    sampleEnv.GetFuel underpaidEntry.tx 100 = 20 ∧ underpaidEntry.nFees = 10 ∧
      (GetPriorityTx sampleEnv [underpaidEntry] [] 100).map (fun c => c.dFeePerKb)
        = [((2 : ℚ) ^ 64 - 10) / 10000 / 200 / 1000] ∧
      (0 : ℚ) < ((2 : ℚ) ^ 64 - 10) / 10000 / 200 / 1000 ∧
      specFeePerKb sampleEnv underpaidEntry 100 = ((10 : ℚ) - 20) / 200 / 1000 / 10000 ∧
      specFeePerKb sampleEnv underpaidEntry 100 < 0 := by
  refine ⟨by decide, rfl, ?_, by norm_num, ?_, ?_⟩
  · simp [GetPriorityTx, sampleEnv, sampleEnvWith, underpaidEntry, GetCoinMedianPrice, toUInt64]
    norm_num
  · simp [specFeePerKb, sampleEnv, sampleEnvWith, underpaidEntry, GetCoinMedianPrice]
  · simp [specFeePerKb, sampleEnv, sampleEnvWith, underpaidEntry, GetCoinMedianPrice]
    norm_num

/-! ## Reward value -/

/-- Claim C11, what the code does instead. Whatever the memory pool and the fees its
transactions declare, the reward transaction of the block `CreateNewBlock` returns
carries `0 - total_fuel` (as `int64_t`), with `total_fuel` the fuel of the header, and
the recorded total of fees is `0`: the statement that adds a fee to `nTotalFees` is
commented out, so the value is not `total_fees - total_fuel` once an included
transaction declares a fee. -/
theorem CreateNewBlock_reward (env : MinerEnv) (cfg : MinerConfig) (tip : CBlockIndex)
    (rest : List CBlockIndex) (mempool : List CTxMemPoolEntry) (cwIn : env.CW) (rate : Int)
    (hburn : GetElementForBurn cfg.burn (tip :: rest) = some rate) :
    ∃ res : NewBlockResult env.CW,
      CreateNewBlock env cfg (tip :: rest) mempool cwIn = some res ∧
      res.pBlock.vptx.head?.map (fun tx => tx.rewardValue)
        = some (toInt64 (0 - res.pBlock.nFuel)) ∧
      res.miningTotalFees = 0 := by
  obtain ⟨heap, hheap, _⟩ :=
    make_heap_some (TxPriorityCompare false) (GetPriorityTx env mempool [] rate)
  obtain ⟨sel, hv, _⟩ := assemble_fold env cfg.burn.MAX_BLOCK_RUN_STEP
    (toUInt32 (tip.nHeight + 1)) rate (blockMaxSize cfg) heap
    { cwIn := cwIn, vptx := placeholderTxs cfg,
      nBlockSize := env.blockSerializeSize (placeholderTxs cfg) % 2 ^ 64, nBlockTx := 0,
      nTotalRunStep := 0, nTotalFuel := 0 }
  refine ⟨finishNewBlock env tip (toUInt32 (tip.nHeight + 1)) rate
    (heap.foldl (assembleStep env cfg.burn.MAX_BLOCK_RUN_STEP (toUInt32 (tip.nHeight + 1)) rate
      (blockMaxSize cfg))
      { cwIn := cwIn, vptx := placeholderTxs cfg,
        nBlockSize := env.blockSerializeSize (placeholderTxs cfg) % 2 ^ 64, nBlockTx := 0,
        nTotalRunStep := 0, nTotalFuel := 0 }), ?_, ?_, rfl⟩
  · unfold CreateNewBlock
    simp only [hburn, hheap]
  · simp only [finishNewBlock]
    rw [hv]
    unfold placeholderTxs
    cases cfg.preStableCoin <;> simp

theorem CreateNewBlock_reward_witness :
    (∃ res : NewBlockResult sampleEnv.CW,
      CreateNewBlock sampleEnv sampleMinerConfig (⟨2, 20, 0, 100, 2⟩ :: uniformChain 0 100 2)
        samplePool [] = some res ∧
      res.pBlock.vptx.head?.map (fun tx => tx.rewardValue)
        = some (toInt64 (0 - res.pBlock.nFuel)) ∧
      res.miningTotalFees = 0) ∧
    (CreateNewBlock sampleEnv sampleMinerConfig (uniformChain 0 100 3) samplePool []).map
        (fun r => ((r.pBlock.vptx.drop 2).map (fun tx => tx.hash),
          r.pBlock.vptx.head?.map (fun tx => tx.rewardValue), r.pBlock.nFuel, r.miningTotalFees))
      = some ([2, 1, 3], some (-30), 30, 0) ∧
    samplePool.map (fun mi => (mi.tx.hash, mi.nFees))
      = [(1, 100000), (2, 100000), (3, 100000)] ∧
    (-30 : Int) ≠ 300000 - 30 :=
  ⟨CreateNewBlock_reward sampleEnv sampleMinerConfig ⟨2, 20, 0, 100, 2⟩ (uniformChain 0 100 2)
      samplePool [] 100 (by decide),
    by decide⟩

/-! ## The slot test -/

/-- The slot test on a readable previous block: it fails exactly when the time distance
is below the interval and the RegIds agree. -/
theorem slotCheck_eq (env : PosEnv) (pBlock previousBlock : CBlock) (cw : env.miner.CW)
    (blockTime : Int) (regId : CRegID) (pBlockIndex : Nat) (tx0 : CBaseTx)
    (rest : List CBaseTx) (previousDelegate : CAccount)
    (hsucc : pBlock.nHeight ≠ 1 ∨ pBlock.hashPrevBlock ≠ env.genesisBlockHash)
    (hidx : env.mapBlockIndex pBlock.hashPrevBlock = some pBlockIndex)
    (hread : env.ReadBlockFromDisk pBlockIndex = some previousBlock)
    (hvptx : previousBlock.vptx = tx0 :: rest)
    (hacc : env.GetAccount cw tx0.txUid = some previousDelegate) :
    slotCheck env pBlock cw blockTime regId
      = some (!decide (blockTime - previousBlock.nTime < env.blockInterval
                ∧ previousDelegate.regId = regId)) := by
  unfold slotCheck
  rw [if_pos hsucc]
  simp only [hidx, hread, hvptx, hacc]
  by_cases h1 : blockTime - previousBlock.nTime < env.blockInterval
  · by_cases h2 : previousDelegate.regId = regId
    · simp [h1, h2]
    · simp [h1, h2]
  · simp [h1]

/-- Claim C16. For a block that is not the genesis successor, whose previous block
is read from disk and whose previous producer account is found:
`CreateBlockRewardTx(currentTime, delegate, ...)` returns false when
`currentTime - prev.time < BlockInterval` and the previous producer has the RegId of the
signing delegate, and the block it leaves is the block it was given (reward
transaction, nonce, merkle root, time and signature untouched); when
`currentTime - prev.time >= BlockInterval` or the RegIds differ the slot test passes, and
the call returns true whenever the block has a reward transaction and the wallet signs. -/
theorem CreateBlockRewardTx_slot (env : PosEnv) (currentTime : Int) (delegate : CAccount)
    (accountCache : env.miner.CW) (pBlock previousBlock : CBlock) (pBlockIndex : Nat)
    (tx0 : CBaseTx) (rest : List CBaseTx) (previousDelegate : CAccount)
    (hsucc : pBlock.nHeight ≠ 1 ∨ pBlock.hashPrevBlock ≠ env.genesisBlockHash)
    (hidx : env.mapBlockIndex pBlock.hashPrevBlock = some pBlockIndex)
    (hread : env.ReadBlockFromDisk pBlockIndex = some previousBlock)
    (hvptx : previousBlock.vptx = tx0 :: rest)
    (hacc : env.GetAccount accountCache tx0.txUid = some previousDelegate) :
    (currentTime - previousBlock.nTime < env.blockInterval →
      previousDelegate.regId = delegate.regId →
        CreateBlockRewardTx env currentTime delegate accountCache pBlock
          = some (false, pBlock)) ∧
    (env.blockInterval ≤ currentTime - previousBlock.nTime
        ∨ previousDelegate.regId ≠ delegate.regId →
      slotCheck env pBlock accountCache currentTime delegate.regId = some true ∧
      (pBlock.vptx ≠ [] → (∀ k h m, env.Sign k h m ≠ none) →
        ∃ signed, CreateBlockRewardTx env currentTime delegate accountCache pBlock
          = some (true, signed) ∧ signed.nTime = currentTime)) := by
  have hs := slotCheck_eq env pBlock previousBlock accountCache currentTime delegate.regId
    pBlockIndex tx0 rest previousDelegate hsucc hidx hread hvptx hacc
  refine ⟨fun h1 h2 => ?_, fun h => ?_⟩
  · unfold CreateBlockRewardTx
    rw [hs]
    simp [h1, h2]
  · have hs2 : slotCheck env pBlock accountCache currentTime delegate.regId = some true := by
      rw [hs]
      rcases h with h | h
      · have : ¬ (currentTime - previousBlock.nTime < env.blockInterval) := by omega
        simp [this]
      · simp [h]
    refine ⟨hs2, fun hne hsign => ?_⟩
    unfold CreateBlockRewardTx
    rw [hs2]
    cases hv : pBlock.vptx with
    | nil => exact absurd hv hne
    | cons t ts =>
      dsimp only
      cases hsg : env.Sign delegate.keyId
          (env.ComputeSignatureHash
            { pBlock with
              vptx := populateRewardTx env delegate pBlock.nHeight t :: ts
              nNonce := env.GetRand env.blockMaxNonce % 2 ^ 32
              hashMerkleRoot := env.BuildMerkleTree
                (populateRewardTx env delegate pBlock.nHeight t :: ts)
              nTime := currentTime })
          delegate.minerPubKeyIsValid with
      | none => exact absurd hsg (hsign _ _ _)
      | some sig => exact ⟨_, rfl, rfl⟩

theorem CreateBlockRewardTx_slot_witness :
    CreateBlockRewardTx (samplePosEnv lenientExec ⟨0, 1⟩) 109 (sampleAccount ⟨0, 1⟩) []
        sampleUnsignedBlock = some (false, sampleUnsignedBlock) ∧
    slotCheck (samplePosEnv lenientExec ⟨0, 1⟩) sampleUnsignedBlock [] 110 ⟨0, 1⟩
        = some true ∧
    slotCheck (samplePosEnv lenientExec ⟨0, 1⟩) sampleUnsignedBlock [] 109 ⟨2, 1⟩
        = some true :=
  ⟨(CreateBlockRewardTx_slot (samplePosEnv lenientExec ⟨0, 1⟩) 109 (sampleAccount ⟨0, 1⟩) []
      sampleUnsignedBlock (samplePreviousBlock ⟨0, 1⟩) 2
      { nTxType := TxType.BLOCK_REWARD_TX, txUid := ⟨0, 1⟩ } [] (sampleAccount ⟨0, 1⟩)
      (by decide) rfl rfl rfl rfl).1 (by decide) rfl,
   ((CreateBlockRewardTx_slot (samplePosEnv lenientExec ⟨0, 1⟩) 110 (sampleAccount ⟨0, 1⟩) []
      sampleUnsignedBlock (samplePreviousBlock ⟨0, 1⟩) 2
      { nTxType := TxType.BLOCK_REWARD_TX, txUid := ⟨0, 1⟩ } [] (sampleAccount ⟨0, 1⟩)
      (by decide) rfl rfl rfl rfl).2 (Or.inl (by decide))).1,
   ((CreateBlockRewardTx_slot (samplePosEnv lenientExec ⟨0, 1⟩) 109 (sampleAccount ⟨2, 1⟩) []
      sampleUnsignedBlock (samplePreviousBlock ⟨0, 1⟩) 2
      { nTxType := TxType.BLOCK_REWARD_TX, txUid := ⟨0, 1⟩ } [] (sampleAccount ⟨0, 1⟩)
      (by decide) rfl rfl rfl rfl).2 (Or.inr (by decide))).1⟩

/-- Claim C14. For a block B that is not the genesis successor, whose producer is
scheduled and has an account, and whose previous block A is read from disk with its
producer account found: if `B.time - A.time < BlockInterval` and the producer of A has
the RegId of the producer scheduled for B, `VerifyPosTx(B)` returns false, in particular
for `B.time = A.time + BlockInterval - 1`; when `B.time - A.time >= BlockInterval`
(equality included) or the RegIds differ, the slot test passes, and a block with a nonce
within the bound and a matching merkle root is then decided by the checks that follow
(signer, and execution when requested). -/
theorem VerifyPosTx_slot (env : PosEnv) (pBlock previousBlock : CBlock) (cwIn : env.miner.CW)
    (bNeedRunTx : Bool) (topDelegates delegatesList : List CRegID) (regId : CRegID)
    (curDelegate previousDelegate : CAccount) (pBlockIndex : Nat) (tx0 : CBaseTx)
    (rest : List CBaseTx)
    (htop : env.GetTopDelegates cwIn = some topDelegates)
    (hshuffle : ShuffleDelegates env.hw env.totalDelegateNum (toInt32 pBlock.nHeight)
        topDelegates = some delegatesList)
    (hcur : GetCurrentDelegate env.blockInterval env.totalDelegateNum pBlock.nTime
        delegatesList = some (true, regId))
    (hcurAcc : env.GetAccount cwIn regId = some curDelegate)
    (hsucc : pBlock.nHeight ≠ 1 ∨ pBlock.hashPrevBlock ≠ env.genesisBlockHash)
    (hidx : env.mapBlockIndex pBlock.hashPrevBlock = some pBlockIndex)
    (hread : env.ReadBlockFromDisk pBlockIndex = some previousBlock)
    (hvptx : previousBlock.vptx = tx0 :: rest)
    (hacc : env.GetAccount (env.miner.newCacheWrapper cwIn) tx0.txUid
        = some previousDelegate) :
    (pBlock.nTime - previousBlock.nTime < env.blockInterval →
      previousDelegate.regId = curDelegate.regId →
        VerifyPosTx env pBlock cwIn bNeedRunTx = some false) ∧
    (pBlock.nTime = previousBlock.nTime + env.blockInterval - 1 →
      previousDelegate.regId = curDelegate.regId →
        VerifyPosTx env pBlock cwIn bNeedRunTx = some false) ∧
    (env.blockInterval ≤ pBlock.nTime - previousBlock.nTime
        ∨ previousDelegate.regId ≠ curDelegate.regId →
      slotCheck env pBlock (env.miner.newCacheWrapper cwIn) pBlock.nTime curDelegate.regId
        = some true ∧
      (pBlock.nNonce ≤ env.blockMaxNonce →
        pBlock.hashMerkleRoot = env.BuildMerkleTree pBlock.vptx →
        VerifyPosTx env pBlock cwIn bNeedRunTx
          = match verifySigner env pBlock (env.miner.newCacheWrapper cwIn) curDelegate with
            | none => none
            | some false => some false
            | some true =>
              if bNeedRunTx = true then
                some (verifyRunTx env pBlock (env.miner.newCacheWrapper cwIn))
              else some true)) := by
  have hs := slotCheck_eq env pBlock previousBlock (env.miner.newCacheWrapper cwIn)
    pBlock.nTime curDelegate.regId pBlockIndex tx0 rest previousDelegate hsucc hidx hread
    hvptx hacc
  have hfalse : pBlock.nTime - previousBlock.nTime < env.blockInterval →
      previousDelegate.regId = curDelegate.regId →
        VerifyPosTx env pBlock cwIn bNeedRunTx = some false := by
    intro h1 h2
    unfold VerifyPosTx
    simp only [htop, hshuffle, hcur, hcurAcc]
    by_cases hn : pBlock.nNonce > env.blockMaxNonce
    · rw [if_pos hn]
    · rw [if_neg hn]
      by_cases hm : pBlock.hashMerkleRoot ≠ env.BuildMerkleTree pBlock.vptx
      · rw [if_pos hm]
      · rw [if_neg hm]
        rw [hs]
        simp [h1, h2]
  refine ⟨hfalse, fun ht => hfalse (by omega), fun h => ?_⟩
  have hs2 : slotCheck env pBlock (env.miner.newCacheWrapper cwIn) pBlock.nTime
      curDelegate.regId = some true := by
    rw [hs]
    rcases h with h | h
    · have : ¬ (pBlock.nTime - previousBlock.nTime < env.blockInterval) := by omega
      simp [this]
    · simp [h]
  refine ⟨hs2, fun hn hm => ?_⟩
  unfold VerifyPosTx
  simp only [htop, hshuffle, hcur, hcurAcc]
  rw [if_neg (by omega), if_neg (by simpa using hm)]
  rw [hs2]

theorem VerifyPosTx_slot_witness :
    VerifyPosTx (samplePosEnv lenientExec ⟨0, 1⟩)
        { sampleUnsignedBlock with nTime := 109 } [] true = some false ∧
    slotCheck (samplePosEnv lenientExec ⟨1, 1⟩)
        { sampleUnsignedBlock with nTime := 110 } [] 110 ⟨1, 1⟩ = some true :=
  ⟨(VerifyPosTx_slot (samplePosEnv lenientExec ⟨0, 1⟩)
      { sampleUnsignedBlock with nTime := 109 } (samplePreviousBlock ⟨0, 1⟩) [] true
      (sampleDelegates 3) [⟨2, 1⟩, ⟨0, 1⟩, ⟨1, 1⟩] ⟨0, 1⟩ (sampleAccount ⟨0, 1⟩)
      (sampleAccount ⟨0, 1⟩) 2 { nTxType := TxType.BLOCK_REWARD_TX, txUid := ⟨0, 1⟩ } []
      rfl (by decide) (by decide) rfl (by decide) rfl rfl rfl rfl).2.1 (by decide) rfl,
   ((VerifyPosTx_slot (samplePosEnv lenientExec ⟨1, 1⟩)
      { sampleUnsignedBlock with nTime := 110 } (samplePreviousBlock ⟨1, 1⟩) [] true
      (sampleDelegates 3) [⟨2, 1⟩, ⟨0, 1⟩, ⟨1, 1⟩] ⟨1, 1⟩ (sampleAccount ⟨1, 1⟩)
      (sampleAccount ⟨1, 1⟩) 2 { nTxType := TxType.BLOCK_REWARD_TX, txUid := ⟨1, 1⟩ } []
      rfl (by decide) (by decide) rfl (by decide) rfl rfl rfl rfl).2.2
        (Or.inl (by decide))).1⟩

/-! ## What `VerifyPosTx` requires -/

/-- The signer test passes only with an account of the scheduled RegId, a signature of
admissible length that verifies, and the expected version. -/
theorem verifySigner_true (env : PosEnv) (pBlock : CBlock) (spCW : env.miner.CW)
    (curDelegate : CAccount) (h : verifySigner env pBlock spCW curDelegate = some true) :
    ∃ tx0 rest account,
      pBlock.vptx = tx0 :: rest ∧
      env.GetAccount spCW tx0.txUid = some account ∧
      account.regId = curDelegate.regId ∧
      0 < pBlock.vSignature.length ∧
      pBlock.vSignature.length ≤ env.MAX_BLOCK_SIGNATURE_SIZE ∧
      (env.VerifySignature (env.ComputeSignatureHash pBlock) pBlock.vSignature
          account.pubKey = true ∨
        env.VerifySignature (env.ComputeSignatureHash pBlock) pBlock.vSignature
          account.minerPubKey = true) ∧
      tx0.nVersion = env.nTxVersion1 := by
  unfold verifySigner at h
  cases hv : pBlock.vptx with
  | nil => simp [hv] at h
  | cons tx0 rest =>
    simp only [hv] at h
    cases ha : env.GetAccount spCW tx0.txUid with
    | none => simp [ha] at h
    | some account =>
      simp only [ha] at h
      by_cases h1 : curDelegate.regId ≠ account.regId
      · rw [if_pos h1] at h; simp at h
      · rw [if_neg h1] at h
        by_cases h2 : pBlock.vSignature.length = 0
            ∨ pBlock.vSignature.length > env.MAX_BLOCK_SIGNATURE_SIZE
        · rw [if_pos h2] at h; simp at h
        · rw [if_neg h2] at h
          by_cases h3 : env.VerifySignature (env.ComputeSignatureHash pBlock)
                pBlock.vSignature account.pubKey = false ∧
              env.VerifySignature (env.ComputeSignatureHash pBlock)
                pBlock.vSignature account.minerPubKey = false
          · rw [if_pos h3] at h; simp at h
          · rw [if_neg h3] at h
            by_cases h4 : tx0.nVersion ≠ env.nTxVersion1
            · rw [if_pos h4] at h; simp at h
            · refine ⟨tx0, rest, account, rfl, ha, ?_, ?_, ?_, ?_, ?_⟩
              · exact (not_not.mp h1).symm
              · omega
              · omega
              · by_cases h5 : env.VerifySignature (env.ComputeSignatureHash pBlock)
                    pBlock.vSignature account.pubKey = true
                · exact Or.inl h5
                · right
                  by_contra h6
                  exact h3 ⟨by simpa using h5, by simpa using h6⟩
              · exact not_not.mp h4

/-- The steps of `VerifyPosTx` up to the execution check, read off an accepted block. -/
theorem VerifyPosTx_true (env : PosEnv) (pBlock : CBlock) (cwIn : env.miner.CW)
    (bNeedRunTx : Bool) (h : VerifyPosTx env pBlock cwIn bNeedRunTx = some true) :
    ∃ topDelegates delegatesList regId curDelegate,
      env.GetTopDelegates cwIn = some topDelegates ∧
      ShuffleDelegates env.hw env.totalDelegateNum (toInt32 pBlock.nHeight) topDelegates
        = some delegatesList ∧
      GetCurrentDelegate env.blockInterval env.totalDelegateNum pBlock.nTime delegatesList
        = some (true, regId) ∧
      env.GetAccount cwIn regId = some curDelegate ∧
      pBlock.nNonce ≤ env.blockMaxNonce ∧
      pBlock.hashMerkleRoot = env.BuildMerkleTree pBlock.vptx ∧
      slotCheck env pBlock (env.miner.newCacheWrapper cwIn) pBlock.nTime curDelegate.regId
        = some true ∧
      verifySigner env pBlock (env.miner.newCacheWrapper cwIn) curDelegate = some true ∧
      (bNeedRunTx = true → verifyRunTx env pBlock (env.miner.newCacheWrapper cwIn) = true) := by
  unfold VerifyPosTx at h
  cases htop : env.GetTopDelegates cwIn with
  | none => simp [htop] at h
  | some topDelegates =>
    simp only [htop] at h
    cases hsh : ShuffleDelegates env.hw env.totalDelegateNum (toInt32 pBlock.nHeight)
        topDelegates with
    | none => simp [hsh] at h
    | some delegatesList =>
      simp only [hsh] at h
      cases hcur : GetCurrentDelegate env.blockInterval env.totalDelegateNum pBlock.nTime
          delegatesList with
      | none => simp [hcur] at h
      | some p =>
        obtain ⟨b, regId⟩ := p
        cases b with
        | false => simp [hcur] at h
        | true =>
          simp only [hcur] at h
          cases hacc : env.GetAccount cwIn regId with
          | none => simp [hacc] at h
          | some curDelegate =>
            simp only [hacc] at h
            by_cases hn : pBlock.nNonce > env.blockMaxNonce
            · rw [if_pos hn] at h; simp at h
            · rw [if_neg hn] at h
              by_cases hm : pBlock.hashMerkleRoot ≠ env.BuildMerkleTree pBlock.vptx
              · rw [if_pos hm] at h; simp at h
              · rw [if_neg hm] at h
                cases hslot : slotCheck env pBlock (env.miner.newCacheWrapper cwIn)
                    pBlock.nTime curDelegate.regId with
                | none => simp [hslot] at h
                | some bs =>
                  cases bs with
                  | false => simp [hslot] at h
                  | true =>
                    simp only [hslot] at h
                    cases hsig : verifySigner env pBlock (env.miner.newCacheWrapper cwIn)
                        curDelegate with
                    | none => simp [hsig] at h
                    | some bv =>
                      cases bv with
                      | false => simp [hsig] at h
                      | true =>
                        simp only [hsig] at h
                        refine ⟨topDelegates, delegatesList, regId, curDelegate, rfl, hsh,
                          hcur, hacc, by omega, not_not.mp hm, hslot, hsig, fun hb => ?_⟩
                        rw [if_pos hb] at h
                        exact Option.some.inj h

/-- The call `GetCurrentDelegate` returns true on a list of `TotalDelegateNum` delegates
for a time that is not negative. -/
theorem GetCurrentDelegate_returns (blockInterval : Int) (N : Nat) (t : Int) (L : List CRegID)
    (hBI : 1 ≤ blockInterval) (hN : 1 ≤ N) (hN31 : N < 2 ^ 31) (ht : 0 ≤ t)
    (hlen : L.length = N) :
    ∃ regId, GetCurrentDelegate blockInterval N t L = some (true, regId) := by
  obtain ⟨bi, rfl⟩ : ∃ bi : Nat, blockInterval = (bi : Int) :=
    ⟨blockInterval.toNat, (Int.toNat_of_nonneg (by omega)).symm⟩
  obtain ⟨s, rfl⟩ : ∃ s : Nat, t = (s : Int) := ⟨t.toNat, (Int.toNat_of_nonneg ht).symm⟩
  have hbi : 0 < bi := by omega
  have hlt : (s / bi) % N < L.length := by
    rw [hlen]; exact Nat.mod_lt _ (by omega)
  have hd : Int.tdiv (s : Int) (bi : Int) = ((s / bi : Nat) : Int) := by
    rw [Int.tdiv_eq_ediv (Int.ofNat_nonneg _) (Int.ofNat_nonneg _)]
    norm_cast
  have hm : Int.tmod ((s / bi : Nat) : Int) (N : Int) = (((s / bi) % N : Nat) : Int) := by
    rw [Int.tmod_eq_emod (Int.ofNat_nonneg _) (Int.ofNat_nonneg _)]
    norm_cast
  have h32 : toInt32 (((s / bi) % N : Nat) : Int) = (((s / bi) % N : Nat) : Int) :=
    toInt32_of_small _ (Int.ofNat_nonneg _) (by
      have := Nat.mod_lt (s / bi) (show 0 < N by omega)
      exact_mod_cast (show (s / bi) % N < 2 ^ 31 by omega))
  refine ⟨L.get ⟨(s / bi) % N, hlt⟩, ?_⟩
  unfold GetCurrentDelegate cdiv cmod
  rw [if_neg (by omega)]
  simp only [hd]
  rw [if_neg (by omega)]
  simp only [hm, h32]
  rw [if_neg (by omega)]
  simp only [Int.toNat_ofNat, List.getElem?_eq_getElem hlt]
  rfl

/-- The slot test returns when the index of the previous block is not null and the
blocks on disk hold their reward transaction. -/
theorem slotCheck_returns (env : PosEnv) (pBlock : CBlock) (cw : env.miner.CW)
    (blockTime : Int) (regId : CRegID)
    (hprev : pBlock.nHeight ≠ 1 ∨ pBlock.hashPrevBlock ≠ env.genesisBlockHash →
      ∃ pBlockIndex, env.mapBlockIndex pBlock.hashPrevBlock = some pBlockIndex ∧
        ∀ previousBlock, env.ReadBlockFromDisk pBlockIndex = some previousBlock →
          previousBlock.vptx ≠ []) :
    ∃ b, slotCheck env pBlock cw blockTime regId = some b := by
  unfold slotCheck
  by_cases hs : pBlock.nHeight ≠ 1 ∨ pBlock.hashPrevBlock ≠ env.genesisBlockHash
  · rw [if_pos hs]
    obtain ⟨idx, hidx, hdisk⟩ := hprev hs
    simp only [hidx]
    cases hr : env.ReadBlockFromDisk idx with
    | none => exact ⟨false, rfl⟩
    | some previousBlock =>
      have hne := hdisk previousBlock hr
      cases hv : previousBlock.vptx with
      | nil => exact absurd hv hne
      | cons tx0 rest =>
        simp only [hv]
        cases hacc : env.GetAccount cw tx0.txUid with
        | none => exact ⟨false, rfl⟩
        | some previousDelegate =>
          simp only
          by_cases h1 : blockTime - previousBlock.nTime < env.blockInterval
          · rw [if_pos h1]
            by_cases h2 : previousDelegate.regId = regId
            · rw [if_pos h2]; exact ⟨false, rfl⟩
            · rw [if_neg h2]; exact ⟨true, rfl⟩
          · rw [if_neg h1]; exact ⟨true, rfl⟩
  · rw [if_neg hs]
    exact ⟨true, rfl⟩

/-- The signer test returns on a block that holds a first transaction. -/
theorem verifySigner_returns (env : PosEnv) (pBlock : CBlock) (spCW : env.miner.CW)
    (curDelegate : CAccount) (hvptx : pBlock.vptx ≠ []) :
    ∃ b, verifySigner env pBlock spCW curDelegate = some b := by
  unfold verifySigner
  cases hv : pBlock.vptx with
  | nil => exact absurd hv hvptx
  | cons tx0 rest =>
    simp only
    cases hacc : env.GetAccount spCW tx0.txUid with
    | none => exact ⟨false, rfl⟩
    | some account =>
      simp only
      split
      · exact ⟨false, rfl⟩
      · split
        · exact ⟨false, rfl⟩
        · split
          · exact ⟨false, rfl⟩
          · split
            · exact ⟨false, rfl⟩
            · exact ⟨true, rfl⟩

/-- The call `VerifyPosTx` returns (true or false) when the delegate cache holds
`TotalDelegateNum` delegates (`1 <= TotalDelegateNum < 2^31`, `BlockInterval >= 1`), the
time of the block is not negative, the index of the previous block is not null, the
blocks on disk hold their reward transaction, and the block holds a first
transaction. -/
theorem VerifyPosTx_returns (env : PosEnv) (pBlock : CBlock) (cwIn : env.miner.CW)
    (bNeedRunTx : Bool)
    (hN : 1 ≤ env.totalDelegateNum) (hN31 : env.totalDelegateNum < 2 ^ 31)
    (hBI : 1 ≤ env.blockInterval) (htime : 0 ≤ pBlock.nTime)
    (hlen : ∀ topDelegates, env.GetTopDelegates cwIn = some topDelegates →
      topDelegates.length = env.totalDelegateNum)
    (hprev : pBlock.nHeight ≠ 1 ∨ pBlock.hashPrevBlock ≠ env.genesisBlockHash →
      ∃ pBlockIndex, env.mapBlockIndex pBlock.hashPrevBlock = some pBlockIndex ∧
        ∀ previousBlock, env.ReadBlockFromDisk pBlockIndex = some previousBlock →
          previousBlock.vptx ≠ [])
    (hvptx : pBlock.vptx ≠ []) :
    ∃ r, VerifyPosTx env pBlock cwIn bNeedRunTx = some r := by
  unfold VerifyPosTx
  cases htop : env.GetTopDelegates cwIn with
  | none => exact ⟨false, rfl⟩
  | some topDelegates =>
    simp only
    obtain ⟨delegatesList, hsh, hperm⟩ := ShuffleDelegates_some env.hw env.totalDelegateNum
      (toInt32 pBlock.nHeight) topDelegates hN (by omega) (hlen _ htop)
    obtain ⟨regId, hcur⟩ := GetCurrentDelegate_returns env.blockInterval env.totalDelegateNum
      pBlock.nTime delegatesList hBI hN hN31 htime (by rw [hperm.length_eq]; exact hlen _ htop)
    simp only [hsh, hcur]
    cases hacc : env.GetAccount cwIn regId with
    | none => exact ⟨false, rfl⟩
    | some curDelegate =>
      simp only
      by_cases hn : pBlock.nNonce > env.blockMaxNonce
      · rw [if_pos hn]; exact ⟨false, rfl⟩
      · rw [if_neg hn]
        by_cases hm : pBlock.hashMerkleRoot ≠ env.BuildMerkleTree pBlock.vptx
        · rw [if_pos hm]; exact ⟨false, rfl⟩
        · rw [if_neg hm]
          obtain ⟨bs, hbs⟩ := slotCheck_returns env pBlock (env.miner.newCacheWrapper cwIn)
            pBlock.nTime curDelegate.regId hprev
          simp only [hbs]
          cases bs with
          | false => exact ⟨false, rfl⟩
          | true =>
            obtain ⟨bv, hbv⟩ := verifySigner_returns env pBlock
              (env.miner.newCacheWrapper cwIn) curDelegate hvptx
            simp only [hbv]
            cases bv with
            | false => exact ⟨false, rfl⟩
            | true =>
              simp only
              by_cases hb : bNeedRunTx = true
              · rw [if_pos hb]; exact ⟨_, rfl⟩
              · rw [if_neg hb]; exact ⟨true, rfl⟩

/-- A call that returns and does not return true returns false. -/
theorem eq_some_false_of_ne_true (o : Option Bool) (hret : ∃ r, o = some r)
    (hne : o ≠ some true) : o = some false := by
  obtain ⟨r, hr⟩ := hret
  cases r with
  | false => exact hr
  | true => exact absurd hr hne

/-- Claim C13. The call `VerifyPosTx(block, cw, bNeedRunTx)` returns true only if
all of these hold: the nonce is at most `MaxNonce`; the merkle root is
`BuildMerkleTree(block.txs)`; the account of `block.txs[0].txUid` exists and its RegId
is the RegId of the account of the producer scheduled by the shuffle for `block.height`
at `block.time` (the scheduled RegId itself when accounts are stored under their own
RegId); the signature length is in `(0, MAX_BLOCK_SIGNATURE_SIZE]` and the signature
verifies against the primary or the miner-only public key of that account; and
`block.txs[0].version = nTxVersion1`.  On every call the source defines (the delegate
cache holds `TotalDelegateNum` delegates, `1 <= TotalDelegateNum < 2^31`,
`BlockInterval >= 1`, the time of the block is not negative, the index of the previous
block is not null, the blocks on disk hold their reward transaction, the block holds
a first transaction) the call returns, and a block violating one of the conditions
makes it return false. -/
theorem VerifyPosTx_requirements (env : PosEnv) (pBlock : CBlock) (cwIn : env.miner.CW)
    (bNeedRunTx : Bool) :
    (VerifyPosTx env pBlock cwIn bNeedRunTx = some true →
      ∃ topDelegates delegatesList regId curDelegate tx0 rest account,
        env.GetTopDelegates cwIn = some topDelegates ∧
        ShuffleDelegates env.hw env.totalDelegateNum (toInt32 pBlock.nHeight) topDelegates
          = some delegatesList ∧
        GetCurrentDelegate env.blockInterval env.totalDelegateNum pBlock.nTime delegatesList
          = some (true, regId) ∧
        env.GetAccount cwIn regId = some curDelegate ∧
        pBlock.nNonce ≤ env.blockMaxNonce ∧
        pBlock.hashMerkleRoot = env.BuildMerkleTree pBlock.vptx ∧
        pBlock.vptx = tx0 :: rest ∧
        env.GetAccount (env.miner.newCacheWrapper cwIn) tx0.txUid = some account ∧
        account.regId = curDelegate.regId ∧
        ((∀ cw r a, env.GetAccount cw r = some a → a.regId = r) → account.regId = regId) ∧
        0 < pBlock.vSignature.length ∧
        pBlock.vSignature.length ≤ env.MAX_BLOCK_SIGNATURE_SIZE ∧
        (env.VerifySignature (env.ComputeSignatureHash pBlock) pBlock.vSignature
            account.pubKey = true ∨
          env.VerifySignature (env.ComputeSignatureHash pBlock) pBlock.vSignature
            account.minerPubKey = true) ∧
        tx0.nVersion = env.nTxVersion1) ∧
    (1 ≤ env.totalDelegateNum → env.totalDelegateNum < 2 ^ 31 → 1 ≤ env.blockInterval →
      0 ≤ pBlock.nTime →
      (∀ topDelegates, env.GetTopDelegates cwIn = some topDelegates →
        topDelegates.length = env.totalDelegateNum) →
      (pBlock.nHeight ≠ 1 ∨ pBlock.hashPrevBlock ≠ env.genesisBlockHash →
        ∃ pBlockIndex, env.mapBlockIndex pBlock.hashPrevBlock = some pBlockIndex ∧
          ∀ previousBlock, env.ReadBlockFromDisk pBlockIndex = some previousBlock →
            previousBlock.vptx ≠ []) →
      pBlock.vptx ≠ [] →
      (VerifyPosTx env pBlock cwIn bNeedRunTx = some true
        ∨ VerifyPosTx env pBlock cwIn bNeedRunTx = some false) ∧
      (pBlock.nNonce > env.blockMaxNonce →
        VerifyPosTx env pBlock cwIn bNeedRunTx = some false) ∧
      (pBlock.hashMerkleRoot ≠ env.BuildMerkleTree pBlock.vptx →
        VerifyPosTx env pBlock cwIn bNeedRunTx = some false) ∧
      (pBlock.vSignature.length = 0
          ∨ pBlock.vSignature.length > env.MAX_BLOCK_SIGNATURE_SIZE →
        VerifyPosTx env pBlock cwIn bNeedRunTx = some false) ∧
      (∀ tx0 rest, pBlock.vptx = tx0 :: rest →
        (env.GetAccount (env.miner.newCacheWrapper cwIn) tx0.txUid = none
          ∨ tx0.nVersion ≠ env.nTxVersion1
          ∨ (∃ account,
              env.GetAccount (env.miner.newCacheWrapper cwIn) tx0.txUid = some account ∧
              env.VerifySignature (env.ComputeSignatureHash pBlock) pBlock.vSignature
                account.pubKey = false ∧
              env.VerifySignature (env.ComputeSignatureHash pBlock) pBlock.vSignature
                account.minerPubKey = false)
          ∨ (∃ account,
              env.GetAccount (env.miner.newCacheWrapper cwIn) tx0.txUid = some account ∧
              ∀ topDelegates delegatesList regId curDelegate,
                env.GetTopDelegates cwIn = some topDelegates →
                ShuffleDelegates env.hw env.totalDelegateNum (toInt32 pBlock.nHeight)
                  topDelegates = some delegatesList →
                GetCurrentDelegate env.blockInterval env.totalDelegateNum pBlock.nTime
                  delegatesList = some (true, regId) →
                env.GetAccount cwIn regId = some curDelegate →
                account.regId ≠ curDelegate.regId)) →
        VerifyPosTx env pBlock cwIn bNeedRunTx = some false)) := by
  have key : VerifyPosTx env pBlock cwIn bNeedRunTx = some true →
      ∃ topDelegates delegatesList regId curDelegate tx0 rest account,
        env.GetTopDelegates cwIn = some topDelegates ∧
        ShuffleDelegates env.hw env.totalDelegateNum (toInt32 pBlock.nHeight) topDelegates
          = some delegatesList ∧
        GetCurrentDelegate env.blockInterval env.totalDelegateNum pBlock.nTime delegatesList
          = some (true, regId) ∧
        env.GetAccount cwIn regId = some curDelegate ∧
        pBlock.nNonce ≤ env.blockMaxNonce ∧
        pBlock.hashMerkleRoot = env.BuildMerkleTree pBlock.vptx ∧
        pBlock.vptx = tx0 :: rest ∧
        env.GetAccount (env.miner.newCacheWrapper cwIn) tx0.txUid = some account ∧
        account.regId = curDelegate.regId ∧
        ((∀ cw r a, env.GetAccount cw r = some a → a.regId = r) → account.regId = regId) ∧
        0 < pBlock.vSignature.length ∧
        pBlock.vSignature.length ≤ env.MAX_BLOCK_SIGNATURE_SIZE ∧
        (env.VerifySignature (env.ComputeSignatureHash pBlock) pBlock.vSignature
            account.pubKey = true ∨
          env.VerifySignature (env.ComputeSignatureHash pBlock) pBlock.vSignature
            account.minerPubKey = true) ∧
        tx0.nVersion = env.nTxVersion1 := by
    intro h
    obtain ⟨top, dl, regId, cur, h1, h2, h3, h4, h5, h6, _, h8, _⟩ :=
      VerifyPosTx_true env pBlock cwIn bNeedRunTx h
    obtain ⟨tx0, rest, account, g1, g2, g3, g4, g5, g6, g7⟩ :=
      verifySigner_true env pBlock _ cur h8
    exact ⟨top, dl, regId, cur, tx0, rest, account, h1, h2, h3, h4, h5, h6, g1, g2, g3,
      fun hc => by rw [g3]; exact hc _ _ _ h4, g4, g5, g6, g7⟩
  refine ⟨key, fun hN hN31 hBI htime hlen hprev hvptx => ?_⟩
  have hret := VerifyPosTx_returns env pBlock cwIn bNeedRunTx hN hN31 hBI htime hlen hprev
    hvptx
  refine ⟨?_, fun hv => eq_some_false_of_ne_true _ hret (fun h => ?_),
    fun hv => eq_some_false_of_ne_true _ hret (fun h => ?_),
    fun hv => eq_some_false_of_ne_true _ hret (fun h => ?_),
    fun tx0 rest hvp hv => eq_some_false_of_ne_true _ hret (fun h => ?_)⟩
  · obtain ⟨r, hr⟩ := hret
    cases r with
    | false => exact Or.inr hr
    | true => exact Or.inl hr
  · obtain ⟨_, _, _, _, _, _, _, _, _, _, _, h5, _⟩ := key h
    omega
  · obtain ⟨_, _, _, _, _, _, _, _, _, _, _, _, h6, _⟩ := key h
    exact hv h6
  · obtain ⟨_, _, _, _, _, _, _, _, _, _, _, _, _, _, _, _, _, g4, g5, _⟩ := key h
    omega
  · obtain ⟨top, dl, regId, cur, t0, r0, account, h1, h2, h3, h4, _, _, g1, g2, g3, _, _, _,
      g6, g7⟩ := key h
    rw [hvp] at g1
    obtain ⟨rfl, rfl⟩ := List.cons.inj g1
    rcases hv with hv | hv | ⟨a, ha, hp, hm⟩ | ⟨a, ha, hne⟩
    · rw [hv] at g2; exact Option.noConfusion g2
    · exact hv g7
    · rw [ha] at g2
      obtain rfl := Option.some.inj g2
      rcases g6 with g6 | g6
      · rw [hp] at g6; exact Bool.noConfusion g6
      · rw [hm] at g6; exact Bool.noConfusion g6
    · rw [ha] at g2
      obtain rfl := Option.some.inj g2
      exact hne top dl regId cur h1 h2 h3 h4 g3

theorem VerifyPosTx_requirements_witness :
    VerifyPosTx (samplePosEnv lenientExec ⟨0, 1⟩) sampleSignedBlock [] false = some true ∧
    sampleSignedBlock.nNonce ≤ 1000 ∧
    sampleSignedBlock.hashMerkleRoot
      = (samplePosEnv lenientExec ⟨0, 1⟩).BuildMerkleTree sampleSignedBlock.vptx ∧
    VerifyPosTx (samplePosEnv lenientExec ⟨0, 1⟩) { sampleSignedBlock with nNonce := 1001 } []
      false = some false ∧
    VerifyPosTx (samplePosEnv lenientExec ⟨0, 1⟩) { sampleSignedBlock with vSignature := [] } []
      false = some false :=
  ⟨by decide,
   match (VerifyPosTx_requirements (samplePosEnv lenientExec ⟨0, 1⟩) sampleSignedBlock []
      false).1 (by decide) with
   | ⟨_, _, _, _, _, _, _, _, _, _, _, hn, _⟩ => hn,
   match (VerifyPosTx_requirements (samplePosEnv lenientExec ⟨0, 1⟩) sampleSignedBlock []
      false).1 (by decide) with
   | ⟨_, _, _, _, _, _, _, _, _, _, _, _, hm, _⟩ => hm,
   ((VerifyPosTx_requirements (samplePosEnv lenientExec ⟨0, 1⟩)
      { sampleSignedBlock with nNonce := 1001 } [] false).2 (by decide) (by decide) (by decide)
      (by decide) (fun top h => by cases h; rfl)
      (fun _ => ⟨2, rfl, fun prev h => by cases h; decide⟩) (by decide)).2.1 (by decide),
   ((VerifyPosTx_requirements (samplePosEnv lenientExec ⟨0, 1⟩)
      { sampleSignedBlock with vSignature := [] } [] false).2 (by decide) (by decide)
      (by decide) (by decide) (fun top h => by cases h; rfl)
      (fun _ => ⟨2, rfl, fun prev h => by cases h; decide⟩) (by decide)).2.2.2.1
      (Or.inl rfl)⟩

/-! ## The execution check -/

/-- The indices of the trace count on from the first one. -/
theorem verifyRunTrace_index (env : PosEnv) (nHeight : Nat) (nFuelRate : Int) :
    ∀ (txs : List CBaseTx) (i : Nat) (cw : env.miner.CW),
      (verifyRunTrace env nHeight nFuelRate txs i cw).map (fun e => e.nIndex)
        = List.range' i txs.length := by
  intro txs
  induction txs with
  | nil => intro i cw; rfl
  | cons tx rest ih =>
    intro i cw
    simp only [verifyRunTrace, List.map_cons, List.length_cons, List.range'_succ]
    rw [ih]

/-- The loop of the execution check runs to its end exactly when no transaction is in
the recent-tx cache, each executes, and the steps stay within the bound; its totals are
then the sums over the trace. -/
theorem verifyRunLoop_spec (env : PosEnv) (nHeight : Nat) (nFuelRate : Int)
    (hwrap : ∀ tx h i c,
      (env.miner.ExecuteTx tx h i c).nRunStep + env.MAX_BLOCK_RUN_STEP < 2 ^ 64) :
    ∀ (txs : List CBaseTx) (i : Nat) (cw : env.miner.CW) (f s : Nat),
      s ≤ env.MAX_BLOCK_RUN_STEP → f < 2 ^ 64 →
      ((verifyRunLoop env nHeight nFuelRate txs i cw f s).ok = true ↔
        (∀ e ∈ verifyRunTrace env nHeight nFuelRate txs i cw,
          e.inCache = false ∧ e.ok = true) ∧
        s + ((verifyRunTrace env nHeight nFuelRate txs i cw).map (fun e => e.nRunStep)).sum
          ≤ env.MAX_BLOCK_RUN_STEP) ∧
      ((verifyRunLoop env nHeight nFuelRate txs i cw f s).ok = true →
        (verifyRunLoop env nHeight nFuelRate txs i cw f s).nTotalFuel
          = (f + ((verifyRunTrace env nHeight nFuelRate txs i cw).map
              (fun e => e.fuel)).sum) % 2 ^ 64 ∧
        (verifyRunLoop env nHeight nFuelRate txs i cw f s).nTotalRunStep
          = s + ((verifyRunTrace env nHeight nFuelRate txs i cw).map
              (fun e => e.nRunStep)).sum) := by
  intro txs
  induction txs with
  | nil =>
    intro i cw f s hs hf
    simp only [verifyRunLoop, verifyRunTrace, List.map_nil, List.sum_nil, Nat.add_zero]
    exact ⟨⟨fun _ => ⟨fun e he => absurd he (List.not_mem_nil e), hs⟩, fun _ => trivial⟩,
      fun _ => ⟨(Nat.mod_eq_of_lt hf).symm, trivial⟩⟩
  | cons tx rest ih =>
    intro i cw f s hs hf
    have hw := hwrap tx nHeight i (env.txUndoClear cw)
    simp only [verifyRunLoop, verifyRunTrace, List.map_cons, List.sum_cons, List.forall_mem_cons]
    by_cases hc : env.txCacheHaveTx cw tx.hash = true
    · rw [if_pos hc]
      simp [hc]
    · rw [if_neg hc]
      by_cases hok : (env.miner.ExecuteTx tx nHeight i (env.txUndoClear cw)).ok = false
      · rw [if_pos hok]
        simp [hok]
      · rw [if_neg hok]
        have hmod : (s + (env.miner.ExecuteTx tx nHeight i (env.txUndoClear cw)).nRunStep)
            % 2 ^ 64
            = s + (env.miner.ExecuteTx tx nHeight i (env.txUndoClear cw)).nRunStep :=
          Nat.mod_eq_of_lt (by omega)
        rw [hmod]
        by_cases hstep : s + (env.miner.ExecuteTx tx nHeight i (env.txUndoClear cw)).nRunStep
            > env.MAX_BLOCK_RUN_STEP
        · rw [if_pos hstep]
          refine ⟨⟨fun h => by simp at h, fun h => ?_⟩, fun h => by simp at h⟩
          omega
        · rw [if_neg hstep]
          have hih := ih (i + 1) (env.miner.ExecuteTx tx nHeight i (env.txUndoClear cw)).cw
            ((f + env.miner.GetFuel
                { tx with nRunStep :=
                    (env.miner.ExecuteTx tx nHeight i (env.txUndoClear cw)).nRunStep }
                nFuelRate) % 2 ^ 64)
            (s + (env.miner.ExecuteTx tx nHeight i (env.txUndoClear cw)).nRunStep)
            (by omega) (Nat.mod_lt _ (by norm_num))
          obtain ⟨h1, h2⟩ := hih
          have hc2 : env.txCacheHaveTx cw tx.hash = false := by simpa using hc
          have hok2 : (env.miner.ExecuteTx tx nHeight i (env.txUndoClear cw)).ok = true := by
            simpa using hok
          refine ⟨?_, fun h => ?_⟩
          · rw [h1]
            constructor
            · rintro ⟨ha, hb⟩
              exact ⟨⟨⟨hc2, hok2⟩, ha⟩, by omega⟩
            · rintro ⟨⟨_, ha⟩, hb⟩
              exact ⟨ha, by omega⟩
          · obtain ⟨g1, g2⟩ := h2 h
            rw [g1, g2]
            refine ⟨?_, by omega⟩
            rw [Nat.mod_add_mod, Nat.add_assoc]

/-- The execution check accepts exactly when the trace has no duplicate and no failed
execution, the steps are within the bound and the fuel is that of the header. -/
theorem verifyRunTx_iff (env : PosEnv) (pBlock : CBlock) (cwIn : env.miner.CW)
    (hwrap : ∀ tx h i c,
      (env.miner.ExecuteTx tx h i c).nRunStep + env.MAX_BLOCK_RUN_STEP < 2 ^ 64) :
    verifyRunTx env pBlock (env.miner.newCacheWrapper cwIn) = true ↔
      (∀ e ∈ blockRunTrace env pBlock cwIn, e.inCache = false ∧ e.ok = true) ∧
      ((blockRunTrace env pBlock cwIn).map (fun e => e.nRunStep)).sum
        ≤ env.MAX_BLOCK_RUN_STEP ∧
      ((blockRunTrace env pBlock cwIn).map (fun e => e.fuel)).sum % 2 ^ 64
        = toUInt64 pBlock.nFuel := by
  obtain ⟨h1, h2⟩ := verifyRunLoop_spec env pBlock.nHeight pBlock.nFuelRate hwrap
    (pBlock.vptx.drop 1) 1 (env.miner.newCacheWrapper cwIn) 0 0 (Nat.zero_le _) (by norm_num)
  rw [Nat.zero_add] at h1 h2
  unfold verifyRunTx blockRunTrace
  dsimp only
  constructor
  · intro h
    by_cases hok : (verifyRunLoop env pBlock.nHeight pBlock.nFuelRate (pBlock.vptx.drop 1) 1
        (env.miner.newCacheWrapper cwIn) 0 0).ok = false
    · rw [if_pos hok] at h; exact Bool.noConfusion h
    · rw [if_neg hok] at h
      have hok2 : (verifyRunLoop env pBlock.nHeight pBlock.nFuelRate (pBlock.vptx.drop 1) 1
          (env.miner.newCacheWrapper cwIn) 0 0).ok = true := by simpa using hok
      obtain ⟨ha, hb⟩ := h1.mp hok2
      obtain ⟨hf, _⟩ := h2 hok2
      refine ⟨ha, hb, ?_⟩
      by_cases hfu : (verifyRunLoop env pBlock.nHeight pBlock.nFuelRate (pBlock.vptx.drop 1) 1
          (env.miner.newCacheWrapper cwIn) 0 0).nTotalFuel ≠ toUInt64 pBlock.nFuel
      · rw [if_pos hfu] at h; exact Bool.noConfusion h
      · rw [← hf]
        exact not_not.mp hfu
  · rintro ⟨ha, hb, hc⟩
    have hok2 := h1.mpr ⟨ha, hb⟩
    obtain ⟨hf, _⟩ := h2 hok2
    rw [if_neg (by rw [hok2]; exact Bool.noConfusion),
      if_neg (by rw [hf, hc]; exact fun h => h rfl)]

/-- Claim C15. With run steps that do not wrap the 64-bit total: when the execution
check is requested, `VerifyPosTx` returns true only if, for the transactions after the
reward transaction taken in index order (indices 1, 2, ...): none is in the recent-tx
cache, each executes successfully against the speculative cache at
`(block.height, its index)`, the sum of their run steps is at most
`MAX_BLOCK_RUN_STEP`, and the sum of their fuel at `block.fuel_rate` (a 64-bit total)
equals `block.fuel`.  On every call the source defines (the delegate cache holds
`TotalDelegateNum` delegates, `1 <= TotalDelegateNum < 2^31`, `BlockInterval >= 1`, the
time of the block is not negative, the index of the previous block is not null, the
blocks on disk hold their reward transaction, the block holds a first transaction) a
duplicate, a failed execution, a step total above the cap or a fuel mismatch each makes
it return false.  The execution check itself accepts exactly under the four
conditions. -/
theorem VerifyPosTx_execution_check (env : PosEnv) (pBlock : CBlock) (cwIn : env.miner.CW)
    (hwrap : ∀ tx h i c,
      (env.miner.ExecuteTx tx h i c).nRunStep + env.MAX_BLOCK_RUN_STEP < 2 ^ 64) :
    (VerifyPosTx env pBlock cwIn true = some true →
      (blockRunTrace env pBlock cwIn).map (fun e => e.nIndex)
        = List.range' 1 (pBlock.vptx.length - 1) ∧
      (∀ e ∈ blockRunTrace env pBlock cwIn, e.inCache = false ∧ e.ok = true) ∧
      ((blockRunTrace env pBlock cwIn).map (fun e => e.nRunStep)).sum
        ≤ env.MAX_BLOCK_RUN_STEP ∧
      ((blockRunTrace env pBlock cwIn).map (fun e => e.fuel)).sum % 2 ^ 64
        = toUInt64 pBlock.nFuel) ∧
    (1 ≤ env.totalDelegateNum → env.totalDelegateNum < 2 ^ 31 → 1 ≤ env.blockInterval →
      0 ≤ pBlock.nTime →
      (∀ topDelegates, env.GetTopDelegates cwIn = some topDelegates →
        topDelegates.length = env.totalDelegateNum) →
      (pBlock.nHeight ≠ 1 ∨ pBlock.hashPrevBlock ≠ env.genesisBlockHash →
        ∃ pBlockIndex, env.mapBlockIndex pBlock.hashPrevBlock = some pBlockIndex ∧
          ∀ previousBlock, env.ReadBlockFromDisk pBlockIndex = some previousBlock →
            previousBlock.vptx ≠ []) →
      pBlock.vptx ≠ [] →
      (VerifyPosTx env pBlock cwIn true = some true
        ∨ VerifyPosTx env pBlock cwIn true = some false) ∧
      ((∃ e ∈ blockRunTrace env pBlock cwIn, e.inCache = true) →
        VerifyPosTx env pBlock cwIn true = some false) ∧
      ((∃ e ∈ blockRunTrace env pBlock cwIn, e.ok = false) →
        VerifyPosTx env pBlock cwIn true = some false) ∧
      (((blockRunTrace env pBlock cwIn).map (fun e => e.nRunStep)).sum
          > env.MAX_BLOCK_RUN_STEP →
        VerifyPosTx env pBlock cwIn true = some false) ∧
      (((blockRunTrace env pBlock cwIn).map (fun e => e.fuel)).sum % 2 ^ 64
          ≠ toUInt64 pBlock.nFuel →
        VerifyPosTx env pBlock cwIn true = some false)) ∧
    (verifyRunTx env pBlock (env.miner.newCacheWrapper cwIn) = true ↔
      (∀ e ∈ blockRunTrace env pBlock cwIn, e.inCache = false ∧ e.ok = true) ∧
      ((blockRunTrace env pBlock cwIn).map (fun e => e.nRunStep)).sum
        ≤ env.MAX_BLOCK_RUN_STEP ∧
      ((blockRunTrace env pBlock cwIn).map (fun e => e.fuel)).sum % 2 ^ 64
        = toUInt64 pBlock.nFuel) := by
  have hiff := verifyRunTx_iff env pBlock cwIn hwrap
  have key : VerifyPosTx env pBlock cwIn true = some true →
      (∀ e ∈ blockRunTrace env pBlock cwIn, e.inCache = false ∧ e.ok = true) ∧
      ((blockRunTrace env pBlock cwIn).map (fun e => e.nRunStep)).sum
        ≤ env.MAX_BLOCK_RUN_STEP ∧
      ((blockRunTrace env pBlock cwIn).map (fun e => e.fuel)).sum % 2 ^ 64
        = toUInt64 pBlock.nFuel := by
    intro h
    obtain ⟨_, _, _, _, _, _, _, _, _, _, _, _, hrun⟩ := VerifyPosTx_true env pBlock cwIn true h
    exact hiff.mp (hrun rfl)
  refine ⟨fun h => ⟨?_, key h⟩, fun hN hN31 hBI htime hlen hprev hvptx => ?_, hiff⟩
  · unfold blockRunTrace
    rw [verifyRunTrace_index, List.length_drop]
  · have hret := VerifyPosTx_returns env pBlock cwIn true hN hN31 hBI htime hlen hprev hvptx
    refine ⟨?_, fun hv => eq_some_false_of_ne_true _ hret (fun h => ?_),
      fun hv => eq_some_false_of_ne_true _ hret (fun h => ?_),
      fun hv => eq_some_false_of_ne_true _ hret (fun h => ?_),
      fun hv => eq_some_false_of_ne_true _ hret (fun h => ?_)⟩
    · obtain ⟨r, hr⟩ := hret
      cases r with
      | false => exact Or.inr hr
      | true => exact Or.inl hr
    · obtain ⟨e, he, hbad⟩ := hv
      obtain ⟨h1, _⟩ := (key h).1 e he
      rw [h1] at hbad; exact Bool.noConfusion hbad
    · obtain ⟨e, he, hbad⟩ := hv
      obtain ⟨_, h2⟩ := (key h).1 e he
      rw [h2] at hbad; exact Bool.noConfusion hbad
    · have := (key h).2.1
      omega
    · exact hv (key h).2.2

theorem VerifyPosTx_execution_check_witness :
    VerifyPosTx (samplePosEnv lenientExec ⟨0, 1⟩) sampleSignedBlock [] true = some true ∧
    ((blockRunTrace (samplePosEnv lenientExec ⟨0, 1⟩) sampleSignedBlock []).map
        (fun e => e.nRunStep)).sum ≤ 12000000 ∧
    VerifyPosTx (samplePosEnv lenientExec ⟨0, 1⟩) { sampleSignedBlock with nFuel := 5 } [] true
      = some false ∧
    VerifyPosTx (samplePosEnv strictExec ⟨0, 1⟩) sampleSignedBlock [] true = some false :=
  ⟨by decide,
   ((VerifyPosTx_execution_check (samplePosEnv lenientExec ⟨0, 1⟩) sampleSignedBlock []
      (by intro tx _ _ _; show tx.nRunStep % 2 ^ 32 + 12000000 < 2 ^ 64; omega)).1
      (by decide)).2.2.1,
   ((VerifyPosTx_execution_check (samplePosEnv lenientExec ⟨0, 1⟩)
      { sampleSignedBlock with nFuel := 5 } []
      (by intro tx _ _ _; show tx.nRunStep % 2 ^ 32 + 12000000 < 2 ^ 64; omega)).2.1
      (by decide) (by decide) (by decide) (by decide) (fun top h => by cases h; rfl)
      (fun _ => ⟨2, rfl, fun prev h => by cases h; decide⟩) (by decide)).2.2.2.2 (by decide),
   ((VerifyPosTx_execution_check (samplePosEnv strictExec ⟨0, 1⟩) sampleSignedBlock []
      (by
        intro tx h i c
        show (strictExec tx h i c).nRunStep + 12000000 < 2 ^ 64
        unfold strictExec
        split
        · show (0 : Nat) + 12000000 < 2 ^ 64; decide
        · show tx.nRunStep % 2 ^ 32 + 12000000 < 2 ^ 64; omega)).2.1
      (by decide) (by decide) (by decide) (by decide) (fun top h => by cases h; rfl)
      (fun _ => ⟨2, rfl, fun prev h => by cases h; decide⟩) (by decide)).2.2.1
      ⟨⟨1, false, false, 0, 0⟩, by decide, rfl⟩⟩

/-! ## The round trip -/

/-- Before the fork the assembled block holds a second reward placeholder at index 1. -/
theorem CreateNewBlock_second_placeholder (env : MinerEnv) (cfg : MinerConfig)
    (chainActive : List CBlockIndex) (mempool : List CTxMemPoolEntry) (cwIn : env.CW)
    (res : NewBlockResult env.CW) (hpre : cfg.preStableCoin = true)
    (h : CreateNewBlock env cfg chainActive mempool cwIn = some res) :
    ∃ t0 t1 tail, res.pBlock.vptx = t0 :: t1 :: tail ∧
      t0.nTxType = TxType.BLOCK_REWARD_TX ∧ t1.nTxType = TxType.BLOCK_REWARD_TX := by
  unfold CreateNewBlock at h
  cases chainActive with
  | nil => simp at h
  | cons tip rest =>
    dsimp only at h
    cases hb : GetElementForBurn cfg.burn (tip :: rest) with
    | none => simp [hb] at h
    | some rate =>
      simp only [hb] at h
      cases hh : make_heap (TxPriorityCompare false) (GetPriorityTx env mempool [] rate) with
      | none => simp [hh] at h
      | some heap =>
        simp only [hh] at h
        obtain ⟨sel, hv, _⟩ := assemble_fold env cfg.burn.MAX_BLOCK_RUN_STEP
          (toUInt32 (tip.nHeight + 1)) rate (blockMaxSize cfg) heap
          { cwIn := cwIn, vptx := placeholderTxs cfg,
            nBlockSize := env.blockSerializeSize (placeholderTxs cfg) % 2 ^ 64, nBlockTx := 0,
            nTotalRunStep := 0, nTotalFuel := 0 }
        have hres := Option.some.inj h
        subst hres
        simp only [finishNewBlock]
        rw [hv]
        simp only [placeholderTxs, hpre, if_true, List.cons_append, List.nil_append,
          List.singleton_append]
        exact ⟨_, _, _, rfl, rfl, rfl⟩

/-- A successful `CreateBlockRewardTx` rewrites `vptx[0]` only and signs for
`currentTime`. -/
theorem CreateBlockRewardTx_vptx (env : PosEnv) (currentTime : Int) (delegate : CAccount)
    (accountCache : env.miner.CW) (pBlock signed : CBlock) (t0 : CBaseTx)
    (rest : List CBaseTx) (hv : pBlock.vptx = t0 :: rest)
    (h : CreateBlockRewardTx env currentTime delegate accountCache pBlock
      = some (true, signed)) :
    signed.vptx = populateRewardTx env delegate pBlock.nHeight t0 :: rest ∧
      signed.nTime = currentTime ∧ signed.nHeight = pBlock.nHeight := by
  unfold CreateBlockRewardTx at h
  cases hs : slotCheck env pBlock accountCache currentTime delegate.regId with
  | none => simp [hs] at h
  | some b =>
    cases b with
    | false => simp [hs] at h
    | true =>
      simp only [hs, hv] at h
      split at h
      · have h2 := (Prod.mk.inj (Option.some.inj h)).2
        subst h2
        exact ⟨rfl, rfl, rfl⟩
      · have h1 := (Prod.mk.inj (Option.some.inj h)).1
        exact Bool.noConfusion h1

/-- Claim C12. The round trip fails before the fork wherever a block reward
transaction is only executable at index `0`: the block `CreateNewBlock` assembles holds
a second reward placeholder at index 1, `CreateBlockRewardTx` fills in `vptx[0]` only,
and the execution check of `VerifyPosTx` executes the placeholder at index 1 as an
ordinary transaction.  Whatever the chain, the memory pool, the parent state and the
signing time, the assembled and signed block is not accepted with the execution check
enabled. -/
theorem assembleSignVerify_rejects (env : PosEnv) (cfg : MinerConfig)
    (chainActive : List CBlockIndex) (mempool : List CTxMemPoolEntry) (cwIn : env.miner.CW)
    (currentTime : Int) (hpre : cfg.preStableCoin = true)
    (hstrict : ∀ tx h i c, tx.nTxType = TxType.BLOCK_REWARD_TX → i ≠ 0 →
      (env.miner.ExecuteTx tx h i c).ok = false) :
    assembleSignVerify env cfg chainActive mempool cwIn currentTime true ≠ some true := by
  intro h
  unfold assembleSignVerify at h
  cases hc : CreateNewBlock env.miner cfg chainActive mempool cwIn with
  | none => simp [hc] at h
  | some res =>
    simp only [hc] at h
    cases hd : scheduledDelegate env res.cwIn res.pBlock.nHeight currentTime with
    | none => simp [hd] at h
    | some delegate =>
      simp only [hd] at h
      cases hs : CreateBlockRewardTx env currentTime delegate res.cwIn res.pBlock with
      | none => simp [hs] at h
      | some p =>
        obtain ⟨b, signed⟩ := p
        cases b with
        | false => simp [hs] at h
        | true =>
          simp only [hs] at h
          obtain ⟨t0, t1, tail, hv, _, ht1⟩ :=
            CreateNewBlock_second_placeholder env.miner cfg chainActive mempool cwIn res hpre hc
          obtain ⟨hsv, _, _⟩ := CreateBlockRewardTx_vptx env currentTime delegate res.cwIn
            res.pBlock signed t0 (t1 :: tail) hv hs
          obtain ⟨_, _, _, _, _, _, _, _, _, _, _, _, hrun⟩ :=
            VerifyPosTx_true env signed cwIn true h
          have hrun2 := hrun rfl
          unfold verifyRunTx at hrun2
          rw [hsv] at hrun2
          simp only [List.drop_succ_cons, List.drop_zero, verifyRunLoop] at hrun2
          have hbad := hstrict t1 signed.nHeight 1
            (env.txUndoClear (env.miner.newCacheWrapper cwIn)) ht1 (by decide)
          rw [hbad] at hrun2
          by_cases hcache : env.txCacheHaveTx (env.miner.newCacheWrapper cwIn) t1.hash = true
          · rw [if_pos hcache] at hrun2
            simp at hrun2
          · rw [if_neg hcache] at hrun2
            simp at hrun2

theorem assembleSignVerify_rejects_witness :
    assembleSignVerify (samplePosEnv strictExec ⟨0, 1⟩) sampleMinerConfig
        (uniformChain 0 100 3) [] [] 120 true ≠ some true ∧
    assembleSignVerify (samplePosEnv strictExec ⟨0, 1⟩) sampleMinerConfig
        (uniformChain 0 100 3) [] [] 120 true = some false ∧
    assembleSignVerify (samplePosEnv strictExec ⟨0, 1⟩) sampleMinerConfig
        (uniformChain 0 100 3) [] [] 120 false = some true := by
  refine ⟨assembleSignVerify_rejects (samplePosEnv strictExec ⟨0, 1⟩) sampleMinerConfig
      (uniformChain 0 100 3) [] [] 120 rfl
      (fun tx h i c ht hi => by
        show (strictExec tx h i c).ok = false
        unfold strictExec
        rw [if_pos ⟨ht, hi⟩]), ?_⟩
  have h1 : CreateNewBlock (samplePosEnv strictExec ⟨0, 1⟩).miner sampleMinerConfig
      (uniformChain 0 100 3) [] [] = some sampleAssembled := by rfl
  have h2 : scheduledDelegate (samplePosEnv strictExec ⟨0, 1⟩) sampleAssembled.cwIn
      sampleAssembled.pBlock.nHeight 120 = some (sampleAccount ⟨2, 1⟩) := by decide
  have h3 : CreateBlockRewardTx (samplePosEnv strictExec ⟨0, 1⟩) 120 (sampleAccount ⟨2, 1⟩)
      sampleAssembled.cwIn sampleAssembled.pBlock = some (true, sampleSignedBlock) := by decide
  have h4 : VerifyPosTx (samplePosEnv strictExec ⟨0, 1⟩) sampleSignedBlock [] true
      = some false := by decide
  have h5 : VerifyPosTx (samplePosEnv strictExec ⟨0, 1⟩) sampleSignedBlock [] false
      = some true := by decide
  unfold assembleSignVerify
  simp only [h1, h2, h3]
  exact ⟨h4, h5⟩

/-! ## Totality of the fuel-rate estimator -/

/-- Claim C24. Whenever `CreateBlockRewardTx` returns true, the block it leaves has
the transactions of the block it was given with `txs[0]` populated; when `txs[0]` is a
reward transaction (block reward or multi-coin block reward) its `txUid` is
`delegate.regId` and its `nValidHeight` is the height of the block; the time of the
block is `currentTime`; and the merkle root is `BuildMerkleTree` over the final
transaction list (computed after the fields were populated), so the merkle check of
the verifier does not reject the signed block. -/
theorem CreateBlockRewardTx_true (env : PosEnv) (currentTime : Int) (delegate : CAccount)
    (accountCache : env.miner.CW) (pBlock signed : CBlock)
    (h : CreateBlockRewardTx env currentTime delegate accountCache pBlock
      = some (true, signed)) :
    ∃ tx0 rest,
      pBlock.vptx = tx0 :: rest ∧
      signed.vptx = populateRewardTx env delegate pBlock.nHeight tx0 :: rest ∧
      (tx0.nTxType = TxType.BLOCK_REWARD_TX ∨ tx0.nTxType = TxType.UCOIN_BLOCK_REWARD_TX →
        ∃ t rest1, signed.vptx = t :: rest1 ∧ t.txUid = delegate.regId ∧
          t.nValidHeight = (signed.nHeight : Int)) ∧
      signed.nHeight = pBlock.nHeight ∧
      signed.nTime = currentTime ∧
      signed.hashMerkleRoot = env.BuildMerkleTree signed.vptx ∧
      ¬ (signed.hashMerkleRoot ≠ env.BuildMerkleTree signed.vptx) := by
  unfold CreateBlockRewardTx at h
  cases hs : slotCheck env pBlock accountCache currentTime delegate.regId with
  | none => simp [hs] at h
  | some b =>
    cases b with
    | false => simp [hs] at h
    | true =>
      cases hv : pBlock.vptx with
      | nil => simp [hs, hv] at h
      | cons tx0 rest =>
        simp only [hs, hv] at h
        split at h
        · have h2 := (Prod.mk.inj (Option.some.inj h)).2
          subst h2
          refine ⟨tx0, rest, rfl, rfl, fun ht => ⟨_, _, rfl, ?_, ?_⟩, rfl, rfl, rfl,
            fun hne => hne rfl⟩
          · unfold populateRewardTx
            rcases ht with ht | ht
            · rw [if_pos ht]
            · rw [if_neg (by rw [ht]; decide), if_pos ht]
          · unfold populateRewardTx
            rcases ht with ht | ht
            · rw [if_pos ht]
            · rw [if_neg (by rw [ht]; decide), if_pos ht]
        · have h1 := (Prod.mk.inj (Option.some.inj h)).1
          exact Bool.noConfusion h1

theorem CreateBlockRewardTx_true_witness :
    ∃ tx0 rest,
      sampleAssembled.pBlock.vptx = tx0 :: rest ∧
      sampleSignedBlock.vptx = populateRewardTx (samplePosEnv lenientExec ⟨0, 1⟩)
        (sampleAccount ⟨2, 1⟩) sampleAssembled.pBlock.nHeight tx0 :: rest ∧
      (tx0.nTxType = TxType.BLOCK_REWARD_TX ∨ tx0.nTxType = TxType.UCOIN_BLOCK_REWARD_TX →
        ∃ t rest1, sampleSignedBlock.vptx = t :: rest1 ∧
          t.txUid = (sampleAccount ⟨2, 1⟩).regId ∧
          t.nValidHeight = (sampleSignedBlock.nHeight : Int)) ∧
      sampleSignedBlock.nHeight = sampleAssembled.pBlock.nHeight ∧
      sampleSignedBlock.nTime = 120 ∧
      sampleSignedBlock.hashMerkleRoot
        = (samplePosEnv lenientExec ⟨0, 1⟩).BuildMerkleTree sampleSignedBlock.vptx ∧
      ¬ (sampleSignedBlock.hashMerkleRoot
        ≠ (samplePosEnv lenientExec ⟨0, 1⟩).BuildMerkleTree sampleSignedBlock.vptx) :=
  CreateBlockRewardTx_true (samplePosEnv lenientExec ⟨0, 1⟩) 120 (sampleAccount ⟨2, 1⟩)
    sampleAssembled.cwIn sampleAssembled.pBlock sampleSignedBlock (by decide)

/-! ## The placeholder transactions -/

/-- Claim C22, what the code does instead. The block `CreateNewBlock` returns starts
with the reward transaction of line 298 followed by the transactions of the branch of
lines 299-305: before the fork a second reward transaction (count = 2 + number of
selected transactions, not 1 + that number), after the fork a multi-coin reward
transaction and a price-median transaction behind the reward transaction (count =
3 + that number, not 2 + that number). -/
theorem CreateNewBlock_placeholders (env : MinerEnv) (cfg : MinerConfig) (tip : CBlockIndex)
    (rest : List CBlockIndex) (mempool : List CTxMemPoolEntry) (cwIn : env.CW) (rate : Int)
    (hburn : GetElementForBurn cfg.burn (tip :: rest) = some rate) :
    ∃ (res : NewBlockResult env.CW) (sel : List CBaseTx),
      CreateNewBlock env cfg (tip :: rest) mempool cwIn = some res ∧
      (cfg.preStableCoin = true →
        res.pBlock.vptx.map (fun tx => tx.nTxType)
          = [TxType.BLOCK_REWARD_TX, TxType.BLOCK_REWARD_TX] ++ sel.map (fun tx => tx.nTxType) ∧
        res.pBlock.vptx.drop 2 = sel ∧
        res.pBlock.vptx.length = 2 + sel.length) ∧
      (cfg.preStableCoin = false →
        res.pBlock.vptx.map (fun tx => tx.nTxType)
          = [TxType.BLOCK_REWARD_TX, TxType.UCOIN_BLOCK_REWARD_TX,
              TxType.BLOCK_PRICE_MEDIAN_TX] ++ sel.map (fun tx => tx.nTxType) ∧
        res.pBlock.vptx.drop 3 = sel ∧
        res.pBlock.vptx.length = 3 + sel.length) := by
  obtain ⟨heap, hheap, _⟩ :=
    make_heap_some (TxPriorityCompare false) (GetPriorityTx env mempool [] rate)
  obtain ⟨sel, hv, _⟩ := assemble_fold env cfg.burn.MAX_BLOCK_RUN_STEP
    (toUInt32 (tip.nHeight + 1)) rate (blockMaxSize cfg) heap
    { cwIn := cwIn, vptx := placeholderTxs cfg,
      nBlockSize := env.blockSerializeSize (placeholderTxs cfg) % 2 ^ 64, nBlockTx := 0,
      nTotalRunStep := 0, nTotalFuel := 0 }
  refine ⟨finishNewBlock env tip (toUInt32 (tip.nHeight + 1)) rate
    (heap.foldl (assembleStep env cfg.burn.MAX_BLOCK_RUN_STEP (toUInt32 (tip.nHeight + 1)) rate
      (blockMaxSize cfg))
      { cwIn := cwIn, vptx := placeholderTxs cfg,
        nBlockSize := env.blockSerializeSize (placeholderTxs cfg) % 2 ^ 64, nBlockTx := 0,
        nTotalRunStep := 0, nTotalFuel := 0 }), sel, ?_, fun hpre => ?_, fun hpost => ?_⟩
  · unfold CreateNewBlock
    simp only [hburn, hheap]
  · simp only [finishNewBlock]
    rw [hv]
    simp [placeholderTxs, hpre, newBlockRewardTx]
    omega
  · simp only [finishNewBlock]
    rw [hv]
    simp [placeholderTxs, hpost, newBlockRewardTx, newMultiCoinBlockRewardTx,
      newBlockPriceMedianTx]
    omega

theorem CreateNewBlock_placeholders_witness :
    (∃ (res : NewBlockResult sampleEnv.CW) (sel : List CBaseTx),
      CreateNewBlock sampleEnv sampleMinerConfig (⟨2, 20, 0, 100, 2⟩ :: uniformChain 0 100 2)
        samplePool [] = some res ∧
      res.pBlock.vptx.map (fun tx => tx.nTxType)
        = [TxType.BLOCK_REWARD_TX, TxType.BLOCK_REWARD_TX] ++ sel.map (fun tx => tx.nTxType) ∧
      res.pBlock.vptx.drop 2 = sel ∧
      res.pBlock.vptx.length = 2 + sel.length) ∧
    (CreateNewBlock sampleEnv sampleMinerConfig (uniformChain 0 100 3) samplePool []).map
        (fun r => (r.pBlock.vptx.map (fun tx => (tx.nTxType, tx.hash)), r.nLastBlockTx))
      = some ([(TxType.BLOCK_REWARD_TX, 0), (TxType.BLOCK_REWARD_TX, 0),
          (TxType.OTHER_TX 0, 2), (TxType.OTHER_TX 0, 1), (TxType.OTHER_TX 0, 3)], 3) ∧
    (CreateNewBlock sampleEnv { sampleMinerConfig with preStableCoin := false }
        (uniformChain 0 100 3) samplePool []).map
        (fun r => (r.pBlock.vptx.map (fun tx => (tx.nTxType, tx.hash)), r.nLastBlockTx))
      = some ([(TxType.BLOCK_REWARD_TX, 0), (TxType.UCOIN_BLOCK_REWARD_TX, 0),
          (TxType.BLOCK_PRICE_MEDIAN_TX, 0),
          (TxType.OTHER_TX 0, 2), (TxType.OTHER_TX 0, 1), (TxType.OTHER_TX 0, 3)], 3) := by
  obtain ⟨res, sel, h1, h2, _⟩ := CreateNewBlock_placeholders sampleEnv sampleMinerConfig
    ⟨2, 20, 0, 100, 2⟩ (uniformChain 0 100 2) samplePool [] 100 (by decide)
  exact ⟨⟨res, sel, h1, h2 rfl⟩, by decide, by decide⟩

/-! ## Skipped candidates -/

/-- A skipped candidate leaves the state of the selection loop as it is. -/
theorem assembleStep_of_skips (env : MinerEnv) (MAX nHeight : Nat) (nFuelRate : Int)
    (nBlockMaxSize : Nat) (st : AssemblyState env.CW) (item : TxPriority)
    (h : skipsCandidate env MAX nHeight nFuelRate nBlockMaxSize st item = true) :
    assembleStep env MAX nHeight nFuelRate nBlockMaxSize st item = st := by
  unfold skipsCandidate at h
  unfold assembleStep
  simp only at h ⊢
  split
  · rfl
  · rename_i hsize
    rw [if_neg hsize] at h
    split
    · rfl
    · rename_i hok
      rw [if_neg hok] at h
      split
      · rfl
      · rename_i hstep
        rw [if_neg hstep] at h
        exact Bool.noConfusion h

/-- An included candidate is executed on a fork of the parent cache and committed: the
parent cache becomes the flushed fork, the executed transaction is appended and the
totals grow by it. -/
theorem assembleStep_of_included (env : MinerEnv) (MAX nHeight : Nat) (nFuelRate : Int)
    (nBlockMaxSize : Nat) (st : AssemblyState env.CW) (item : TxPriority)
    (h : skipsCandidate env MAX nHeight nFuelRate nBlockMaxSize st item = false) :
    assembleStep env MAX nHeight nFuelRate nBlockMaxSize st item =
      { cwIn := env.Flush
          (env.ExecuteTx { item.tx with nFuelRate := nFuelRate } nHeight (st.nBlockTx + 1)
            (env.newCacheWrapper st.cwIn)).cw st.cwIn
        vptx := st.vptx ++
          [{ item.tx with
              nFuelRate := nFuelRate
              nRunStep := (env.ExecuteTx { item.tx with nFuelRate := nFuelRate } nHeight
                (st.nBlockTx + 1) (env.newCacheWrapper st.cwIn)).nRunStep }]
        nBlockSize := (st.nBlockSize + item.tx.nSerializeSize % 2 ^ 32) % 2 ^ 64
        nBlockTx := (st.nBlockTx + 1) % 2 ^ 64
        nTotalRunStep := (st.nTotalRunStep
          + (env.ExecuteTx { item.tx with nFuelRate := nFuelRate } nHeight (st.nBlockTx + 1)
              (env.newCacheWrapper st.cwIn)).nRunStep) % 2 ^ 64
        nTotalFuel := toInt64 (st.nTotalFuel + (env.GetFuel
          { item.tx with
              nFuelRate := nFuelRate
              nRunStep := (env.ExecuteTx { item.tx with nFuelRate := nFuelRate } nHeight
                (st.nBlockTx + 1) (env.newCacheWrapper st.cwIn)).nRunStep } nFuelRate : Int)) } := by
  unfold skipsCandidate at h
  unfold assembleStep
  simp only at h ⊢
  split
  · rename_i hsize
    rw [if_pos hsize] at h
    exact Bool.noConfusion h
  · rename_i hsize
    rw [if_neg hsize] at h
    split
    · rename_i hok
      rw [if_pos hok] at h
      exact Bool.noConfusion h
    · rename_i hok
      rw [if_neg hok] at h
      split
      · rename_i hstep
        rw [if_pos hstep] at h
        exact Bool.noConfusion h
      · rfl

/-- The selection loop over all candidates ends in the state of the loop over the
included candidates alone. -/
theorem foldl_includedCandidates (env : MinerEnv) (MAX nHeight : Nat) (nFuelRate : Int)
    (nBlockMaxSize : Nat) :
    ∀ (heap : List TxPriority) (st : AssemblyState env.CW),
      heap.foldl (assembleStep env MAX nHeight nFuelRate nBlockMaxSize) st
        = (includedCandidates env MAX nHeight nFuelRate nBlockMaxSize heap st).foldl
            (assembleStep env MAX nHeight nFuelRate nBlockMaxSize) st ∧
      (heap.foldl (assembleStep env MAX nHeight nFuelRate nBlockMaxSize) st).vptx.length
        = st.vptx.length
          + (includedCandidates env MAX nHeight nFuelRate nBlockMaxSize heap st).length := by
  intro heap
  induction heap with
  | nil => intro st; exact ⟨rfl, rfl⟩
  | cons item rest ih =>
    intro st
    rw [List.foldl_cons]
    unfold includedCandidates
    by_cases hskip : skipsCandidate env MAX nHeight nFuelRate nBlockMaxSize st item = true
    · rw [if_pos hskip, assembleStep_of_skips env MAX nHeight nFuelRate nBlockMaxSize st item hskip]
      exact ih st
    · rw [if_neg hskip, List.foldl_cons]
      obtain ⟨h1, h2⟩ := ih (assembleStep env MAX nHeight nFuelRate nBlockMaxSize st item)
      refine ⟨h1, ?_⟩
      rw [h2, assembleStep_of_included env MAX nHeight nFuelRate nBlockMaxSize st item
        (by simpa using hskip)]
      simp only [List.length_append, List.length_cons, List.length_nil]
      omega

/-- Claim C21. A candidate is skipped exactly when the size limit is reached, the
execution is rejected or the run-step limit is reached.  For every skipped candidate
the state of the selection loop (the parent cache passed in, the transaction list of
the block, `nBlockTx`, `nBlockSize`, the step total and the fuel total) is after the
iteration what it was before, and the loop goes on with the next candidate from that
state.  The parent cache is changed only by the commit of a transaction that is
appended to the block (it becomes the flushed fork that transaction was executed on),
so the loop over all candidates ends in the state of the loop over the included
candidates alone, and the block grows by one transaction per included candidate. -/
theorem assembleStep_frame (env : MinerEnv) (MAX nHeight : Nat) (nFuelRate : Int)
    (nBlockMaxSize : Nat) (st : AssemblyState env.CW) (item : TxPriority) :
    (skipsCandidate env MAX nHeight nFuelRate nBlockMaxSize st item = true ↔
      ((st.nBlockSize + item.tx.nSerializeSize % 2 ^ 32) % 2 ^ 64 ≥ nBlockMaxSize
        ∨ (env.ExecuteTx { item.tx with nFuelRate := nFuelRate } nHeight (st.nBlockTx + 1)
            (env.newCacheWrapper st.cwIn)).ok = false
        ∨ (st.nTotalRunStep
            + (env.ExecuteTx { item.tx with nFuelRate := nFuelRate } nHeight (st.nBlockTx + 1)
                (env.newCacheWrapper st.cwIn)).nRunStep) % 2 ^ 64 ≥ MAX)) ∧
    (skipsCandidate env MAX nHeight nFuelRate nBlockMaxSize st item = true →
      assembleStep env MAX nHeight nFuelRate nBlockMaxSize st item = st ∧
      ∀ rest : List TxPriority,
        (item :: rest).foldl (assembleStep env MAX nHeight nFuelRate nBlockMaxSize) st
          = rest.foldl (assembleStep env MAX nHeight nFuelRate nBlockMaxSize) st) ∧
    (skipsCandidate env MAX nHeight nFuelRate nBlockMaxSize st item = false →
      (assembleStep env MAX nHeight nFuelRate nBlockMaxSize st item).cwIn
        = env.Flush
          (env.ExecuteTx { item.tx with nFuelRate := nFuelRate } nHeight (st.nBlockTx + 1)
            (env.newCacheWrapper st.cwIn)).cw st.cwIn ∧
      (assembleStep env MAX nHeight nFuelRate nBlockMaxSize st item).vptx
        = st.vptx ++
          [{ item.tx with
              nFuelRate := nFuelRate
              nRunStep := (env.ExecuteTx { item.tx with nFuelRate := nFuelRate } nHeight
                (st.nBlockTx + 1) (env.newCacheWrapper st.cwIn)).nRunStep }]) ∧
    ((assembleStep env MAX nHeight nFuelRate nBlockMaxSize st item).cwIn ≠ st.cwIn →
      (assembleStep env MAX nHeight nFuelRate nBlockMaxSize st item).vptx.length
        = st.vptx.length + 1) ∧
    (∀ heap : List TxPriority,
      heap.foldl (assembleStep env MAX nHeight nFuelRate nBlockMaxSize) st
        = (includedCandidates env MAX nHeight nFuelRate nBlockMaxSize heap st).foldl
            (assembleStep env MAX nHeight nFuelRate nBlockMaxSize) st ∧
      (heap.foldl (assembleStep env MAX nHeight nFuelRate nBlockMaxSize) st).vptx.length
        = st.vptx.length
          + (includedCandidates env MAX nHeight nFuelRate nBlockMaxSize heap st).length) := by
  refine ⟨?_, fun h => ?_, fun h => ?_, fun hne => ?_, fun heap =>
    foldl_includedCandidates env MAX nHeight nFuelRate nBlockMaxSize heap st⟩
  · unfold skipsCandidate
    simp only
    by_cases hsize : (st.nBlockSize + item.tx.nSerializeSize % 2 ^ 32) % 2 ^ 64 ≥ nBlockMaxSize
    · rw [if_pos hsize]
      exact ⟨fun _ => Or.inl hsize, fun _ => rfl⟩
    · rw [if_neg hsize]
      by_cases hok : (env.ExecuteTx { item.tx with nFuelRate := nFuelRate } nHeight
          (st.nBlockTx + 1) (env.newCacheWrapper st.cwIn)).ok = false
      · rw [if_pos hok]
        exact ⟨fun _ => Or.inr (Or.inl hok), fun _ => rfl⟩
      · rw [if_neg hok]
        by_cases hstep : (st.nTotalRunStep
            + (env.ExecuteTx { item.tx with nFuelRate := nFuelRate } nHeight (st.nBlockTx + 1)
                (env.newCacheWrapper st.cwIn)).nRunStep) % 2 ^ 64 ≥ MAX
        · rw [if_pos hstep]
          exact ⟨fun _ => Or.inr (Or.inr hstep), fun _ => rfl⟩
        · rw [if_neg hstep]
          constructor
          · intro hf; exact Bool.noConfusion hf
          · rintro (h1 | h1 | h1)
            · exact absurd h1 hsize
            · exact absurd h1 hok
            · exact absurd h1 hstep
  · have hst := assembleStep_of_skips env MAX nHeight nFuelRate nBlockMaxSize st item h
    refine ⟨hst, fun rest => ?_⟩
    rw [List.foldl_cons, hst]
  · rw [assembleStep_of_included env MAX nHeight nFuelRate nBlockMaxSize st item h]
    exact ⟨rfl, rfl⟩
  · by_cases hskip : skipsCandidate env MAX nHeight nFuelRate nBlockMaxSize st item = true
    · rw [assembleStep_of_skips env MAX nHeight nFuelRate nBlockMaxSize st item hskip] at hne
      exact absurd rfl hne
    · rw [assembleStep_of_included env MAX nHeight nFuelRate nBlockMaxSize st item
        (by simpa using hskip)]
      simp

theorem assembleStep_frame_witness :
    assembleStep (constStepEnv 4000000) 12000000 3 100 3999000 sampleAssemblyState
        (sampleCandidate 3 (TxType.OTHER_TX 0) 200 0) = sampleAssemblyState ∧
    assembleStep (listEnv strictExec) 12000000 3 100 3999000 sampleAssemblyState
        (sampleCandidate 3 TxType.BLOCK_REWARD_TX 200 0) = sampleAssemblyState ∧
    assembleStep (listEnv strictExec) 12000000 3 100 3999000 sampleAssemblyState
        (sampleCandidate 3 (TxType.OTHER_TX 0) 3998400 0) = sampleAssemblyState ∧
    (assembleStep (listEnv strictExec) 12000000 3 100 3999000 sampleAssemblyState
        (sampleCandidate 3 (TxType.OTHER_TX 0) 200 10)).cwIn = [1, 2, 3] :=
  ⟨((assembleStep_frame (constStepEnv 4000000) 12000000 3 100 3999000 sampleAssemblyState
      (sampleCandidate 3 (TxType.OTHER_TX 0) 200 0)).2.1 (by decide)).1,
   ((assembleStep_frame (listEnv strictExec) 12000000 3 100 3999000 sampleAssemblyState
      (sampleCandidate 3 TxType.BLOCK_REWARD_TX 200 0)).2.1 (by decide)).1,
   ((assembleStep_frame (listEnv strictExec) 12000000 3 100 3999000 sampleAssemblyState
      (sampleCandidate 3 (TxType.OTHER_TX 0) 3998400 0)).2.1 (by decide)).1,
   ((assembleStep_frame (listEnv strictExec) 12000000 3 100 3999000 sampleAssemblyState
      (sampleCandidate 3 (TxType.OTHER_TX 0) 200 10)).2.2.1 (by decide)).1⟩

/-! ## Submission of the signed block -/

/-- Claim C23, what the code does instead. In an iteration of `MineBlock` in which the
block is signed (peers or regtest, the tip unchanged, the scheduled delegate resolved and
its key in the wallet, `CreateBlockRewardTx` true), `MineBlock` pushes the record of the
signed block to the ring and returns true whatever `CheckWork` returns: the result of
`CheckWork` is dropped, so a stale block (its previous hash no longer the chain tip) or a
block `ProcessBlock` rejects is recorded and reported as mined all the same. -/
theorem MineBlock_ignores_CheckWork (env : MineEnv) (tick : MineTick) (later : List MineTick)
    (pIndexPrev : CBlockIndex) (nTransactionsUpdated : Nat) (nStart : Int)
    (cw : env.pos.miner.CW) (pBlock signed : CBlock) (miningBlockInfo : MinedBlockInfo)
    (minedBlocks : List MinedBlockInfo) (topDelegates delegatesList : List CRegID)
    (flag : Bool) (regId : CRegID) (minerAcct : CAccount)
    (hnodes : ¬ (tick.vNodesEmpty = true ∧ env.isRegtest = false))
    (htip : pIndexPrev = tick.tip)
    (htop : env.pos.GetTopDelegates cw = some topDelegates)
    (hshuffle : ShuffleDelegates env.pos.hw env.pos.totalDelegateNum (toInt32 pBlock.nHeight)
        topDelegates = some delegatesList)
    (hcur : GetCurrentDelegate env.pos.blockInterval env.pos.totalDelegateNum
        (max tick.now (pIndexPrev.nTime + env.pos.blockInterval)) delegatesList
        = some (flag, regId))
    (hacc : env.pos.GetAccount cw regId = some minerAcct)
    (hheight : toUInt32 (tick.tipAtSign.nHeight + 1) = pBlock.nHeight)
    (hkey : (env.GetKey minerAcct.keyId true || env.GetKey minerAcct.keyId false) = true)
    (hsign : CreateBlockRewardTx env.pos (max tick.now (pIndexPrev.nTime + env.pos.blockInterval))
        minerAcct cw pBlock = some (true, signed)) :
    MineBlock env pIndexPrev nTransactionsUpdated nStart cw (tick :: later) pBlock
        miningBlockInfo minedBlocks
      = some ⟨true,
          push_front env.kMaxMinedBlocks minedBlocks
            (fillMinedBlockInfo env miningBlockInfo signed),
          signed, fillMinedBlockInfo env miningBlockInfo signed⟩ ∧
    (signed.hashPrevBlock ≠ tick.tipAtCheck.hash ∨ tick.ProcessBlock signed = false →
      CheckWork tick.tipAtCheck tick.ProcessBlock signed = false) := by
  constructor
  · unfold MineBlock
    rw [if_neg hnodes, if_neg (by simpa using htip)]
    simp only [htop, hshuffle, hcur, hacc]
    rw [if_neg (by simpa using hheight)]
    simp only [hkey, if_true, hsign]
  · intro h
    unfold CheckWork
    rcases h with h | h
    · rw [if_pos h]
    · by_cases h1 : signed.hashPrevBlock ≠ tick.tipAtCheck.hash
      · rw [if_pos h1]
      · rw [if_neg h1, if_pos h]

theorem MineBlock_ignores_CheckWork_witness :
    MineBlock sampleMineEnv ⟨2, 100, 0, 100, 2⟩ 0 100 [] [staleTick] sampleAssembled.pBlock
        { nBlockSize := 200 } []
      = some ⟨true,
          [{ nTime := 120, nNonce := 500, nHeight := 3, nFuelRate := 100, nBlockSize := 200
             hash := 3055, hashPrevBlock := 3055 }],
          sampleSignedBlock,
          { nTime := 120, nNonce := 500, nHeight := 3, nFuelRate := 100, nBlockSize := 200
            hash := 3055, hashPrevBlock := 3055 }⟩ ∧
    CheckWork staleTick.tipAtCheck staleTick.ProcessBlock sampleSignedBlock = false := by
  obtain ⟨h1, h2⟩ := MineBlock_ignores_CheckWork sampleMineEnv staleTick []
    ⟨2, 100, 0, 100, 2⟩ 0 100 [] sampleAssembled.pBlock sampleSignedBlock { nBlockSize := 200 }
    [] (sampleDelegates 3) [⟨2, 1⟩, ⟨0, 1⟩, ⟨1, 1⟩] true ⟨2, 1⟩ (sampleAccount ⟨2, 1⟩)
    (by decide) rfl rfl (by decide) (by decide) rfl (by decide) rfl (by decide)
  exact ⟨h1, h2 (Or.inl (by decide))⟩

end WaykiChain
